import Mathlib

/-!
# FLINT `fmpz_poly/divrem_divconquer.c`: a shallow embedding

Coefficients (`fmpz`) are exact integers, so they are `Int`.  Lengths and
offsets are C `long`s; they are `Int` as well, so that every comparison and
difference of the source (`lenA < 2 * lenB - 1`, `lenA - lenB + 1`, ...) reads
as it does in C.

A coefficient array (`fmpz *`) is a function from offsets to coefficients.
A pointer `p + off` is the shifted view `ptr p off`.  A routine that writes
through a destination pointer takes the destination array together with the
offset, and returns the updated array (explicit state passing).  The source
arguments of a vector routine are views of the state before the call, which
is exact for the calls of this file: where a destination aliases a source,
they are the same pointer and the routine works index by index.

The driver and the wrapper are translated from the source.  Their
collaborators that live elsewhere in the library (vector primitives, the
multiplier, the balanced base-case divider, polynomial object helpers) are
modelled from the specification and marked so.
-/

namespace FmpzPoly

/-- A coefficient array `fmpz *`, addressed by a signed offset. -/
abbrev Buf := Int → Int

/-- Pointer arithmetic `p + off`. -/
def ptr (p : Buf) (off : Int) : Buf := fun i => p (off + i)

/-- The array holding the coefficients of a list, zero elsewhere. -/
def ofList (l : List Int) : Buf := fun i => if 0 ≤ i then l.getD i.toNat 0 else 0

/-- The window `p[0 .. len)` as a list. -/
def toList (p : Buf) (len : Int) : List Int :=
  (List.range len.toNat).map (fun (j : Nat) => p (j : Int))

/-- Modelled from the spec: arena `allocate(n)`, the source's
`_fmpz_vec_init(len)`: a fresh array of zero coefficients. -/
def _fmpz_vec_init (_len : Int) : Buf := fun _ => 0

/-- Modelled from the spec: arena `copy`, the source's
`_fmpz_vec_copy(res + off, src, len)`. -/
def _fmpz_vec_copy (res : Buf) (off : Int) (src : Buf) (len : Int) : Buf :=
  fun i => if off ≤ i ∧ i < off + len then src (i - off) else res i

/-- Modelled from the spec: arena `add_inplace`, the source's
`_fmpz_vec_add(res + off, a, b, len)`. -/
def _fmpz_vec_add (res : Buf) (off : Int) (a b : Buf) (len : Int) : Buf :=
  fun i => if off ≤ i ∧ i < off + len then a (i - off) + b (i - off) else res i

/-- Modelled from the spec: arena `subtract_inplace`, the source's
`_fmpz_vec_sub(res + off, a, b, len)`. -/
def _fmpz_vec_sub (res : Buf) (off : Int) (a b : Buf) (len : Int) : Buf :=
  fun i => if off ≤ i ∧ i < off + len then a (i - off) - b (i - off) else res i

/-- Modelled from the spec: coefficient `i` of the product of the windows
`X[0 .. m)` and `Y[0 .. n)`, the sum of `X[j] * Y[i-j]`. -/
def poly_mul_coeff (X : Buf) (m : Int) (Y : Buf) (n : Int) (i : Int) : Int :=
  ∑ j in Finset.range m.toNat, if 0 ≤ i - j ∧ i - j < n then X j * Y (i - j) else 0

/-- Modelled from the spec: `multiply(X: window[m], Y: window[n]) ->
window[m+n-1]`, the source's `_fmpz_poly_mul(res, poly1, len1, poly2, len2)`. -/
def _fmpz_poly_mul (res : Buf) (poly1 : Buf) (len1 : Int) (poly2 : Buf) (len2 : Int) : Buf :=
  fun i => if 0 ≤ i ∧ i < len1 + len2 - 1 then poly_mul_coeff poly1 len1 poly2 len2 i else res i

/-- The balanced base-case divider as a black box: from a dividend window
of length `2k-1`, a divisor window of length `k` and `k`, the `k` quotient
coefficients and the `2k-1` coefficients of the partial product
(`base_divide(P: window[2k-1], D: window[k]) -> (Q: window[k],
partial_product: window[2k-1])`). -/
abbrev BaseDivider := Buf → Buf → Int → Buf × Buf

/-- The call `_fmpz_poly_divrem_divconquer_recursive(Q + qoff, BQ + bqoff, A,
B, lenB)`: the divider's quotient is stored in `Q[qoff .. qoff+lenB)`, its
partial product in `BQ[bqoff .. bqoff+2 lenB-1)`. -/
def _fmpz_poly_divrem_divconquer_recursive (base : BaseDivider)
    (Q : Buf) (qoff : Int) (BQ : Buf) (bqoff : Int) (A B : Buf) (lenB : Int) : Buf × Buf :=
  (_fmpz_vec_copy Q qoff (base A B lenB).1 lenB,
   _fmpz_vec_copy BQ bqoff (base A B lenB).2 (2 * lenB - 1))

/-- The arrays a driver call works on. -/
inductive Mem
  | Q | R | A | B | d2q1 | dq1
  deriving DecidableEq

/-- What one run of the driver does, in order. -/
inductive Event
  /-- Entry of `_fmpz_poly_divrem_divconquer` with these lengths. -/
  | driver (lenA lenB : Int)
  /-- The branch `lenA < 2 lenB - 1`. -/
  | deficient (n1 n2 : Int)
  /-- The branch `lenA > 2 lenB - 1`. -/
  | excessive (shift : Int)
  /-- The branch `lenA = 2 lenB - 1`. -/
  | balanced
  /-- A base-case call on the dividend window `A + aoff` (length `2k-1`) and
  the divisor window `B + boff` (length `k`). -/
  | base (aoff boff k : Int)
  /-- A call `_fmpz_poly_mul(_, _, len1, _, len2)`. -/
  | mul (len1 len2 : Int)
  /-- A window `m[off .. off+len)` that is read. -/
  | read (m : Mem) (off len : Int)
  /-- A window `m[off .. off+len)` that is written. -/
  | write (m : Mem) (off len : Int)
  deriving DecidableEq

/-- The output of a driver run: the final `Q` and `R` arrays and the log. -/
structure DivremOut where
  Q : Buf
  R : Buf
  log : List Event

/-- The base-case call of the deficient branch (source line 54): the
quotient goes to `Q`, the partial product `d1q1` to `R + n2`. -/
def deficient_base (base : BaseDivider) (Q R A : Buf) (lenA : Int) (B : Buf) (lenB : Int) :
    Buf × Buf :=
  let n1 := lenA - lenB + 1
  let n2 := lenB - n1
  let p1 := ptr A n2
  let d1 := ptr B n2
  _fmpz_poly_divrem_divconquer_recursive base Q 0 R n2 p1 d1 n1

/-- The scratch `d2q1` of the deficient branch after the multiplier call
(source lines 52-63). -/
def deficient_d2q1 (base : BaseDivider) (Q R A : Buf) (lenA : Int) (B : Buf) (lenB : Int) :
    Buf :=
  let n1 := lenA - lenB + 1
  let n2 := lenB - n1
  let d2 := B
  let d2q1 := _fmpz_vec_init (lenB - 1)
  let Q1 := (deficient_base base Q R A lenA B lenB).1
  if n1 ≥ n2 then _fmpz_poly_mul d2q1 Q1 n1 d2 n2
  else _fmpz_poly_mul d2q1 d2 n2 Q1 n1

/-- The deficient branch of `_fmpz_poly_divrem_divconquer` (source lines
38-75). -/
def deficient_branch (base : BaseDivider) (Q R A : Buf) (lenA : Int) (B : Buf) (lenB : Int) :
    DivremOut :=
  let n1 := lenA - lenB + 1
  let n2 := lenB - n1
  let Q1 := (deficient_base base Q R A lenA B lenB).1
  let R1 := (deficient_base base Q R A lenA B lenB).2
  let d2q1 := deficient_d2q1 base Q R A lenA B lenB
  let R2 := _fmpz_vec_copy R1 0 d2q1 n2
  let R3 := _fmpz_vec_add R2 n2 (ptr R2 n2) (ptr d2q1 n2) (n1 - 1)
  let R4 := _fmpz_vec_sub R3 0 A R3 lenA
  { Q := Q1, R := R4,
    log := [Event.driver lenA lenB, Event.deficient n1 n2,
            Event.base n2 n2 n1,
            Event.read Mem.A n2 (2 * n1 - 1), Event.read Mem.B n2 n1,
            Event.write Mem.Q 0 n1, Event.write Mem.R n2 (2 * n1 - 1),
            if n1 ≥ n2 then Event.mul n1 n2 else Event.mul n2 n1,
            Event.read Mem.Q 0 n1, Event.read Mem.B 0 n2, Event.write Mem.d2q1 0 (n1 + n2 - 1),
            Event.read Mem.d2q1 0 n2, Event.write Mem.R 0 n2,
            Event.read Mem.R n2 (n1 - 1), Event.read Mem.d2q1 n2 (n1 - 1),
            Event.write Mem.R n2 (n1 - 1),
            Event.read Mem.A 0 lenA, Event.read Mem.R 0 lenA, Event.write Mem.R 0 lenA] }

/-- The balanced branch of `_fmpz_poly_divrem_divconquer` (source lines
127-131). -/
def balanced_branch (base : BaseDivider) (Q R A : Buf) (lenA : Int) (B : Buf) (lenB : Int) :
    DivremOut :=
  let s := _fmpz_poly_divrem_divconquer_recursive base Q 0 R 0 A B lenB
  let Q1 := s.1
  let R1 := s.2
  let R2 := _fmpz_vec_sub R1 0 A R1 lenA
  { Q := Q1, R := R2,
    log := [Event.driver lenA lenB, Event.balanced,
            Event.base 0 0 lenB,
            Event.read Mem.A 0 (2 * lenB - 1), Event.read Mem.B 0 lenB,
            Event.write Mem.Q 0 lenB, Event.write Mem.R 0 (2 * lenB - 1),
            Event.read Mem.A 0 lenA, Event.read Mem.R 0 lenA, Event.write Mem.R 0 lenA] }

/-- The state of the excessive branch right before its recursive driver call
(source lines 82-108): `Q` holding `q1`, `R` holding its top `lenB` slots, and
the scratch `dq1`. -/
structure ExcessiveState where
  Q : Buf
  R : Buf
  dq1 : Buf
  log : List Event

/-- The excessive branch of `_fmpz_poly_divrem_divconquer` up to its
recursive driver call (source lines 82-108). -/
def excessive_prepare (base : BaseDivider) (Q R A : Buf) (lenA : Int) (B : Buf) (lenB : Int) :
    ExcessiveState :=
  let shift := lenA - 2 * lenB + 1
  let p1 := ptr A shift
  -- q1 = Q + shift, q2 = Q, d1q1 = dq1 + shift
  let dq1 := _fmpz_vec_init lenA
  let s := _fmpz_poly_divrem_divconquer_recursive base Q shift dq1 shift p1 B lenB
  let Q1 := s.1
  let dq1 := s.2
  let dq2 := _fmpz_vec_copy dq1 0 A shift
  let dq3 := _fmpz_vec_sub dq2 shift (ptr A shift) (ptr dq2 shift) (lenB - 1)
  let R1 := _fmpz_vec_sub R (lenA - lenB) (ptr A (lenA - lenB)) (ptr dq3 (lenA - lenB)) lenB
  { Q := Q1, R := R1, dq1 := dq3,
    log := [Event.driver lenA lenB, Event.excessive shift,
            Event.base shift 0 lenB,
            Event.read Mem.A shift (2 * lenB - 1), Event.read Mem.B 0 lenB,
            Event.write Mem.Q shift lenB, Event.write Mem.dq1 shift (2 * lenB - 1),
            Event.read Mem.A 0 shift, Event.write Mem.dq1 0 shift,
            Event.read Mem.A shift (lenB - 1), Event.read Mem.dq1 shift (lenB - 1),
            Event.write Mem.dq1 shift (lenB - 1),
            Event.read Mem.A (lenA - lenB) lenB, Event.read Mem.dq1 (lenA - lenB) lenB,
            Event.write Mem.R (lenA - lenB) lenB] }

/-- The driver `_fmpz_poly_divrem_divconquer(Q, R, A, lenA, B, lenB)`.  The
first argument bounds the depth of the driver's recursion on itself; `none`
means the bound was reached. -/
def _fmpz_poly_divrem_divconquer (base : BaseDivider) :
    Nat → Buf → Buf → Buf → Int → Buf → Int → Option DivremOut
  | 0, _, _, _, _, _, _ => none
  | fuel + 1, Q, R, A, lenA, B, lenB =>
    if lenA < 2 * lenB - 1 then
      some (deficient_branch base Q R A lenA B lenB)
    else if lenA > 2 * lenB - 1 then
      let s := excessive_prepare base Q R A lenA B lenB
      (_fmpz_poly_divrem_divconquer base fuel s.Q s.R s.dq1 (lenA - lenB) B lenB).map
        (fun out => { Q := out.Q, R := out.R, log := s.log ++ out.log })
    else
      some (balanced_branch base Q R A lenA B lenB)

/-- Modelled from the spec: one step of the reference schoolbook long
division, at quotient index `iQ`: the quotient digit is `dig` of the current
top coefficient and the divisor's top coefficient, and `digit * x^iQ * B` is
subtracted from the running remainder.  The spec leaves open how a digit is
rounded when the division of coefficients is not exact, so `dig` is a
parameter. -/
def divrem_basecase_step (dig : Int → Int → Int) (B : Buf) (lenB : Int) (iQ : Int)
    (st : Buf × Buf) : Buf × Buf :=
  (fun i => if i = iQ then dig (st.2 (iQ + lenB - 1)) (B (lenB - 1)) else st.1 i,
   fun i => if iQ ≤ i ∧ i < iQ + lenB
            then st.2 i - dig (st.2 (iQ + lenB - 1)) (B (lenB - 1)) * B (i - iQ) else st.2 i)

/-- Modelled from the spec: the loop of the reference schoolbook long
division over the quotient indices `lo + n - 1` down to `lo`. -/
def divrem_basecase_loop (dig : Int → Int → Int) (B : Buf) (lenB : Int) (lo : Int) :
    Nat → Buf × Buf → Buf × Buf
  | 0, st => st
  | n + 1, st =>
    divrem_basecase_loop dig B lenB lo n (divrem_basecase_step dig B lenB (lo + n) st)

/-- Modelled from the spec: the reference schoolbook long division
`_fmpz_poly_divrem_basecase(Q, R, A, lenA, B, lenB)`: `R` starts as a copy
of `A`, then one step for each quotient index from `lenA - lenB` down to 0. -/
def _fmpz_poly_divrem_basecase (dig : Int → Int → Int) (Q R A : Buf) (lenA : Int) (B : Buf)
    (lenB : Int) : Buf × Buf :=
  divrem_basecase_loop dig B lenB 0 (lenA - lenB + 1).toNat (Q, _fmpz_vec_copy R 0 A lenA)

/-- Modelled from the spec: a concrete quotient digit, for the examples (the
spec leaves the rounding open): zero when the coefficient is smaller in
absolute value than the leading coefficient, the floor quotient otherwise. -/
def fdiv_digit (r lead : Int) : Int := if r.natAbs < lead.natAbs then 0 else Int.fdiv r lead

/-- The base-case divider taken to be schoolbook long division on the balanced
input, returning its quotient and the full product divisor * quotient. -/
def basecase_divider (dig : Int → Int → Int) : BaseDivider := fun P D k =>
  ((_fmpz_poly_divrem_basecase dig (_fmpz_vec_init k) (_fmpz_vec_init (2 * k - 1))
      P (2 * k - 1) D k).1,
   poly_mul_coeff D k
     (_fmpz_poly_divrem_basecase dig (_fmpz_vec_init k) (_fmpz_vec_init (2 * k - 1))
       P (2 * k - 1) D k).1 k)

/-- The contract of the base-case divider used for reconstruction: the partial
product it returns is its divisor window times the quotient it returns. -/
def BaseProduct (base : BaseDivider) : Prop :=
  ∀ (P D : Buf) (k : Int), 1 ≤ k → ∀ i, 0 ≤ i → i < 2 * k - 1 →
    (base P D k).2 i = poly_mul_coeff D k (base P D k).1 k i

/-- The driver entries of a log, in order: the `(lenA, lenB)` of every call
of `_fmpz_poly_divrem_divconquer`, the top-level one first. -/
def driver_calls (log : List Event) : List (Int × Int) :=
  log.filterMap fun e => match e with
    | Event.driver a b => some (a, b)
    | _ => none

/-- Whether an event is the choice of a branch. -/
def Event.isBranch : Event → Bool
  | Event.deficient _ _ => true
  | Event.excessive _ => true
  | Event.balanced => true
  | _ => false

/-- The branch choices of a log, in order: one for every driver entry. -/
def branch_choices (log : List Event) : List Event := log.filter Event.isBranch

/-- The base-case divider is exact on 1-by-1 inputs with a unit divisor: the
quotient is `P[0] / D[0]`, which is `P[0] * D[0]`, and the partial product is
`P[0]`. -/
def BaseExactUnit (base : BaseDivider) : Prop :=
  ∀ P D : Buf, (D 0 = 1 ∨ D 0 = -1) → (base P D 1).1 0 = P 0 * D 0 ∧ (base P D 1).2 0 = P 0

/-! ## The caller-facing wrapper -/

/-- Modelled from the spec: a polynomial object (`fmpz_poly_struct`): its
coefficient array, its allocated size and its length.  It denotes the
polynomial with the coefficients `coeffs[0 .. length)`. -/
structure fmpz_poly_struct where
  coeffs : Buf
  alloc : Int
  length : Int

/-- The polynomial an object denotes, as the list of its coefficients. -/
def fmpz_poly_struct.value (p : fmpz_poly_struct) : List Int := toList p.coeffs p.length

/-- The polynomial objects in memory, by address.  An `fmpz_poly_t` argument is
an address; two arguments are the same object exactly when the addresses are
equal (`Q == A` in the source). -/
abbrev Store := Nat → fmpz_poly_struct

/-- Store an object at an address. -/
def Store.set (σ : Store) (p : Nat) (v : fmpz_poly_struct) : Store :=
  fun q => if q = p then v else σ q

/-- Modelled from the spec: `_fmpz_poly_set_length(poly, newlen)` sets the
length field. -/
def _fmpz_poly_set_length (poly : fmpz_poly_struct) (newlen : Int) : fmpz_poly_struct :=
  { poly with length := newlen }

/-- Modelled from the spec: `fmpz_poly_zero(poly)` makes the object the zero
polynomial, of length 0 ("quotient empty"). -/
def fmpz_poly_zero (σ : Store) (poly : Nat) : Store :=
  σ.set poly (_fmpz_poly_set_length (σ poly) 0)

/-- Modelled from the spec: `fmpz_poly_fit_length(poly, len)` makes room for
`len` coefficients; the coefficients held and the length are kept, new slots
are zero. -/
def fmpz_poly_fit_length (poly : fmpz_poly_struct) (len : Int) : fmpz_poly_struct :=
  if len > poly.alloc then
    { coeffs := fun i => if poly.alloc ≤ i then 0 else poly.coeffs i,
      alloc := if len < 2 * poly.alloc then 2 * poly.alloc else len,
      length := poly.length }
  else poly

/-- Modelled from the spec: `fmpz_poly_init2(poly, alloc)` is a fresh object
with room for `alloc` coefficients, all zero, and length 0. -/
def fmpz_poly_init2 (alloc : Int) : fmpz_poly_struct :=
  { coeffs := _fmpz_vec_init alloc, alloc := alloc, length := 0 }

/-- Modelled from the spec: `fmpz_poly_set(poly1, poly2)` copies the value of
`poly2` into `poly1` ("remainder equals dividend"); nothing happens when they
are the same object. -/
def fmpz_poly_set (σ : Store) (poly1 poly2 : Nat) : Store :=
  if poly1 = poly2 then σ
  else
    σ.set poly1
      (_fmpz_poly_set_length
        { fmpz_poly_fit_length (σ poly1) (σ poly2).length with
          coeffs := _fmpz_vec_copy (fmpz_poly_fit_length (σ poly1) (σ poly2).length).coeffs 0
            (σ poly2).coeffs (σ poly2).length }
        (σ poly2).length)

/-- Modelled from the spec: the length left when the trailing zero
coefficients of `coeffs[0 .. n)` are trimmed. -/
def normalise_length (coeffs : Buf) : Nat → Int
  | 0 => 0
  | n + 1 => if coeffs n = 0 then normalise_length coeffs n else n + 1

/-- Modelled from the spec: `_fmpz_poly_normalise(poly)` trims the trailing
zero coefficients ("trim trailing logically-zero coefficients"). -/
def _fmpz_poly_normalise (poly : fmpz_poly_struct) : fmpz_poly_struct :=
  if poly.length ≤ 0 then poly
  else { poly with length := normalise_length poly.coeffs poly.length.toNat }

/-- How a call of the wrapper ends. -/
inductive WrapperResult
  /-- The message is printed and `abort()` is called. -/
  | abort
  /-- The driver did not return within its recursion bound. -/
  | diverge
  /-- The wrapper returns, leaving memory as `σ`; `log` is what the driver
  did (empty when the driver was not called). -/
  | done (σ : Store) (log : List Event)

/-- The values of two objects after a completed call. -/
def WrapperResult.values (r : WrapperResult) (Q R : Nat) : Option (List Int × List Int) :=
  match r with
  | WrapperResult.done σ _ => some ((σ Q).value, (σ R).value)
  | _ => none

/-- What the wrapper has set up right before it calls the driver (source
lines 154-174): memory, the temporaries `t1`, `t2`, and the arrays `Q_coeffs`,
`R_coeffs` handed to the driver. -/
structure WrapperStage where
  σ : Store
  t1 : fmpz_poly_struct
  t2 : fmpz_poly_struct
  Q_coeffs : Buf
  R_coeffs : Buf

/-- Source lines 154-174 of the wrapper: an output that is the same object as
an input is staged into a temporary, any other output gets room for the
result. -/
def wrapper_stage (σ : Store) (Q R A B : Nat) : WrapperStage :=
  -- lines 154-163
  let t1 := fmpz_poly_init2 ((σ A).length - (σ B).length + 1)
  let σ1 := if Q = A ∨ Q = B then σ
            else σ.set Q (fmpz_poly_fit_length (σ Q) ((σ A).length - (σ B).length + 1))
  let Q_coeffs := if Q = A ∨ Q = B then t1.coeffs else (σ1 Q).coeffs
  -- lines 165-174
  let t2 := fmpz_poly_init2 (σ1 A).length
  let σ2 := if R = A ∨ R = B then σ1
            else σ1.set R (fmpz_poly_fit_length (σ1 R) (σ1 A).length)
  let R_coeffs := if R = A ∨ R = B then t2.coeffs else (σ2 R).coeffs
  { σ := σ2, t1 := t1, t2 := t2, Q_coeffs := Q_coeffs, R_coeffs := R_coeffs }

/-- Source lines 179-198 of the wrapper, after the driver has written `outQ`
through `Q_coeffs` and `outR` through `R_coeffs`: lengths are set, temporaries
are swapped into the outputs, and both outputs are normalised. -/
def wrapper_finish (s : WrapperStage) (outQ outR : Buf) (Q R A B : Nat) : Store :=
  -- the driver has written through `Q_coeffs` and `R_coeffs`
  let t1 := { s.t1 with coeffs := outQ }
  let t2 := { s.t2 with coeffs := outR }
  let σ3 := if Q = A ∨ Q = B then s.σ else s.σ.set Q { s.σ Q with coeffs := outQ }
  let σ4 := if R = A ∨ R = B then σ3 else σ3.set R { σ3 R with coeffs := outR }
  -- lines 179-186: `t1` is swapped into `Q` and cleared
  let σ5 := if Q = A ∨ Q = B
            then σ4.set Q (_fmpz_poly_set_length t1 ((σ4 A).length - (σ4 B).length + 1))
            else σ4.set Q (_fmpz_poly_set_length (σ4 Q) ((σ4 A).length - (σ4 B).length + 1))
  -- lines 188-195: `A->length` is read again here, after the swap
  let σ6 := if R = A ∨ R = B
            then σ5.set R (_fmpz_poly_set_length t2 (σ5 A).length)
            else σ5.set R (_fmpz_poly_set_length (σ5 R) (σ5 A).length)
  -- lines 197-198
  let σ7 := σ6.set Q (_fmpz_poly_normalise (σ6 Q))
  σ7.set R (_fmpz_poly_normalise (σ7 R))

/-- The wrapper `fmpz_poly_divrem_divconquer(Q, R, A, B)` (source lines
134-199).  `Q`, `R`, `A`, `B` are addresses; `Q` and `R` are two different
objects.  The driver gets the recursion bound `A->length`. -/
def fmpz_poly_divrem_divconquer (base : BaseDivider) (σ : Store) (Q R A B : Nat) :
    WrapperResult :=
  if (σ B).length = 0 then
    WrapperResult.abort
  else if (σ A).length < (σ B).length then
    let σ1 := fmpz_poly_zero σ Q
    let σ2 := fmpz_poly_set σ1 R A
    WrapperResult.done σ2 []
  else
    let s := wrapper_stage σ Q R A B
    match _fmpz_poly_divrem_divconquer base (s.σ A).length.toNat s.Q_coeffs s.R_coeffs
        (s.σ A).coeffs (s.σ A).length (s.σ B).coeffs (s.σ B).length with
    | none => WrapperResult.diverge
    | some out => WrapperResult.done (wrapper_finish s out.Q out.R Q R A B) out.log

/-- A polynomial object holding the coefficients of a list. -/
def poly_of_list (l : List Int) : fmpz_poly_struct :=
  { coeffs := ofList l, alloc := l.length, length := l.length }

/-- A memory with the objects of a list at the addresses 0, 1, 2, ... and
zero polynomials everywhere else. -/
def store_of_list (ps : List (List Int)) : Store :=
  fun p => poly_of_list (ps.getD p [])

/-- Object `p` is the window `w[0 .. n)` with its top zero coefficients
trimmed: `p` is normalised (length 0 or a non-zero top coefficient), is no
longer than `n`, agrees with the window on its own length, and the window is
zero from there on. -/
def IsTrimOf (p : fmpz_poly_struct) (w : Buf) (n : Int) : Prop :=
  0 ≤ p.length ∧ p.length ≤ n ∧ (p.length = 0 ∨ p.coeffs (p.length - 1) ≠ 0) ∧
  (∀ i, 0 ≤ i → i < p.length → p.coeffs i = w i) ∧
  (∀ i, p.length ≤ i → i < n → w i = 0)

/-- The base-case divider leaves a remainder of degree below its divisor's
degree: on a divisor window with a unit top coefficient, dividend minus
partial product vanishes on the top `k` of its `2k-1` coefficients. -/
def BaseRemainderSmall (base : BaseDivider) : Prop :=
  ∀ (P D : Buf) (k : Int), 1 ≤ k → (D (k - 1) = 1 ∨ D (k - 1) = -1) →
    ∀ i, k - 1 ≤ i → i < 2 * k - 1 → P i - (base P D k).2 i = 0

/-- A quotient digit function is exact on unit divisors. -/
def DigitExact (dig : Int → Int → Int) : Prop :=
  ∀ r l : Int, (l = 1 ∨ l = -1) → dig r l * l = r

/-! ## Windows and calls of a log -/

/-- The declared length of each array of a driver call with the lengths
`lenA`, `lenB`: `A` and `R` have `lenA` slots, `B` has `lenB`, `Q` has
`lenA-lenB+1`, the scratch `d2q1` has `lenB-1` (source line 52) and the
scratch `dq1` has `lenA` (source line 87). -/
def Mem.size (m : Mem) (lenA lenB : Int) : Int :=
  match m with
  | Mem.Q => lenA - lenB + 1
  | Mem.R => lenA
  | Mem.A => lenA
  | Mem.B => lenB
  | Mem.d2q1 => lenB - 1
  | Mem.dq1 => lenA

/-- A window `[off, off+len)` lies inside an array of `size` slots: offset
and length are non-negative and the window ends at or before the end. -/
def window_ok (off len size : Int) : Bool :=
  decide (0 ≤ off) && decide (0 ≤ len) && decide (off + len ≤ size)

/-- The bounds check of a log: every window read or written lies inside the
declared length of its array, for the lengths of the driver entry it belongs
to (the last `driver` event before it; `lenA`, `lenB` before the first). -/
def windows_in_bounds : Int → Int → List Event → Bool
  | _, _, [] => true
  | _, _, Event.driver a b :: rest => windows_in_bounds a b rest
  | lenA, lenB, Event.read m off len :: rest =>
    window_ok off len (m.size lenA lenB) && windows_in_bounds lenA lenB rest
  | lenA, lenB, Event.write m off len :: rest =>
    window_ok off len (m.size lenA lenB) && windows_in_bounds lenA lenB rest
  | lenA, lenB, _ :: rest => windows_in_bounds lenA lenB rest

/-- The arrays a log writes to, in order. -/
def written_arrays (log : List Event) : List Mem :=
  log.filterMap fun e => match e with
    | Event.write m _ _ => some m
    | _ => none

/-! ## The cut-off selector `mat_solve_triu` -/

/-- Modelled from the spec: a matrix over the template's coefficient domain
`K` (`TEMPLATE(T, mat_t)`): its entries, its row count `r` and its column
count `c`. -/
structure mat_struct (K : Type) where
  entries : Int → Int → K
  r : Int
  c : Int

/-- The one call `mat_solve_triu` makes: which of the two external solvers,
and the arguments it is given. -/
inductive SolverCall (K Ctx : Type)
  /-- The call `mat_solve_triu_classical(X, U, B, unit, ctx)`. -/
  | classical (X U B : mat_struct K) (unit : Int) (ctx : Ctx)
  /-- The call `mat_solve_triu_recursive(X, U, B, unit, ctx)`. -/
  | recursive (X U B : mat_struct K) (unit : Int) (ctx : Ctx)

/-- Whether the call is to the classical solver. -/
def SolverCall.isClassical {K Ctx : Type} : SolverCall K Ctx → Bool
  | SolverCall.classical _ _ _ _ _ => true
  | SolverCall.recursive _ _ _ _ _ => false

/-- The selector `TEMPLATE(T, mat_solve_triu)(X, U, B, unit, ctx)` (source
lines 32-46 of `fq_mat_templates/solve_triu.c`).  The two cut-offs are macros
that are not in the source file, so they are parameters; the two solvers are
external, so the model returns the call that is made. -/
def mat_solve_triu {K Ctx : Type} (MAT_SOLVE_TRI_ROWS_CUTOFF MAT_SOLVE_TRI_COLS_CUTOFF : Int)
    (X U B : mat_struct K) (unit : Int) (ctx : Ctx) : SolverCall K Ctx :=
  if B.r < MAT_SOLVE_TRI_ROWS_CUTOFF ∨ B.c < MAT_SOLVE_TRI_COLS_CUTOFF then
    SolverCall.classical X U B unit ctx
  else
    SolverCall.recursive X U B unit ctx

/-- A base-case call as the log shows it: the lengths `lenA`, `lenB` of the
driver entry that makes it, the offset `aoff` of its dividend window in that
entry's `A` (the window has `2k-1` coefficients), the offset `boff` of its
divisor window in `B` (the window has `k` coefficients), and `k`. -/
structure BaseCall where
  lenA : Int
  lenB : Int
  aoff : Int
  boff : Int
  k : Int
  deriving DecidableEq

/-- The base-case calls of a log, in order, each with the lengths of the
driver entry it belongs to (the last `driver` event before it). -/
def base_calls_at : Int → Int → List Event → List BaseCall
  | _, _, [] => []
  | _, _, Event.driver a b :: rest => base_calls_at a b rest
  | lenA, lenB, Event.base aoff boff k :: rest =>
    { lenA := lenA, lenB := lenB, aoff := aoff, boff := boff, k := k }
      :: base_calls_at lenA lenB rest
  | lenA, lenB, _ :: rest => base_calls_at lenA lenB rest

/-- The multiplier calls of a log, in order: the lengths `(len1, len2)` of the
first and the second operand. -/
def mul_calls (log : List Event) : List (Int × Int) :=
  log.filterMap fun e => match e with
    | Event.mul len1 len2 => some (len1, len2)
    | _ => none

/-! ## The product `B * Q` of the deficient branch -/

/-- The polynomial `hi * x^shift + lo`, coefficient by coefficient. -/
def shifted_sum (shift : Int) (hi lo : Buf) : Buf :=
  fun i => (if shift ≤ i then hi (i - shift) else 0) + lo i

/-- The product as the deficient branch builds it in `R` (source lines 54 and
70-71): the partial product `d1 * Q`, stored from `R + n2` on, plus `d2 * Q`;
that is `(d1 * Q) * x^n2 + d2 * Q`, with `d1` the top `n1` and `d2` the low
`n2` coefficients of `B`. -/
def deficient_BQ (Qw : Buf) (lenA : Int) (B : Buf) (lenB : Int) : Buf :=
  shifted_sum (lenB - (lenA - lenB + 1))
    (poly_mul_coeff (ptr B (lenB - (lenA - lenB + 1))) (lenA - lenB + 1) Qw (lenA - lenB + 1))
    (poly_mul_coeff B (lenB - (lenA - lenB + 1)) Qw (lenA - lenB + 1))

/-- The product as the spec words it, following the source comment on line
66: `(d1 * Q) * x^n1 + d2 * Q`, the partial product shifted up by `n1`
positions. -/
def claimed_deficient_BQ (Qw : Buf) (lenA : Int) (B : Buf) (lenB : Int) : Buf :=
  shifted_sum (lenA - lenB + 1)
    (poly_mul_coeff (ptr B (lenB - (lenA - lenB + 1))) (lenA - lenB + 1) Qw (lenA - lenB + 1))
    (poly_mul_coeff B (lenB - (lenA - lenB + 1)) Qw (lenA - lenB + 1))

/-- Whether a log writes slot `i` of the array `m`: some `write` window of `m`
in the log contains `i`.  The driver passes `Q` and `R` on to its recursive
call unchanged (`q2 = Q`, source lines 85 and 115), so the offsets of the `Q`
and `R` windows of all recursion levels count from the same slot. -/
def slot_written (m : Mem) (log : List Event) (i : Int) : Bool :=
  log.any fun e => match e with
    | Event.write m' off len => decide (m' = m) && decide (off ≤ i) && decide (i < off + len)
    | _ => false

/-! ## The product of two windows -/

theorem poly_mul_coeff_congr {X X' Y Y' : Buf} {m n : Int}
    (hX : ∀ j, 0 ≤ j → j < m → X j = X' j) (hY : ∀ j, 0 ≤ j → j < n → Y j = Y' j) (i : Int) :
    poly_mul_coeff X m Y n i = poly_mul_coeff X' m Y' n i := by
  unfold poly_mul_coeff
  apply Finset.sum_congr rfl
  intro j hj
  have hj' := Finset.mem_range.mp hj
  split_ifs with h
  · rw [hX j (by omega) (by omega), hY _ h.1 h.2]
  · rfl

theorem ite_window_eq_sum (f : Int → Int) (n t : Int) :
    (if 0 ≤ t ∧ t < n then f t else 0)
      = ∑ k in Finset.range n.toNat, if (k : Int) = t then f k else 0 := by
  split_ifs with h
  · rw [Finset.sum_eq_single t.toNat]
    · have : ((t.toNat : Nat) : Int) = t := by omega
      simp [this]
    · intro b _ hb
      have : ¬ ((b : Int) = t) := by omega
      simp [this]
    · intro hn
      exact absurd (Finset.mem_range.mpr (by omega)) hn
  · symm
    apply Finset.sum_eq_zero
    intro k hk
    have hk' := Finset.mem_range.mp hk
    have : ¬ ((k : Int) = t) := by omega
    simp [this]

theorem poly_mul_coeff_double (X : Buf) (m : Int) (Y : Buf) (n i : Int) :
    poly_mul_coeff X m Y n i
      = ∑ j in Finset.range m.toNat, ∑ k in Finset.range n.toNat,
          if (k : Int) = i - j then X j * Y k else 0 := by
  unfold poly_mul_coeff
  apply Finset.sum_congr rfl
  intro j _
  exact ite_window_eq_sum (fun t => X j * Y t) n (i - j)

theorem poly_mul_coeff_comm (X : Buf) (m : Int) (Y : Buf) (n i : Int) :
    poly_mul_coeff X m Y n i = poly_mul_coeff Y n X m i := by
  rw [poly_mul_coeff_double, poly_mul_coeff_double, Finset.sum_comm]
  apply Finset.sum_congr rfl
  intro k _
  apply Finset.sum_congr rfl
  intro j _
  by_cases h : (k : Int) = i - j
  · have h' : (j : Int) = i - k := by omega
    rw [if_pos h, if_pos h', mul_comm]
  · have h' : ¬ ((j : Int) = i - k) := by omega
    rw [if_neg h, if_neg h']

theorem poly_mul_coeff_eq_zero (X : Buf) (m : Int) (Y : Buf) (n i : Int)
    (h : i < 0 ∨ m + n - 1 ≤ i) : poly_mul_coeff X m Y n i = 0 := by
  unfold poly_mul_coeff
  apply Finset.sum_eq_zero
  intro j hj
  have hj' := Finset.mem_range.mp hj
  have : ¬ (0 ≤ i - j ∧ i - j < n) := by omega
  rw [if_neg this]

theorem poly_mul_coeff_split_right (X : Buf) (m : Int) (Y : Buf) (lo hi i : Int)
    (hlo : 0 ≤ lo) (hhi : 0 ≤ hi) :
    poly_mul_coeff X m Y (lo + hi) i
      = poly_mul_coeff X m Y lo i + poly_mul_coeff X m (ptr Y lo) hi (i - lo) := by
  unfold poly_mul_coeff
  rw [← Finset.sum_add_distrib]
  apply Finset.sum_congr rfl
  intro j _
  have e : lo + (i - lo - j) = i - j := by ring
  by_cases h1 : 0 ≤ i - j ∧ i - j < lo
  · have h2 : 0 ≤ i - j ∧ i - j < lo + hi := by omega
    have h3 : ¬ (0 ≤ i - lo - j ∧ i - lo - j < hi) := by omega
    rw [if_pos h1, if_pos h2, if_neg h3, add_zero]
  · by_cases h3 : 0 ≤ i - lo - j ∧ i - lo - j < hi
    · have h2 : 0 ≤ i - j ∧ i - j < lo + hi := by omega
      rw [if_neg h1, if_pos h2, if_pos h3, zero_add]
      unfold ptr
      rw [e]
    · have h2 : ¬ (0 ≤ i - j ∧ i - j < lo + hi) := by omega
      rw [if_neg h1, if_neg h2, if_neg h3, add_zero]

theorem poly_mul_coeff_split_left (X : Buf) (lo hi : Int) (Y : Buf) (n i : Int)
    (hlo : 0 ≤ lo) (hhi : 0 ≤ hi) :
    poly_mul_coeff X (lo + hi) Y n i
      = poly_mul_coeff X lo Y n i + poly_mul_coeff (ptr X lo) hi Y n (i - lo) := by
  rw [poly_mul_coeff_comm X (lo + hi), poly_mul_coeff_split_right Y n X lo hi i hlo hhi,
    poly_mul_coeff_comm Y n X lo, poly_mul_coeff_comm Y n (ptr X lo) hi]

/-! ## The three branches, coefficient by coefficient -/

theorem ptr_sub (p : Buf) (off i : Int) : ptr p off (i - off) = p i := by
  unfold ptr
  congr 1
  ring

theorem recursive_fst (base : BaseDivider) (Q : Buf) (qoff : Int) (BQ : Buf) (bqoff : Int)
    (A B : Buf) (lenB i : Int) :
    (_fmpz_poly_divrem_divconquer_recursive base Q qoff BQ bqoff A B lenB).1 i
      = if qoff ≤ i ∧ i < qoff + lenB then (base A B lenB).1 (i - qoff) else Q i := rfl

theorem recursive_snd (base : BaseDivider) (Q : Buf) (qoff : Int) (BQ : Buf) (bqoff : Int)
    (A B : Buf) (lenB i : Int) :
    (_fmpz_poly_divrem_divconquer_recursive base Q qoff BQ bqoff A B lenB).2 i
      = if bqoff ≤ i ∧ i < bqoff + (2 * lenB - 1) then (base A B lenB).2 (i - bqoff) else BQ i :=
  rfl

theorem deficient_branch_Q (base : BaseDivider) (Q R A : Buf) (lenA : Int) (B : Buf)
    (lenB i : Int) :
    (deficient_branch base Q R A lenA B lenB).Q i
      = if 0 ≤ i ∧ i < lenA - lenB + 1
        then (base (ptr A (lenB - (lenA - lenB + 1))) (ptr B (lenB - (lenA - lenB + 1)))
          (lenA - lenB + 1)).1 i
        else Q i := by
  simp only [deficient_branch, deficient_base, recursive_fst, zero_add, sub_zero]

theorem deficient_d2q1_eq (base : BaseDivider) (Q R A : Buf) (lenA : Int) (B : Buf)
    (lenB i : Int) :
    deficient_d2q1 base Q R A lenA B lenB i
      = poly_mul_coeff
          (base (ptr A (lenB - (lenA - lenB + 1))) (ptr B (lenB - (lenA - lenB + 1)))
            (lenA - lenB + 1)).1
          (lenA - lenB + 1) B (lenB - (lenA - lenB + 1)) i := by
  have hc : ∀ j, 0 ≤ j → j < lenA - lenB + 1 →
      (deficient_base base Q R A lenA B lenB).1 j
        = (base (ptr A (lenB - (lenA - lenB + 1))) (ptr B (lenB - (lenA - lenB + 1)))
            (lenA - lenB + 1)).1 j := by
    intro j h0 h1
    simp only [deficient_base, recursive_fst, zero_add, sub_zero]
    rw [if_pos ⟨h0, h1⟩]
  unfold deficient_d2q1
  split_ifs with h
  · unfold _fmpz_poly_mul
    split_ifs with h2
    · exact poly_mul_coeff_congr hc (fun _ _ _ => rfl) i
    · rw [poly_mul_coeff_eq_zero _ _ _ _ _ (by omega)]
      rfl
  · unfold _fmpz_poly_mul
    split_ifs with h2
    · rw [poly_mul_coeff_comm]
      exact poly_mul_coeff_congr hc (fun _ _ _ => rfl) i
    · rw [poly_mul_coeff_eq_zero _ _ _ _ _ (by omega)]
      rfl

theorem deficient_branch_R (base : BaseDivider) (Q R A : Buf) (lenA : Int) (B : Buf)
    (lenB i : Int) (hA : lenB ≤ lenA) (hd : lenA < 2 * lenB - 1) :
    (deficient_branch base Q R A lenA B lenB).R i
      = if 0 ≤ i ∧ i < lenA then
          A i - (poly_mul_coeff
              (base (ptr A (lenB - (lenA - lenB + 1))) (ptr B (lenB - (lenA - lenB + 1)))
                (lenA - lenB + 1)).1
              (lenA - lenB + 1) B (lenB - (lenA - lenB + 1)) i
            + if lenB - (lenA - lenB + 1) ≤ i then
                (base (ptr A (lenB - (lenA - lenB + 1))) (ptr B (lenB - (lenA - lenB + 1)))
                  (lenA - lenB + 1)).2 (i - (lenB - (lenA - lenB + 1)))
              else 0)
        else R i := by
  have hz := poly_mul_coeff_eq_zero
    (base (ptr A (lenB - (lenA - lenB + 1))) (ptr B (lenB - (lenA - lenB + 1)))
      (lenA - lenB + 1)).1 (lenA - lenB + 1) B (lenB - (lenA - lenB + 1)) i
  simp only [deficient_branch, _fmpz_vec_sub, _fmpz_vec_add, _fmpz_vec_copy, ptr_sub,
    deficient_d2q1_eq, deficient_base, recursive_snd, zero_add, sub_zero]
  split_ifs <;> omega

theorem balanced_branch_Q (base : BaseDivider) (Q R A : Buf) (lenA : Int) (B : Buf)
    (lenB i : Int) :
    (balanced_branch base Q R A lenA B lenB).Q i
      = if 0 ≤ i ∧ i < lenB then (base A B lenB).1 i else Q i := by
  simp only [balanced_branch, recursive_fst, zero_add, sub_zero]

theorem balanced_branch_R (base : BaseDivider) (Q R A : Buf) (lenA : Int) (B : Buf)
    (lenB i : Int) (hb : lenA = 2 * lenB - 1) :
    (balanced_branch base Q R A lenA B lenB).R i
      = if 0 ≤ i ∧ i < lenA then A i - (base A B lenB).2 i else R i := by
  simp only [balanced_branch, _fmpz_vec_sub, recursive_snd, zero_add, sub_zero]
  split_ifs <;> omega

theorem excessive_prepare_Q (base : BaseDivider) (Q R A : Buf) (lenA : Int) (B : Buf)
    (lenB i : Int) :
    (excessive_prepare base Q R A lenA B lenB).Q i
      = if lenA - 2 * lenB + 1 ≤ i ∧ i < lenA - 2 * lenB + 1 + lenB
        then (base (ptr A (lenA - 2 * lenB + 1)) B lenB).1 (i - (lenA - 2 * lenB + 1))
        else Q i := by
  simp only [excessive_prepare, recursive_fst]

theorem excessive_prepare_dq1 (base : BaseDivider) (Q R A : Buf) (lenA : Int) (B : Buf)
    (lenB i : Int) (hB : 1 ≤ lenB) (h0 : 0 ≤ i) (h1 : i < lenA - lenB) :
    (excessive_prepare base Q R A lenA B lenB).dq1 i
      = A i - if lenA - 2 * lenB + 1 ≤ i
              then (base (ptr A (lenA - 2 * lenB + 1)) B lenB).2 (i - (lenA - 2 * lenB + 1))
              else 0 := by
  simp only [excessive_prepare, _fmpz_vec_sub, _fmpz_vec_copy, ptr_sub, recursive_snd,
    zero_add, sub_zero]
  split_ifs <;> omega

theorem excessive_prepare_R (base : BaseDivider) (Q R A : Buf) (lenA : Int) (B : Buf)
    (lenB i : Int) :
    (excessive_prepare base Q R A lenA B lenB).R i
      = if lenA - lenB ≤ i ∧ i < lenA
        then A i - (base (ptr A (lenA - 2 * lenB + 1)) B lenB).2 (i - (lenA - 2 * lenB + 1))
        else R i := by
  simp only [excessive_prepare, _fmpz_vec_sub, _fmpz_vec_copy, ptr_sub, recursive_snd,
    zero_add, sub_zero]
  split_ifs <;> omega

/-! ## The driver -/

theorem driver_deficient (base : BaseDivider) (fuel : Nat) (Q R A : Buf) (lenA : Int) (B : Buf)
    (lenB : Int) (hd : lenA < 2 * lenB - 1) :
    _fmpz_poly_divrem_divconquer base (fuel + 1) Q R A lenA B lenB
      = some (deficient_branch base Q R A lenA B lenB) := by
  rw [_fmpz_poly_divrem_divconquer, if_pos hd]

theorem driver_balanced (base : BaseDivider) (fuel : Nat) (Q R A : Buf) (lenA : Int) (B : Buf)
    (lenB : Int) (hb : lenA = 2 * lenB - 1) :
    _fmpz_poly_divrem_divconquer base (fuel + 1) Q R A lenA B lenB
      = some (balanced_branch base Q R A lenA B lenB) := by
  rw [_fmpz_poly_divrem_divconquer, if_neg (by omega), if_neg (by omega)]

theorem driver_excessive (base : BaseDivider) (fuel : Nat) (Q R A : Buf) (lenA : Int) (B : Buf)
    (lenB : Int) (he : lenA > 2 * lenB - 1) :
    _fmpz_poly_divrem_divconquer base (fuel + 1) Q R A lenA B lenB
      = (_fmpz_poly_divrem_divconquer base fuel
            (excessive_prepare base Q R A lenA B lenB).Q
            (excessive_prepare base Q R A lenA B lenB).R
            (excessive_prepare base Q R A lenA B lenB).dq1 (lenA - lenB) B lenB).map
          (fun out => { Q := out.Q, R := out.R,
                        log := (excessive_prepare base Q R A lenA B lenB).log ++ out.log }) := by
  rw [_fmpz_poly_divrem_divconquer, if_neg (by omega), if_pos he]

/-- With `lenA >= lenB >= 1`, a recursion bound of `lenA` is enough for the
driver to return. -/
theorem driver_returns (base : BaseDivider) (B : Buf) (lenB : Int) (hB : 1 ≤ lenB) :
    ∀ (fuel : Nat) (Q R A : Buf) (lenA : Int), lenB ≤ lenA → lenA ≤ fuel →
      ∃ out, _fmpz_poly_divrem_divconquer base fuel Q R A lenA B lenB = some out := by
  intro fuel
  induction fuel with
  | zero => intro Q R A lenA hA hf; omega
  | succ fuel ih =>
    intro Q R A lenA hA hf
    rcases lt_trichotomy lenA (2 * lenB - 1) with hd | hb | he
    · exact ⟨_, driver_deficient base fuel Q R A lenA B lenB hd⟩
    · exact ⟨_, driver_balanced base fuel Q R A lenA B lenB hb⟩
    · obtain ⟨out, hout⟩ := ih (excessive_prepare base Q R A lenA B lenB).Q
        (excessive_prepare base Q R A lenA B lenB).R
        (excessive_prepare base Q R A lenA B lenB).dq1 (lenA - lenB) (by omega)
        (by push_cast at hf; omega)
      rw [driver_excessive base fuel Q R A lenA B lenB he, hout]
      exact ⟨_, rfl⟩

/-- The driver writes `Q` only inside `[0, lenA-lenB+1)` and `R` only inside
`[0, lenA)`. -/
theorem driver_frame (base : BaseDivider) (B : Buf) (lenB : Int) (hB : 1 ≤ lenB) :
    ∀ (fuel : Nat) (Q R A : Buf) (lenA : Int) (out : DivremOut), lenB ≤ lenA →
      _fmpz_poly_divrem_divconquer base fuel Q R A lenA B lenB = some out →
      (∀ i, i < 0 ∨ lenA - lenB + 1 ≤ i → out.Q i = Q i) ∧
      (∀ i, i < 0 ∨ lenA ≤ i → out.R i = R i) := by
  intro fuel
  induction fuel with
  | zero => intro Q R A lenA out _ h; simp [_fmpz_poly_divrem_divconquer] at h
  | succ fuel ih =>
    intro Q R A lenA out hA h
    rcases lt_trichotomy lenA (2 * lenB - 1) with hd | hb | he
    · rw [driver_deficient base fuel Q R A lenA B lenB hd] at h
      cases h
      constructor
      · intro i hi
        rw [deficient_branch_Q, if_neg (by omega)]
      · intro i hi
        rw [deficient_branch_R base Q R A lenA B lenB i hA hd, if_neg (by omega)]
    · rw [driver_balanced base fuel Q R A lenA B lenB hb] at h
      cases h
      constructor
      · intro i hi
        rw [balanced_branch_Q, if_neg (by omega)]
      · intro i hi
        rw [balanced_branch_R base Q R A lenA B lenB i hb, if_neg (by omega)]
    · rw [driver_excessive base fuel Q R A lenA B lenB he] at h
      obtain ⟨out', hout', rfl⟩ := Option.map_eq_some'.mp h
      obtain ⟨hQ, hR⟩ := ih _ _ _ _ out' (by omega) hout'
      constructor
      · intro i hi
        show out'.Q i = Q i
        rw [hQ i (by omega), excessive_prepare_Q, if_neg (by omega)]
      · intro i hi
        show out'.R i = R i
        rw [hR i (by omega), excessive_prepare_R base Q R A lenA B lenB i,
          if_neg (by omega)]

/-- Reconstruction, for whatever the driver returns: `Q * B + R = A` on all
`lenA` coefficients, when the base-case divider returns the product of its
divisor window and its quotient. -/
theorem driver_reconstruct (base : BaseDivider) (hbase : BaseProduct base) (B : Buf)
    (lenB : Int) (hB : 1 ≤ lenB) :
    ∀ (fuel : Nat) (Q R A : Buf) (lenA : Int) (out : DivremOut), lenB ≤ lenA →
      _fmpz_poly_divrem_divconquer base fuel Q R A lenA B lenB = some out →
      ∀ i, 0 ≤ i → i < lenA →
        poly_mul_coeff out.Q (lenA - lenB + 1) B lenB i + out.R i = A i := by
  intro fuel
  induction fuel with
  | zero => intro Q R A lenA out _ h; simp [_fmpz_poly_divrem_divconquer] at h
  | succ fuel ih =>
    intro Q R A lenA out hA h i h0 h1
    rcases lt_trichotomy lenA (2 * lenB - 1) with hd | hb | he
    · -- deficient: B = d1 * x^n2 + d2
      rw [driver_deficient base fuel Q R A lenA B lenB hd] at h
      cases h
      have hQ : ∀ j, 0 ≤ j → j < lenA - lenB + 1 →
          (deficient_branch base Q R A lenA B lenB).Q j
            = (base (ptr A (lenB - (lenA - lenB + 1))) (ptr B (lenB - (lenA - lenB + 1)))
                (lenA - lenB + 1)).1 j := by
        intro j hj0 hj1
        rw [deficient_branch_Q, if_pos ⟨hj0, hj1⟩]
      rw [poly_mul_coeff_congr hQ (fun _ _ _ => rfl) i,
        deficient_branch_R base Q R A lenA B lenB i hA hd, if_pos ⟨h0, h1⟩]
      have hsplit := poly_mul_coeff_split_right
        (base (ptr A (lenB - (lenA - lenB + 1))) (ptr B (lenB - (lenA - lenB + 1)))
          (lenA - lenB + 1)).1 (lenA - lenB + 1) B (lenB - (lenA - lenB + 1))
        (lenA - lenB + 1) i (by omega) (by omega)
      have hlen : lenB - (lenA - lenB + 1) + (lenA - lenB + 1) = lenB := by ring
      rw [hlen] at hsplit
      rw [hsplit, poly_mul_coeff_comm _ _ (ptr B (lenB - (lenA - lenB + 1)))]
      by_cases hi : lenB - (lenA - lenB + 1) ≤ i
      · rw [if_pos hi, ← hbase _ _ _ (by omega) _ (by omega) (by omega)]
        ring
      · rw [if_neg hi, poly_mul_coeff_eq_zero (ptr B (lenB - (lenA - lenB + 1))) _ _ _
          (i - (lenB - (lenA - lenB + 1))) (Or.inl (by omega))]
        ring
    · -- balanced
      rw [driver_balanced base fuel Q R A lenA B lenB hb] at h
      cases h
      have hQ : ∀ j, 0 ≤ j → j < lenA - lenB + 1 →
          (balanced_branch base Q R A lenA B lenB).Q j = (base A B lenB).1 j := by
        intro j hj0 hj1
        rw [balanced_branch_Q, if_pos ⟨hj0, by omega⟩]
      have hlen : lenA - lenB + 1 = lenB := by omega
      rw [poly_mul_coeff_congr hQ (fun _ _ _ => rfl) i,
        balanced_branch_R base Q R A lenA B lenB i hb, if_pos ⟨h0, h1⟩, hlen,
        poly_mul_coeff_comm, ← hbase _ _ _ hB _ h0 (by omega)]
      ring
    · -- excessive: Q = q1 * x^shift + q2
      rw [driver_excessive base fuel Q R A lenA B lenB he] at h
      obtain ⟨out', hout', rfl⟩ := Option.map_eq_some'.mp h
      obtain ⟨hQ, hR⟩ := driver_frame base B lenB hB fuel _ _ _ _ out' (by omega) hout'
      have hrec := ih _ _ _ _ out' (by omega) hout'
      show poly_mul_coeff out'.Q (lenA - lenB + 1) B lenB i + out'.R i = A i
      have hlen : lenA - lenB + 1 = (lenA - lenB - lenB + 1) + lenB := by ring
      have hq1 : ∀ j, 0 ≤ j → j < lenB →
          ptr out'.Q (lenA - lenB - lenB + 1) j
            = (base (ptr A (lenA - 2 * lenB + 1)) B lenB).1 j := by
        intro j hj0 hj1
        have e : ptr out'.Q (lenA - lenB - lenB + 1) j = out'.Q (lenA - lenB - lenB + 1 + j) :=
          rfl
        have e2 : lenA - lenB - lenB + 1 + j - (lenA - 2 * lenB + 1) = j := by ring
        rw [e, hQ _ (by omega), excessive_prepare_Q, if_pos (by omega), e2]
      rw [hlen, poly_mul_coeff_split_left _ _ _ _ _ _ (by omega) (by omega),
        poly_mul_coeff_congr hq1 (fun _ _ _ => rfl), poly_mul_coeff_comm _ lenB B lenB]
      have hsh : i - (lenA - lenB - lenB + 1) = i - (lenA - 2 * lenB + 1) := by ring
      by_cases hi : i < lenA - lenB
      · have h2 := hrec i h0 hi
        rw [excessive_prepare_dq1 base Q R A lenA B lenB i hB h0 hi] at h2
        by_cases hs : lenA - 2 * lenB + 1 ≤ i
        · rw [if_pos hs] at h2
          rw [hsh, ← hbase _ _ _ hB _ (by omega) (by omega)]
          linarith
        · rw [if_neg hs] at h2
          rw [poly_mul_coeff_eq_zero B _ _ _ (i - (lenA - lenB - lenB + 1)) (Or.inl (by omega))]
          linarith
      · rw [poly_mul_coeff_eq_zero out'.Q _ _ _ _ (Or.inr (by omega)), hR i (by omega),
          excessive_prepare_R base Q R A lenA B lenB i, if_pos (by omega), hsh,
          ← hbase _ _ _ hB _ (by omega) (by omega)]
        ring

/-! ## Schoolbook long division -/

theorem step_fst (dig : Int → Int → Int) (B : Buf) (lenB iQ : Int) (st : Buf × Buf) (i : Int) :
    (divrem_basecase_step dig B lenB iQ st).1 i
      = if i = iQ then dig (st.2 (iQ + lenB - 1)) (B (lenB - 1)) else st.1 i := rfl

theorem step_snd (dig : Int → Int → Int) (B : Buf) (lenB iQ : Int) (st : Buf × Buf) (i : Int) :
    (divrem_basecase_step dig B lenB iQ st).2 i
      = if iQ ≤ i ∧ i < iQ + lenB
        then st.2 i - dig (st.2 (iQ + lenB - 1)) (B (lenB - 1)) * B (i - iQ) else st.2 i := rfl

theorem loop_succ (dig : Int → Int → Int) (B : Buf) (lenB lo : Int) (n : Nat) (st : Buf × Buf) :
    divrem_basecase_loop dig B lenB lo (n + 1) st
      = divrem_basecase_loop dig B lenB lo n (divrem_basecase_step dig B lenB (lo + n) st) := rfl

/-- The loop over the quotient indices `lo .. lo+n-1` writes no other
quotient coefficient. -/
theorem loop_Q_frame (dig : Int → Int → Int) (B : Buf) (lenB lo : Int) :
    ∀ (n : Nat) (st : Buf × Buf) (i : Int), i < lo ∨ lo + n ≤ i →
      (divrem_basecase_loop dig B lenB lo n st).1 i = st.1 i := by
  intro n
  induction n with
  | zero => intro st i _; rfl
  | succ n ih =>
    intro st i hi
    rw [loop_succ, ih _ i (by push_cast at hi; omega), step_fst, if_neg (by push_cast at hi; omega)]

/-- The loop over the quotient indices `lo .. lo+n-1` writes the remainder
only inside `[lo, lo+n+lenB-1)`. -/
theorem loop_R_frame (dig : Int → Int → Int) (B : Buf) (lenB lo : Int) :
    ∀ (n : Nat) (st : Buf × Buf) (i : Int), i < lo ∨ lo + n + lenB - 1 ≤ i →
      (divrem_basecase_loop dig B lenB lo n st).2 i = st.2 i := by
  intro n
  induction n with
  | zero => intro st i _; rfl
  | succ n ih =>
    intro st i hi
    rw [loop_succ, ih _ i (by push_cast at hi; omega), step_snd, if_neg (by push_cast at hi; omega)]

theorem loop_add (dig : Int → Int → Int) (B : Buf) (lenB lo : Int) (a : Nat) :
    ∀ (b : Nat) (st : Buf × Buf),
      divrem_basecase_loop dig B lenB lo (a + b) st
        = divrem_basecase_loop dig B lenB lo a (divrem_basecase_loop dig B lenB (lo + a) b st) := by
  intro b
  induction b with
  | zero => intro st; rfl
  | succ b ih =>
    intro st
    have e : lo + ((a + b : Nat) : Int) = lo + a + b := by push_cast; ring
    rw [← Nat.add_assoc, loop_succ, ih, loop_succ, e]

/-- The running remainder is the start remainder minus (quotient digits
found so far) times `B`. -/
theorem loop_invariant (dig : Int → Int → Int) (B : Buf) (lenB lo : Int) :
    ∀ (n : Nat) (st : Buf × Buf) (i : Int),
      (divrem_basecase_loop dig B lenB lo n st).2 i
        = st.2 i - poly_mul_coeff (ptr (divrem_basecase_loop dig B lenB lo n st).1 lo) n B lenB
            (i - lo) := by
  intro n
  induction n with
  | zero =>
    intro st i
    simp [poly_mul_coeff, divrem_basecase_loop]
  | succ n ih =>
    intro st i
    have hq : ptr (divrem_basecase_loop dig B lenB lo (n + 1) st).1 lo n
        = dig (st.2 (lo + n + lenB - 1)) (B (lenB - 1)) := by
      show (divrem_basecase_loop dig B lenB lo (n + 1) st).1 (lo + n) = _
      rw [loop_succ, loop_Q_frame dig B lenB lo n _ (lo + n) (Or.inr (le_refl _)), step_fst,
        if_pos rfl]
    have hsum : poly_mul_coeff (ptr (divrem_basecase_loop dig B lenB lo (n + 1) st).1 lo)
          ((n + 1 : Nat) : Int) B lenB (i - lo)
        = poly_mul_coeff (ptr (divrem_basecase_loop dig B lenB lo (n + 1) st).1 lo) n B lenB
            (i - lo)
          + if 0 ≤ i - lo - n ∧ i - lo - n < lenB
            then dig (st.2 (lo + n + lenB - 1)) (B (lenB - 1)) * B (i - lo - n) else 0 := by
      unfold poly_mul_coeff
      rw [Int.toNat_ofNat, Int.toNat_ofNat, Finset.sum_range_succ, hq]
    rw [hsum]
    rw [loop_succ, ih, step_snd]
    have e : i - (lo + n) = i - lo - n := by ring
    by_cases hc : lo + n ≤ i ∧ i < lo + n + lenB
    · rw [if_pos hc, if_pos (by omega), e]
      ring
    · rw [if_neg hc, if_neg (by omega)]
      ring

/-- Two schoolbook loops find the same quotient digits when the coefficients
they read agree: the top `n` positions of the running remainders and the top
`n` coefficients of the divisors. -/
theorem loop_digits_agree (dig : Int → Int → Int) (B1 : Buf) (lenB1 lo1 : Int) (B2 : Buf)
    (lenB2 lo2 : Int) (h1 : 1 ≤ lenB1) :
    ∀ (n : Nat) (st1 st2 : Buf × Buf),
      (∀ s : Int, 0 ≤ s → s < n →
        ((s < lenB1 ↔ s < lenB2) ∧ (s < lenB1 → B1 (lenB1 - 1 - s) = B2 (lenB2 - 1 - s)))) →
      (∀ t : Int, 0 ≤ t → t < n → st1.2 (lo1 + lenB1 - 1 + t) = st2.2 (lo2 + lenB2 - 1 + t)) →
      ∀ j : Int, 0 ≤ j → j < n →
        (divrem_basecase_loop dig B1 lenB1 lo1 n st1).1 (lo1 + j)
          = (divrem_basecase_loop dig B2 lenB2 lo2 n st2).1 (lo2 + j) := by
  intro n
  induction n with
  | zero => intro st1 st2 _ _ j hj0 hj1; simp at hj1; omega
  | succ n ih =>
    intro st1 st2 hB hR j hj0 hj1
    have hlead : B1 (lenB1 - 1) = B2 (lenB2 - 1) := by
      have := (hB 0 (le_refl _) (by push_cast; omega)).2 (by omega)
      simpa using this
    have htop : st1.2 (lo1 + n + lenB1 - 1) = st2.2 (lo2 + n + lenB2 - 1) := by
      have := hR n (by omega) (by push_cast; omega)
      have e1 : lo1 + lenB1 - 1 + n = lo1 + n + lenB1 - 1 := by ring
      have e2 : lo2 + lenB2 - 1 + n = lo2 + n + lenB2 - 1 := by ring
      rwa [e1, e2] at this
    rw [loop_succ, loop_succ]
    by_cases hj : j = n
    · subst hj
      rw [loop_Q_frame dig B1 lenB1 lo1 n _ _ (Or.inr (le_refl _)),
        loop_Q_frame dig B2 lenB2 lo2 n _ _ (Or.inr (le_refl _)), step_fst, step_fst,
        if_pos rfl, if_pos rfl, htop, hlead]
    · apply ih _ _ (fun s hs0 hs1 => hB s hs0 (by push_cast; omega)) _ j hj0
        (by push_cast at hj1; omega)
      intro t ht0 ht1
      rw [step_snd, step_snd, htop, hlead]
      have hs := hB (n - t) (by omega) (by push_cast; omega)
      have e1 : lo1 + lenB1 - 1 + t - (lo1 + n) = lenB1 - 1 - (n - t) := by ring
      have e2 : lo2 + lenB2 - 1 + t - (lo2 + n) = lenB2 - 1 - (n - t) := by ring
      by_cases hc : (n : Int) - t < lenB1
      · rw [if_pos (by omega), if_pos (by omega), e1, e2, hs.2 hc,
          hR t ht0 (by push_cast; omega)]
      · rw [if_neg (by omega), if_neg (by omega), hR t ht0 (by push_cast; omega)]

/-- With a unit leading coefficient and exact digits, the loop over the
quotient indices `lo .. lo+n-1` clears the remainder positions
`lo+lenB-1 .. lo+n+lenB-2`. -/
theorem loop_top_zero (dig : Int → Int → Int) (hdig : DigitExact dig) (B : Buf) (lenB lo : Int)
    (hB : 1 ≤ lenB) (hu : B (lenB - 1) = 1 ∨ B (lenB - 1) = -1) :
    ∀ (n : Nat) (st : Buf × Buf) (i : Int), lo + lenB - 1 ≤ i → i < lo + n + lenB - 1 →
      (divrem_basecase_loop dig B lenB lo n st).2 i = 0 := by
  intro n
  induction n with
  | zero => intro st i h0 h1; simp at h1; omega
  | succ n ih =>
    intro st i h0 h1
    rw [loop_succ]
    by_cases hi : i < lo + n + lenB - 1
    · exact ih _ i h0 hi
    · have hi' : i = lo + n + lenB - 1 := by push_cast at h1; omega
      have e : i - (lo + n) = lenB - 1 := by omega
      rw [loop_R_frame dig B lenB lo n _ i (Or.inr (by omega)), step_snd, if_pos (by omega), e,
        ← hi', hdig _ _ hu]
      ring

theorem ptr_zero (p : Buf) : ptr p 0 = p := by
  funext i
  unfold ptr
  rw [zero_add]

/-- The schoolbook remainder is `A - Q * B` on all `lenA` coefficients. -/
theorem basecase_invariant (dig : Int → Int → Int) (Q R A : Buf) (lenA : Int) (B : Buf)
    (lenB : Int) (hA : lenB ≤ lenA) (i : Int) (h0 : 0 ≤ i) (h1 : i < lenA) :
    (_fmpz_poly_divrem_basecase dig Q R A lenA B lenB).2 i
      = A i - poly_mul_coeff (_fmpz_poly_divrem_basecase dig Q R A lenA B lenB).1
          (lenA - lenB + 1) B lenB i := by
  unfold _fmpz_poly_divrem_basecase
  have hn : (((lenA - lenB + 1).toNat : Nat) : Int) = lenA - lenB + 1 :=
    Int.toNat_of_nonneg (by omega)
  have h := loop_invariant dig B lenB 0 (lenA - lenB + 1).toNat (Q, _fmpz_vec_copy R 0 A lenA) i
  rw [ptr_zero, sub_zero, hn] at h
  rw [h]
  simp only [_fmpz_vec_copy, zero_add, sub_zero]
  rw [if_pos ⟨h0, h1⟩]

theorem fdiv_digit_exact : DigitExact fdiv_digit := by
  intro r l hl
  unfold fdiv_digit
  rcases hl with rfl | rfl
  · by_cases h : r.natAbs < (1 : Int).natAbs
    · rw [if_pos h]
      have : r = 0 := by
        have h' : r.natAbs < 1 := h
        exact Int.natAbs_eq_zero.mp (by omega)
      rw [this]
      rfl
    · rw [if_neg h, Int.fdiv_one, mul_one]
  · by_cases h : r.natAbs < (-1 : Int).natAbs
    · rw [if_pos h]
      have : r = 0 := by
        have h' : r.natAbs < 1 := h
        exact Int.natAbs_eq_zero.mp (by omega)
      rw [this]
      rfl
    · rw [if_neg h, Int.fdiv_eq_ediv_of_dvd ⟨-r, by ring⟩, Int.ediv_neg, Int.ediv_one]
      ring

/-- Schoolbook division with exact digits leaves a remainder of degree below
the divisor's degree when the divisor's top coefficient is a unit. -/
theorem basecase_divider_remainder_small (dig : Int → Int → Int) (hdig : DigitExact dig) :
    BaseRemainderSmall (basecase_divider dig) := by
  intro P D k hk hu i h0 h1
  have hinv := basecase_invariant dig (_fmpz_vec_init k) (_fmpz_vec_init (2 * k - 1)) P
    (2 * k - 1) D k (by omega) i (by omega) h1
  have hlen : 2 * k - 1 - k + 1 = k := by ring
  rw [hlen, poly_mul_coeff_comm] at hinv
  have hz : (_fmpz_poly_divrem_basecase dig (_fmpz_vec_init k) (_fmpz_vec_init (2 * k - 1)) P
      (2 * k - 1) D k).2 i = 0 := by
    unfold _fmpz_poly_divrem_basecase
    apply loop_top_zero dig hdig D k 0 hk hu
    · omega
    · rw [hlen, Int.toNat_of_nonneg (by omega)]
      omega
  show P i - poly_mul_coeff D k _ k i = 0
  rw [hz] at hinv
  linarith

/-- The remainder written by the driver vanishes from index `lenB-1` on, when
`B` has a unit top coefficient and the base-case divider leaves small
remainders. -/
theorem driver_remainder_small (base : BaseDivider) (hrem : BaseRemainderSmall base) (B : Buf)
    (lenB : Int) (hB : 1 ≤ lenB) (hu : B (lenB - 1) = 1 ∨ B (lenB - 1) = -1) :
    ∀ (fuel : Nat) (Q R A : Buf) (lenA : Int) (out : DivremOut), lenB ≤ lenA →
      _fmpz_poly_divrem_divconquer base fuel Q R A lenA B lenB = some out →
      ∀ i, lenB - 1 ≤ i → i < lenA → out.R i = 0 := by
  intro fuel
  induction fuel with
  | zero => intro Q R A lenA out _ h; simp [_fmpz_poly_divrem_divconquer] at h
  | succ fuel ih =>
    intro Q R A lenA out hA h i h0 h1
    rcases lt_trichotomy lenA (2 * lenB - 1) with hd | hb | he
    · rw [driver_deficient base fuel Q R A lenA B lenB hd] at h
      cases h
      have hu' : ptr B (lenB - (lenA - lenB + 1)) (lenA - lenB + 1 - 1) = 1 ∨
          ptr B (lenB - (lenA - lenB + 1)) (lenA - lenB + 1 - 1) = -1 := by
        have e : ptr B (lenB - (lenA - lenB + 1)) (lenA - lenB + 1 - 1) = B (lenB - 1) := by
          unfold ptr
          congr 1
          ring
        rw [e]
        exact hu
      have hr := hrem (ptr A (lenB - (lenA - lenB + 1))) (ptr B (lenB - (lenA - lenB + 1)))
        (lenA - lenB + 1) (by omega) hu' (i - (lenB - (lenA - lenB + 1))) (by omega) (by omega)
      rw [ptr_sub] at hr
      rw [deficient_branch_R base Q R A lenA B lenB i hA hd, if_pos ⟨by omega, h1⟩,
        if_pos (by omega), poly_mul_coeff_eq_zero _ _ _ _ i (Or.inr (by omega))]
      linarith
    · rw [driver_balanced base fuel Q R A lenA B lenB hb] at h
      cases h
      rw [balanced_branch_R base Q R A lenA B lenB i hb, if_pos ⟨by omega, h1⟩]
      exact hrem A B lenB hB hu i h0 (by omega)
    · rw [driver_excessive base fuel Q R A lenA B lenB he] at h
      obtain ⟨out', hout', rfl⟩ := Option.map_eq_some'.mp h
      show out'.R i = 0
      by_cases hi : i < lenA - lenB
      · exact ih _ _ _ _ out' (by omega) hout' i h0 hi
      · obtain ⟨_, hR⟩ := driver_frame base B lenB hB fuel _ _ _ _ out' (by omega) hout'
        have hr := hrem (ptr A (lenA - 2 * lenB + 1)) B lenB hB hu (i - (lenA - 2 * lenB + 1))
          (by omega) (by omega)
        rw [ptr_sub] at hr
        rw [hR i (by omega), excessive_prepare_R, if_pos (by omega)]
        exact hr

/-- The schoolbook base-case divider returns the product of its divisor
window and its quotient. -/
theorem basecase_divider_product (dig : Int → Int → Int) : BaseProduct (basecase_divider dig) :=
  fun _ _ _ _ _ _ _ => rfl

/-- C1: for every dividend `A` of length `lenA` and divisor `B` of length
`lenB` with `lenA >= lenB >= 1` and arbitrary integer coefficients, if every
base-case call returns a quotient and a partial product equal to its divisor
window times that quotient, then the driver returns (a recursion bound of
`lenA` is enough) and the `Q` (length `lenA-lenB+1`) and `R` (length `lenA`)
it wrote satisfy `Q*B + R = A` coefficient by coefficient, whichever of the
three branches is taken. -/
theorem divconquer_reconstruction (base : BaseDivider) (hbase : BaseProduct base)
    (Q R A B : Buf) (lenA lenB : Int) (hB : 1 ≤ lenB) (hA : lenB ≤ lenA)
    (fuel : Nat) (hfuel : lenA ≤ fuel) :
    ∃ out, _fmpz_poly_divrem_divconquer base fuel Q R A lenA B lenB = some out ∧
      ∀ i, 0 ≤ i → i < lenA →
        poly_mul_coeff out.Q (lenA - lenB + 1) B lenB i + out.R i = A i := by
  obtain ⟨out, hout⟩ := driver_returns base B lenB hB fuel Q R A lenA hA hfuel
  exact ⟨out, hout, driver_reconstruct base hbase B lenB hB fuel Q R A lenA out hA hout⟩

/-- Witness for C1: an excessive-then-balanced run with a non-unit leading
coefficient. -/
theorem divconquer_reconstruction_witness :
    BaseProduct (basecase_divider fdiv_digit) ∧ (1 : Int) ≤ 3 ∧ (3 : Int) ≤ 6 ∧
    (6 : Int) ≤ ((6 : Nat) : Int) ∧
    ∃ out, _fmpz_poly_divrem_divconquer (basecase_divider fdiv_digit) 6
        (_fmpz_vec_init 4) (_fmpz_vec_init 6) (ofList [6, 7, 2, 5, -3, 8]) 6
        (ofList [2, -4, 3]) 3 = some out ∧
      ∀ i, 0 ≤ i → i < 6 →
        poly_mul_coeff out.Q (6 - 3 + 1) (ofList [2, -4, 3]) 3 i + out.R i
          = ofList [6, 7, 2, 5, -3, 8] i :=
  ⟨basecase_divider_product fdiv_digit, by decide, by decide, by decide,
   divconquer_reconstruction (basecase_divider fdiv_digit) (basecase_divider_product fdiv_digit)
     (_fmpz_vec_init 4) (_fmpz_vec_init 6) (ofList [6, 7, 2, 5, -3, 8]) (ofList [2, -4, 3]) 6 3
     (by decide) (by decide) 6 (by decide)⟩

theorem example_nonzero_remainder :
    (_fmpz_poly_divrem_divconquer (basecase_divider fdiv_digit) 3
        (_fmpz_vec_init 2) (_fmpz_vec_init 3) (ofList [1, 0, 1]) 3 (ofList [1, 1]) 2).map
      (fun out => (toList out.Q 2, toList out.R 3)) = some ([-1, 1], [2, 0, 0]) := by
  decide

theorem example_excessive :
    (_fmpz_poly_divrem_divconquer (basecase_divider fdiv_digit) 6
        (_fmpz_vec_init 4) (_fmpz_vec_init 6) (ofList [6, 7, 2, 5, -3, 8]) 6
        (ofList [2, -4, 3]) 3).map
      (fun out => (toList out.Q 4, toList out.R 6)) = some ([1, 1, 1, 2], [4, 9, 1, 2, 2, 2]) := by
  decide

/-- C2: for every `A`, `B` with `lenA >= lenB >= 1` and `B[lenB-1] = +1` or
`-1`, when the base-case divider leaves a remainder of degree below its
divisor's degree on each balanced call, the driver returns and the
remainder window it wrote has `R[i] = 0` for every `lenB-1 <= i < lenA`. -/
theorem divconquer_remainder_degree (base : BaseDivider) (hrem : BaseRemainderSmall base)
    (Q R A B : Buf) (lenA lenB : Int) (hB : 1 ≤ lenB) (hA : lenB ≤ lenA)
    (hu : B (lenB - 1) = 1 ∨ B (lenB - 1) = -1) (fuel : Nat) (hfuel : lenA ≤ fuel) :
    ∃ out, _fmpz_poly_divrem_divconquer base fuel Q R A lenA B lenB = some out ∧
      ∀ i, lenB - 1 ≤ i → i < lenA → out.R i = 0 := by
  obtain ⟨out, hout⟩ := driver_returns base B lenB hB fuel Q R A lenA hA hfuel
  exact ⟨out, hout,
    driver_remainder_small base hrem B lenB hB hu fuel Q R A lenA out hA hout⟩

/-- Witness for C2: an excessive run with leading coefficient `-1` and the
schoolbook base case. -/
theorem divconquer_remainder_degree_witness :
    BaseRemainderSmall (basecase_divider fdiv_digit) ∧ (1 : Int) ≤ 3 ∧ (3 : Int) ≤ 7 ∧
    (ofList [2, -4, -1] (3 - 1) = 1 ∨ ofList [2, -4, -1] (3 - 1) = -1) ∧
    (7 : Int) ≤ ((7 : Nat) : Int) ∧
    ∃ out, _fmpz_poly_divrem_divconquer (basecase_divider fdiv_digit) 7
        (_fmpz_vec_init 5) (_fmpz_vec_init 7) (ofList [6, 7, 2, 5, -3, 8, 1]) 7
        (ofList [2, -4, -1]) 3 = some out ∧
      ∀ i, 3 - 1 ≤ i → i < 7 → out.R i = 0 :=
  ⟨basecase_divider_remainder_small fdiv_digit fdiv_digit_exact, by decide, by decide,
   by decide, by decide,
   divconquer_remainder_degree (basecase_divider fdiv_digit)
     (basecase_divider_remainder_small fdiv_digit fdiv_digit_exact)
     (_fmpz_vec_init 5) (_fmpz_vec_init 7) (ofList [6, 7, 2, 5, -3, 8, 1]) (ofList [2, -4, -1]) 7 3
     (by decide) (by decide) (by decide) 7 (by decide)⟩

theorem example_exact_division :
    (_fmpz_poly_divrem_divconquer (basecase_divider fdiv_digit) 3
        (_fmpz_vec_init 2) (_fmpz_vec_init 3) (ofList [6, 7, 2]) 3 (ofList [2, 1]) 2).map
      (fun out => (toList out.Q 2, toList out.R 3)) = some ([3, 2], [0, 0, 0]) := by
  decide

/-! ## The driver against schoolbook long division -/

/-- The quotient digits of the schoolbook loop from index 0 depend only on
the positions `lenB-1 .. n+lenB-2` of the start remainder. -/
theorem loop_Q_congr (dig : Int → Int → Int) (B : Buf) (lenB : Int) (hB : 1 ≤ lenB) (n : Nat)
    (st1 st2 : Buf × Buf)
    (h : ∀ i, lenB - 1 ≤ i → i < n + lenB - 1 → st1.2 i = st2.2 i) (j : Int) (hj0 : 0 ≤ j)
    (hj1 : j < n) :
    (divrem_basecase_loop dig B lenB 0 n st1).1 j
      = (divrem_basecase_loop dig B lenB 0 n st2).1 j := by
  have := loop_digits_agree dig B lenB 0 B lenB 0 hB n st1 st2
    (fun _ _ _ => ⟨Iff.rfl, fun _ => rfl⟩)
    (fun t ht0 ht1 => h _ (by omega) (by omega)) j hj0 hj1
  rwa [zero_add] at this

/-- The first component of the schoolbook base-case divider is the schoolbook
quotient on the balanced input. -/
theorem basecase_divider_fst (dig : Int → Int → Int) (P D : Buf) (k : Int) :
    (basecase_divider dig P D k).1
      = (divrem_basecase_loop dig D k 0 k.toNat
          (_fmpz_vec_init k, _fmpz_vec_copy (_fmpz_vec_init (2 * k - 1)) 0 P (2 * k - 1))).1 := by
  have e : 2 * k - 1 - k + 1 = k := by ring
  show (divrem_basecase_loop dig D k 0 (2 * k - 1 - k + 1).toNat _).1 = _
  rw [e]

theorem basecase_divider_snd (dig : Int → Int → Int) (P D : Buf) (k : Int) :
    (basecase_divider dig P D k).2 = poly_mul_coeff D k (basecase_divider dig P D k).1 k := rfl

/-- The quotient digits the schoolbook loop finds at the indices
`shift .. shift+lenB-1`, on a dividend of length `shift + 2 lenB - 1`, are the
schoolbook quotient of the dividend's top `2 lenB - 1` coefficients. -/
theorem loop_top_digits (dig : Int → Int → Int) (Q0 R0 A : Buf) (lenA : Int) (B : Buf)
    (lenB : Int) (hB : 1 ≤ lenB) (he : lenA > 2 * lenB - 1) (t : Int) (ht0 : 0 ≤ t)
    (ht1 : t < lenB) :
    (divrem_basecase_loop dig B lenB (lenA - 2 * lenB + 1) lenB.toNat
        (Q0, _fmpz_vec_copy R0 0 A lenA)).1 (lenA - 2 * lenB + 1 + t)
      = (basecase_divider dig (ptr A (lenA - 2 * lenB + 1)) B lenB).1 t := by
  rw [basecase_divider_fst]
  have := loop_digits_agree dig B lenB (lenA - 2 * lenB + 1) B lenB 0 hB lenB.toNat
    (Q0, _fmpz_vec_copy R0 0 A lenA)
    (_fmpz_vec_init lenB,
      _fmpz_vec_copy (_fmpz_vec_init (2 * lenB - 1)) 0 (ptr A (lenA - 2 * lenB + 1))
        (2 * lenB - 1))
    (fun _ _ _ => ⟨Iff.rfl, fun _ => rfl⟩)
    (by
      intro u hu0 hu1
      simp only [_fmpz_vec_copy, zero_add, sub_zero]
      rw [if_pos (by omega), if_pos (by omega)]
      unfold ptr
      congr 1
      ring)
    t ht0 (by omega)
  rwa [zero_add] at this

/-- With the schoolbook base case, the driver finds the quotient digits of
schoolbook long division applied to `(A, B)` directly. -/
theorem driver_quotient_eq_basecase (dig : Int → Int → Int) (B : Buf) (lenB : Int)
    (hB : 1 ≤ lenB) :
    ∀ (fuel : Nat) (Q R A : Buf) (lenA : Int) (out : DivremOut) (Q0 R0 : Buf), lenB ≤ lenA →
      _fmpz_poly_divrem_divconquer (basecase_divider dig) fuel Q R A lenA B lenB = some out →
      ∀ j, 0 ≤ j → j < lenA - lenB + 1 →
        out.Q j = (_fmpz_poly_divrem_basecase dig Q0 R0 A lenA B lenB).1 j := by
  intro fuel
  induction fuel with
  | zero => intro Q R A lenA out _ _ _ h; simp [_fmpz_poly_divrem_divconquer] at h
  | succ fuel ih =>
    intro Q R A lenA out Q0 R0 hA h j hj0 hj1
    rcases lt_trichotomy lenA (2 * lenB - 1) with hd | hb | he
    · -- deficient: only the top n1 coefficients of B are read
      rw [driver_deficient _ fuel Q R A lenA B lenB hd] at h
      cases h
      rw [deficient_branch_Q, if_pos ⟨hj0, hj1⟩, basecase_divider_fst]
      unfold _fmpz_poly_divrem_basecase
      have := loop_digits_agree dig (ptr B (lenB - (lenA - lenB + 1))) (lenA - lenB + 1) 0
        B lenB 0 (by omega) (lenA - lenB + 1).toNat
        (_fmpz_vec_init (lenA - lenB + 1),
          _fmpz_vec_copy (_fmpz_vec_init (2 * (lenA - lenB + 1) - 1)) 0
            (ptr A (lenB - (lenA - lenB + 1))) (2 * (lenA - lenB + 1) - 1))
        (Q0, _fmpz_vec_copy R0 0 A lenA)
        (by
          intro u hu0 hu1
          refine ⟨⟨fun _ => by omega, fun _ => by omega⟩, fun _ => ?_⟩
          unfold ptr
          congr 1
          ring)
        (by
          intro u hu0 hu1
          simp only [_fmpz_vec_copy, zero_add, sub_zero]
          rw [if_pos (by omega), if_pos (by omega)]
          unfold ptr
          congr 1
          ring)
        j hj0 (by omega)
      rwa [zero_add] at this
    · -- balanced
      rw [driver_balanced _ fuel Q R A lenA B lenB hb] at h
      cases h
      rw [balanced_branch_Q, if_pos ⟨hj0, by omega⟩, basecase_divider_fst]
      unfold _fmpz_poly_divrem_basecase
      have e : lenA - lenB + 1 = lenB := by omega
      rw [e]
      apply loop_Q_congr dig B lenB hB _ _ _ _ j hj0 (by omega)
      intro i hi0 hi1
      simp only [_fmpz_vec_copy, zero_add, sub_zero]
      rw [if_pos (by omega), if_pos (by omega)]
    · -- excessive: the top lenB digits, then the rest on the reduced dividend
      rw [driver_excessive _ fuel Q R A lenA B lenB he] at h
      obtain ⟨out', hout', rfl⟩ := Option.map_eq_some'.mp h
      show out'.Q j = _
      unfold _fmpz_poly_divrem_basecase
      have hsplit : (lenA - lenB + 1).toNat = (lenA - lenB - lenB + 1).toNat + lenB.toNat := by
        omega
      have hs : (0 : Int) + ((lenA - lenB - lenB + 1).toNat : Nat) = lenA - 2 * lenB + 1 := by
        omega
      rw [hsplit, loop_add, hs]
      have hq1 := loop_top_digits dig Q0 R0 A lenA B lenB hB he
      by_cases hjs : j < lenA - 2 * lenB + 1
      · rw [ih _ _ _ _ out'
          (divrem_basecase_loop dig B lenB (lenA - 2 * lenB + 1) lenB.toNat
            (Q0, _fmpz_vec_copy R0 0 A lenA)).1
          (divrem_basecase_loop dig B lenB (lenA - 2 * lenB + 1) lenB.toNat
            (Q0, _fmpz_vec_copy R0 0 A lenA)).2 (by omega) hout' j hj0 (by omega)]
        unfold _fmpz_poly_divrem_basecase
        apply loop_Q_congr dig B lenB hB _ _ _ _ j hj0 (by omega)
        intro i hi0 hi1
        show _fmpz_vec_copy _ 0 _ (lenA - lenB) i = _
        simp only [_fmpz_vec_copy, zero_add, sub_zero]
        have hcong : poly_mul_coeff
              (ptr (divrem_basecase_loop dig B lenB (lenA - 2 * lenB + 1) lenB.toNat
                (Q0, _fmpz_vec_copy R0 0 A lenA)).1 (lenA - 2 * lenB + 1))
              lenB B lenB (i - (lenA - 2 * lenB + 1))
            = poly_mul_coeff (basecase_divider dig (ptr A (lenA - 2 * lenB + 1)) B lenB).1
                lenB B lenB (i - (lenA - 2 * lenB + 1)) :=
          poly_mul_coeff_congr (fun t ht0 ht1 => hq1 t ht0 ht1) (fun _ _ _ => rfl) _
        rw [if_pos (by omega), excessive_prepare_dq1 _ Q R A lenA B lenB i hB (by omega) (by omega),
          loop_invariant, Int.toNat_of_nonneg (by omega), hcong,
          basecase_divider_snd, poly_mul_coeff_comm B]
        simp only [_fmpz_vec_copy, zero_add, sub_zero]
        have hcopy : (if 0 ≤ i ∧ i < lenA then A i else R0 i) = A i := if_pos (by omega)
        rw [hcopy]
        by_cases hi : lenA - 2 * lenB + 1 ≤ i
        · rw [if_pos hi]
        · rw [if_neg hi, poly_mul_coeff_eq_zero _ _ _ _ _ (Or.inl (by omega))]
      · obtain ⟨hQ, _⟩ := driver_frame _ B lenB hB fuel _ _ _ _ out' (by omega) hout'
        have e : j = lenA - 2 * lenB + 1 + (j - (lenA - 2 * lenB + 1)) := by ring
        rw [hQ j (by omega), excessive_prepare_Q, if_pos (by omega),
          loop_Q_frame dig B lenB 0 _ _ j (Or.inr (by omega)),
          ← hq1 (j - (lenA - 2 * lenB + 1)) (by omega) (by omega), ← e]

/-- C3: for every `A`, `B` with `lenA >= lenB >= 1`, with the base-case
divider taken to be schoolbook long division on the balanced input, returning
its quotient and the full product divisor * quotient, the driver returns and
its `Q` and `R` equal, coefficient by coefficient, the quotient and remainder
of schoolbook long division applied directly to `(A, B)`; this holds for the
deficient, balanced and excessive sizes alike, for every rounding of the
quotient digits, and needs no condition on the top coefficient of `B`. -/
theorem divconquer_eq_schoolbook (dig : Int → Int → Int) (Q R Q0 R0 A B : Buf)
    (lenA lenB : Int) (hB : 1 ≤ lenB) (hA : lenB ≤ lenA) (fuel : Nat) (hfuel : lenA ≤ fuel) :
    ∃ out, _fmpz_poly_divrem_divconquer (basecase_divider dig) fuel Q R A lenA B lenB = some out ∧
      (∀ i, 0 ≤ i → i < lenA - lenB + 1 →
        out.Q i = (_fmpz_poly_divrem_basecase dig Q0 R0 A lenA B lenB).1 i) ∧
      (∀ i, 0 ≤ i → i < lenA →
        out.R i = (_fmpz_poly_divrem_basecase dig Q0 R0 A lenA B lenB).2 i) := by
  obtain ⟨out, hout⟩ := driver_returns (basecase_divider dig) B lenB hB fuel Q R A lenA hA hfuel
  have hQ := driver_quotient_eq_basecase dig B lenB hB fuel Q R A lenA out Q0 R0 hA hout
  refine ⟨out, hout, hQ, ?_⟩
  intro i h0 h1
  have hrec := driver_reconstruct (basecase_divider dig) (basecase_divider_product dig) B lenB hB
    fuel Q R A lenA out hA hout i h0 h1
  rw [basecase_invariant dig Q0 R0 A lenA B lenB hA i h0 h1,
    ← poly_mul_coeff_congr hQ (fun _ _ _ => rfl) i]
  linarith

/-- Witness for C3: a deficient input (`lenA = 5 < 2*4 - 1`) and an excessive
input (`lenA = 6 > 2*3 - 1`), both with a non-unit leading coefficient. -/
theorem divconquer_eq_schoolbook_witness :
    ((1 : Int) ≤ 4 ∧ (4 : Int) ≤ 5 ∧ (5 : Int) ≤ ((5 : Nat) : Int) ∧
      ∃ out, _fmpz_poly_divrem_divconquer (basecase_divider fdiv_digit) 5
          (_fmpz_vec_init 2) (_fmpz_vec_init 5) (ofList [6, 7, 2, 5, -30]) 5
          (ofList [2, -4, 3, 7]) 4 = some out ∧
        (∀ i, 0 ≤ i → i < 5 - 4 + 1 →
          out.Q i = (_fmpz_poly_divrem_basecase fdiv_digit (_fmpz_vec_init 2) (_fmpz_vec_init 5)
            (ofList [6, 7, 2, 5, -30]) 5 (ofList [2, -4, 3, 7]) 4).1 i) ∧
        (∀ i, 0 ≤ i → i < 5 →
          out.R i = (_fmpz_poly_divrem_basecase fdiv_digit (_fmpz_vec_init 2) (_fmpz_vec_init 5)
            (ofList [6, 7, 2, 5, -30]) 5 (ofList [2, -4, 3, 7]) 4).2 i)) ∧
    ((1 : Int) ≤ 3 ∧ (3 : Int) ≤ 6 ∧ (6 : Int) ≤ ((6 : Nat) : Int) ∧
      ∃ out, _fmpz_poly_divrem_divconquer (basecase_divider fdiv_digit) 6
          (_fmpz_vec_init 4) (_fmpz_vec_init 6) (ofList [6, 7, 2, 5, -3, 8]) 6
          (ofList [2, -4, 3]) 3 = some out ∧
        (∀ i, 0 ≤ i → i < 6 - 3 + 1 →
          out.Q i = (_fmpz_poly_divrem_basecase fdiv_digit (_fmpz_vec_init 4) (_fmpz_vec_init 6)
            (ofList [6, 7, 2, 5, -3, 8]) 6 (ofList [2, -4, 3]) 3).1 i) ∧
        (∀ i, 0 ≤ i → i < 6 →
          out.R i = (_fmpz_poly_divrem_basecase fdiv_digit (_fmpz_vec_init 4) (_fmpz_vec_init 6)
            (ofList [6, 7, 2, 5, -3, 8]) 6 (ofList [2, -4, 3]) 3).2 i)) :=
  ⟨⟨by decide, by decide, by decide,
    divconquer_eq_schoolbook fdiv_digit (_fmpz_vec_init 2) (_fmpz_vec_init 5) (_fmpz_vec_init 2)
      (_fmpz_vec_init 5) (ofList [6, 7, 2, 5, -30]) (ofList [2, -4, 3, 7]) 5 4
      (by decide) (by decide) 5 (by decide)⟩,
   ⟨by decide, by decide, by decide,
    divconquer_eq_schoolbook fdiv_digit (_fmpz_vec_init 4) (_fmpz_vec_init 6) (_fmpz_vec_init 4)
      (_fmpz_vec_init 6) (ofList [6, 7, 2, 5, -3, 8]) (ofList [2, -4, 3]) 6 3
      (by decide) (by decide) 6 (by decide)⟩⟩

theorem example_deficient :
    (_fmpz_poly_divrem_divconquer (basecase_divider fdiv_digit) 5
        (_fmpz_vec_init 2) (_fmpz_vec_init 5) (ofList [6, 7, 2, 5, -30]) 5
        (ofList [2, -4, 3, 7]) 4).map
      (fun out => (toList out.Q 2, toList out.R 5)) = some ([2, -5], [2, 25, -24, 6, 5]) := by
  decide


/-! ## The log of a driver run -/

theorem driver_calls_deficient (base : BaseDivider) (Q R A : Buf) (lenA : Int) (B : Buf)
    (lenB : Int) :
    driver_calls (deficient_branch base Q R A lenA B lenB).log = [(lenA, lenB)] := by
  simp only [deficient_branch, driver_calls]
  split_ifs <;> rfl

theorem driver_calls_balanced (base : BaseDivider) (Q R A : Buf) (lenA : Int) (B : Buf)
    (lenB : Int) :
    driver_calls (balanced_branch base Q R A lenA B lenB).log = [(lenA, lenB)] := rfl

theorem driver_calls_excessive (base : BaseDivider) (Q R A : Buf) (lenA : Int) (B : Buf)
    (lenB : Int) (tail : List Event) :
    driver_calls ((excessive_prepare base Q R A lenA B lenB).log ++ tail)
      = (lenA, lenB) :: driver_calls tail := by
  simp only [driver_calls, List.filterMap_append]
  rfl

theorem mem_driver_calls (log : List Event) (a b : Int) :
    Event.driver a b ∈ log ↔ (a, b) ∈ driver_calls log := by
  unfold driver_calls
  rw [List.mem_filterMap]
  constructor
  · intro h
    exact ⟨_, h, rfl⟩
  · rintro ⟨e, he, h⟩
    cases e <;> simp at h
    obtain ⟨rfl, rfl⟩ := h
    exact he

/-- Every driver entry of a run that starts with `lenA >= lenB >= 1` has
`lenB >= 1` and a dividend length between `lenB` and `lenA`. -/
theorem driver_calls_pre (base : BaseDivider) (B : Buf) (lenB : Int) (hB : 1 ≤ lenB) :
    ∀ (fuel : Nat) (Q R A : Buf) (lenA : Int) (out : DivremOut), lenB ≤ lenA →
      _fmpz_poly_divrem_divconquer base fuel Q R A lenA B lenB = some out →
      ∀ c ∈ driver_calls out.log, c.2 = lenB ∧ lenB ≤ c.1 ∧ c.1 ≤ lenA := by
  intro fuel
  induction fuel with
  | zero => intro Q R A lenA out _ h; simp [_fmpz_poly_divrem_divconquer] at h
  | succ fuel ih =>
    intro Q R A lenA out hA h c hc
    rcases lt_trichotomy lenA (2 * lenB - 1) with hd | hb | he
    · rw [driver_deficient base fuel Q R A lenA B lenB hd] at h
      cases h
      rw [driver_calls_deficient, List.mem_singleton] at hc
      subst hc
      exact ⟨rfl, hA, le_refl _⟩
    · rw [driver_balanced base fuel Q R A lenA B lenB hb] at h
      cases h
      rw [driver_calls_balanced, List.mem_singleton] at hc
      subst hc
      exact ⟨rfl, hA, le_refl _⟩
    · rw [driver_excessive base fuel Q R A lenA B lenB he] at h
      obtain ⟨out', hout', rfl⟩ := Option.map_eq_some'.mp h
      change c ∈ driver_calls ((excessive_prepare base Q R A lenA B lenB).log ++ out'.log) at hc
      rw [driver_calls_excessive, List.mem_cons] at hc
      rcases hc with rfl | hc
      · exact ⟨rfl, hA, le_refl _⟩
      · obtain ⟨h1, h2, h3⟩ := ih _ _ _ _ out' (by omega) hout' c hc
        exact ⟨h1, h2, by omega⟩

/-! ## The wrapper -/

theorem store_set_same (σ : Store) (p : Nat) (v : fmpz_poly_struct) : (σ.set p v) p = v := by
  unfold Store.set
  rw [if_pos rfl]

theorem store_set_other (σ : Store) (p q : Nat) (v : fmpz_poly_struct) (h : q ≠ p) :
    (σ.set p v) q = σ q := by
  unfold Store.set
  rw [if_neg h]

/-- Staging leaves the input objects as they are. -/
theorem wrapper_stage_inputs (σ : Store) (Q R A B : Nat) :
    (wrapper_stage σ Q R A B).σ A = σ A ∧ (wrapper_stage σ Q R A B).σ B = σ B := by
  unfold wrapper_stage
  by_cases hQ : Q = A ∨ Q = B <;> by_cases hR : R = A ∨ R = B
  · simp only [if_pos hQ, if_pos hR, and_self]
  · simp only [if_pos hQ, if_neg hR]
    push_neg at hR
    exact ⟨store_set_other _ _ _ _ (Ne.symm hR.1), store_set_other _ _ _ _ (Ne.symm hR.2)⟩
  · simp only [if_neg hQ, if_pos hR]
    push_neg at hQ
    exact ⟨store_set_other _ _ _ _ (Ne.symm hQ.1), store_set_other _ _ _ _ (Ne.symm hQ.2)⟩
  · simp only [if_neg hQ, if_neg hR]
    push_neg at hQ hR
    rw [store_set_other _ _ _ _ (Ne.symm hR.1), store_set_other _ _ _ _ (Ne.symm hR.2),
      store_set_other _ _ _ _ (Ne.symm hQ.1), store_set_other _ _ _ _ (Ne.symm hQ.2)]
    exact ⟨rfl, rfl⟩

/-- The wrapper past both checks: it calls the driver on the lengths of `A`
and `B`. -/
theorem wrapper_main (base : BaseDivider) (σ : Store) (Q R A B : Nat)
    (h0 : (σ B).length ≠ 0) (h1 : ¬ (σ A).length < (σ B).length) :
    fmpz_poly_divrem_divconquer base σ Q R A B
      = match _fmpz_poly_divrem_divconquer base (σ A).length.toNat
            (wrapper_stage σ Q R A B).Q_coeffs (wrapper_stage σ Q R A B).R_coeffs
            (σ A).coeffs (σ A).length (σ B).coeffs (σ B).length with
        | none => WrapperResult.diverge
        | some out =>
          WrapperResult.done (wrapper_finish (wrapper_stage σ Q R A B) out.Q out.R Q R A B)
            out.log := by
  unfold fmpz_poly_divrem_divconquer
  rw [if_neg h0, if_neg h1]
  simp only [(wrapper_stage_inputs σ Q R A B).1, (wrapper_stage_inputs σ Q R A B).2]

/-- C4: the wrapper ends in the fatal division-by-zero error if and only if
`B` has length 0, whatever `A` is (the check comes before the `lenA < lenB`
short-circuit); and for a non-zero `B` (a valid object has a length `>= 0`)
the wrapper returns, and every entry of the core driver in that call, the
recursive ones included, has `lenB >= 1` and `lenA >= lenB`. -/
theorem wrapper_abort_iff (base : BaseDivider) (σ : Store) (Q R A B : Nat) :
    (fmpz_poly_divrem_divconquer base σ Q R A B = WrapperResult.abort ↔ (σ B).length = 0) ∧
    (0 < (σ B).length →
      ∃ σ' log, fmpz_poly_divrem_divconquer base σ Q R A B = WrapperResult.done σ' log ∧
        ∀ a b, Event.driver a b ∈ log → 1 ≤ b ∧ b ≤ a) := by
  constructor
  · constructor
    · intro h
      by_contra h0
      by_cases h1 : (σ A).length < (σ B).length
      · unfold fmpz_poly_divrem_divconquer at h
        rw [if_neg h0, if_pos h1] at h
        cases h
      · rw [wrapper_main base σ Q R A B h0 h1] at h
        split at h <;> cases h
    · intro h
      unfold fmpz_poly_divrem_divconquer
      rw [if_pos h]
  · intro hpos
    have h0 : (σ B).length ≠ 0 := by omega
    by_cases h1 : (σ A).length < (σ B).length
    · refine ⟨fmpz_poly_set (fmpz_poly_zero σ Q) R A, [], ?_, ?_⟩
      · unfold fmpz_poly_divrem_divconquer
        rw [if_neg h0, if_pos h1]
      · intro a b hmem
        cases hmem
    · obtain ⟨out, hout⟩ := driver_returns base (σ B).coeffs (σ B).length (by omega)
        (σ A).length.toNat (wrapper_stage σ Q R A B).Q_coeffs (wrapper_stage σ Q R A B).R_coeffs
        (σ A).coeffs (σ A).length (by omega) (by omega)
      refine ⟨wrapper_finish (wrapper_stage σ Q R A B) out.Q out.R Q R A B, out.log, ?_, ?_⟩
      · rw [wrapper_main base σ Q R A B h0 h1, hout]
      · intro a b hmem
        have := driver_calls_pre base (σ B).coeffs (σ B).length (by omega) _ _ _ _ _ out
          (by omega) hout (a, b) ((mem_driver_calls _ _ _).mp hmem)
        simp only at this
        omega

/-- Witness for C4: the zero divisor aborts, also when `A` is zero. -/
theorem wrapper_abort_iff_witness :
    fmpz_poly_divrem_divconquer (basecase_divider fdiv_digit) (store_of_list [[1], []]) 2 3 0 1
      = WrapperResult.abort ∧
    fmpz_poly_divrem_divconquer (basecase_divider fdiv_digit) (store_of_list [[], []]) 2 3 0 1
      = WrapperResult.abort :=
  ⟨(wrapper_abort_iff _ _ 2 3 0 1).1.mpr rfl, (wrapper_abort_iff _ _ 2 3 0 1).1.mpr rfl⟩

theorem toList_congr (p q : Buf) (n : Int) (h : ∀ i, 0 ≤ i → i < n → p i = q i) :
    toList p n = toList q n := by
  unfold toList
  rw [List.map_inj_left]
  intro j hj
  have := List.mem_range.mp hj
  exact h j (by omega) (by omega)

/-- The short-circuit `lenA < lenB` when `Q` is not the same object as `A`:
the driver is not called, `Q` is the zero polynomial and `R` has the value `A`
had on entry. -/
theorem short_circuit_no_alias (base : BaseDivider) (σ : Store) (Q R A B : Nat)
    (hQA : Q ≠ A) (hQR : Q ≠ R) (h0 : (σ B).length ≠ 0)
    (h1 : (σ A).length < (σ B).length) :
    ∃ σ', fmpz_poly_divrem_divconquer base σ Q R A B = WrapperResult.done σ' [] ∧
      (σ' Q).length = 0 ∧ (σ' R).value = (σ A).value := by
  refine ⟨fmpz_poly_set (fmpz_poly_zero σ Q) R A, ?_, ?_, ?_⟩
  · unfold fmpz_poly_divrem_divconquer
    rw [if_neg h0, if_pos h1]
  · unfold fmpz_poly_set
    split_ifs with h
    · unfold fmpz_poly_zero
      rw [store_set_same]
      rfl
    · rw [store_set_other _ _ _ _ hQR]
      unfold fmpz_poly_zero
      rw [store_set_same]
      rfl
  · have hA : (fmpz_poly_zero σ Q) A = σ A := store_set_other _ _ _ _ (Ne.symm hQA)
    unfold fmpz_poly_set
    split_ifs with h
    · rw [h, hA]
    · rw [store_set_same, hA]
      show toList (_fmpz_vec_copy _ 0 (σ A).coeffs (σ A).length) (σ A).length
        = toList (σ A).coeffs (σ A).length
      apply toList_congr
      intro i hi0 hi1
      unfold _fmpz_vec_copy
      rw [if_pos (by omega), sub_zero]

/-- C5, at the input where the code departs from it: the short-circuit
`lenA < lenB` with `Q` the same object as `A`.  `Q` is zeroed before `A` is
copied, so `R` ends as the zero polynomial although `A` was `1` on entry. -/
theorem short_circuit_alias_loses_dividend :
    (store_of_list [[1], [1, 1]] 0).value = [1] ∧
    (fmpz_poly_divrem_divconquer (basecase_divider fdiv_digit) (store_of_list [[1], [1, 1]])
        0 2 0 1).values 0 2 = some ([], []) := by
  decide

/-- C6, at the inputs where the code departs from it: the same inputs with
fresh outputs and with `Q` the same object as `A` give different remainders: on the short-circuit path (`R = 1` against
`R = 0`), and on the main path (`R = 1 + x` against `R = 1`), where the length
of `R` is set from `A->length` after `Q`, that is `A`, has been swapped. -/
theorem alias_changes_result :
    (fmpz_poly_divrem_divconquer (basecase_divider fdiv_digit) (store_of_list [[1], [1, 1]])
        2 3 0 1).values 2 3 = some ([], [1]) ∧
    (fmpz_poly_divrem_divconquer (basecase_divider fdiv_digit) (store_of_list [[1], [1, 1]])
        0 3 0 1).values 0 3 = some ([], []) ∧
    (fmpz_poly_divrem_divconquer (basecase_divider fdiv_digit)
        (store_of_list [[1, 1, 1], [0, 0, 1]]) 2 3 0 1).values 2 3 = some ([1], [1, 1]) ∧
    (fmpz_poly_divrem_divconquer (basecase_divider fdiv_digit)
        (store_of_list [[1, 1, 1], [0, 0, 1]]) 0 3 0 1).values 0 3 = some ([1], [1]) := by
  decide

theorem normalise_length_bounds (c : Buf) :
    ∀ n : Nat, 0 ≤ normalise_length c n ∧ normalise_length c n ≤ n := by
  intro n
  induction n with
  | zero => exact ⟨le_refl _, le_refl _⟩
  | succ n ih =>
    unfold normalise_length
    split_ifs
    · push_cast
      omega
    · push_cast
      omega

theorem normalise_length_top (c : Buf) :
    ∀ n : Nat, normalise_length c n = 0 ∨ c (normalise_length c n - 1) ≠ 0 := by
  intro n
  induction n with
  | zero => exact Or.inl rfl
  | succ n ih =>
    unfold normalise_length
    split_ifs with h
    · exact ih
    · right
      rw [add_sub_cancel_right]
      exact h

theorem normalise_length_zeros (c : Buf) :
    ∀ (n : Nat) (i : Int), normalise_length c n ≤ i → i < n → c i = 0 := by
  intro n
  induction n with
  | zero => intro i h0 h1; have := normalise_length_bounds c 0; omega
  | succ n ih =>
    intro i h0 h1
    unfold normalise_length at h0
    split_ifs at h0 with h
    · by_cases hi : i = n
      · rw [hi]
        exact h
      · exact ih i h0 (by push_cast at h1; omega)
    · push_cast at h1
      omega

/-- Normalising an object of length `>= 0` trims its own window. -/
theorem normalise_isTrimOf (p : fmpz_poly_struct) (h : 0 ≤ p.length) :
    IsTrimOf (_fmpz_poly_normalise p) p.coeffs p.length := by
  unfold _fmpz_poly_normalise
  split_ifs with h0
  · have hz : p.length = 0 := by omega
    exact ⟨h, le_refl _, Or.inl hz, fun _ _ _ => rfl, fun i hi0 hi1 => by omega⟩
  · have hn : ((p.length.toNat : Nat) : Int) = p.length := Int.toNat_of_nonneg h
    have hb := normalise_length_bounds p.coeffs p.length.toNat
    refine ⟨hb.1, by show normalise_length p.coeffs p.length.toNat ≤ p.length; omega,
      normalise_length_top p.coeffs p.length.toNat, fun _ _ _ => rfl, ?_⟩
    intro i hi0 hi1
    exact normalise_length_zeros p.coeffs p.length.toNat i hi0 (by omega)

/-- Lines 179-198 of the wrapper when no output is the same object as an
input: each output is the driver's window with its length set, normalised. -/
theorem wrapper_finish_no_alias (s : WrapperStage) (outQ outR : Buf) (Q R A B : Nat)
    (hQA : Q ≠ A) (hQB : Q ≠ B) (hRA : R ≠ A) (hRB : R ≠ B) (hQR : Q ≠ R) :
    (wrapper_finish s outQ outR Q R A B) Q
      = _fmpz_poly_normalise
          (_fmpz_poly_set_length { s.σ Q with coeffs := outQ }
            ((s.σ A).length - (s.σ B).length + 1)) ∧
    (wrapper_finish s outQ outR Q R A B) R
      = _fmpz_poly_normalise
          (_fmpz_poly_set_length { s.σ R with coeffs := outR } (s.σ A).length) := by
  have hQ : ¬ (Q = A ∨ Q = B) := by tauto
  have hR : ¬ (R = A ∨ R = B) := by tauto
  unfold wrapper_finish
  simp only [if_neg hQ, if_neg hR]
  constructor
  · rw [store_set_other _ _ _ _ hQR, store_set_same, store_set_other _ _ _ _ hQR,
      store_set_same, store_set_other _ _ _ _ hQR, store_set_same,
      store_set_other _ _ _ _ (Ne.symm hRA), store_set_other _ _ _ _ (Ne.symm hQA),
      store_set_other _ _ _ _ (Ne.symm hRB), store_set_other _ _ _ _ (Ne.symm hQB)]
  · rw [store_set_same, store_set_other _ _ _ _ (Ne.symm hQR), store_set_same,
      store_set_other _ _ _ _ (Ne.symm hQR), store_set_same,
      store_set_other _ _ _ _ (Ne.symm hQA), store_set_other _ _ _ _ (Ne.symm hRA),
      store_set_other _ _ _ _ (Ne.symm hQA), store_set_other _ _ _ _ (Ne.symm hQR)]

/-- C7: for every `A` and non-zero `B` with `length(A) >= length(B)` and
outputs that are not the same objects as the inputs (nor as each other), the
wrapper returns, and the `Q` and `R` it leaves are the core driver's output
windows of length `lenA-lenB+1` and `lenA` with the top zero coefficients
trimmed: each is normalised, no longer than its window, equal to the window
on its own length, and the window is zero beyond it. -/
theorem wrapper_trims_driver_windows (base : BaseDivider) (σ : Store) (Q R A B : Nat)
    (hQA : Q ≠ A) (hQB : Q ≠ B) (hRA : R ≠ A) (hRB : R ≠ B) (hQR : Q ≠ R)
    (hB : 1 ≤ (σ B).length) (hA : (σ B).length ≤ (σ A).length) :
    ∃ out σ',
      _fmpz_poly_divrem_divconquer base (σ A).length.toNat
          (wrapper_stage σ Q R A B).Q_coeffs (wrapper_stage σ Q R A B).R_coeffs
          (σ A).coeffs (σ A).length (σ B).coeffs (σ B).length = some out ∧
      fmpz_poly_divrem_divconquer base σ Q R A B = WrapperResult.done σ' out.log ∧
      IsTrimOf (σ' Q) out.Q ((σ A).length - (σ B).length + 1) ∧
      IsTrimOf (σ' R) out.R (σ A).length := by
  obtain ⟨out, hout⟩ := driver_returns base (σ B).coeffs (σ B).length hB
    (σ A).length.toNat (wrapper_stage σ Q R A B).Q_coeffs (wrapper_stage σ Q R A B).R_coeffs
    (σ A).coeffs (σ A).length hA (by omega)
  refine ⟨out, wrapper_finish (wrapper_stage σ Q R A B) out.Q out.R Q R A B, hout, ?_, ?_, ?_⟩
  · rw [wrapper_main base σ Q R A B (by omega) (by omega), hout]
  · rw [(wrapper_finish_no_alias _ out.Q out.R Q R A B hQA hQB hRA hRB hQR).1,
      (wrapper_stage_inputs σ Q R A B).1, (wrapper_stage_inputs σ Q R A B).2]
    exact normalise_isTrimOf
      (_fmpz_poly_set_length { (wrapper_stage σ Q R A B).σ Q with coeffs := out.Q }
        ((σ A).length - (σ B).length + 1))
      (by show 0 ≤ (σ A).length - (σ B).length + 1; omega)
  · rw [(wrapper_finish_no_alias _ out.Q out.R Q R A B hQA hQB hRA hRB hQR).2,
      (wrapper_stage_inputs σ Q R A B).1]
    exact normalise_isTrimOf
      (_fmpz_poly_set_length { (wrapper_stage σ Q R A B).σ R with coeffs := out.R }
        (σ A).length)
      (by show 0 ≤ (σ A).length; omega)

/-- Witness for C7: the spec's exact division `(6 + 7x + 2x^2) / (2 + x)`, with
fresh outputs at the addresses 2 and 3. -/
theorem wrapper_trims_driver_windows_witness :
    (2 : Nat) ≠ 0 ∧ (2 : Nat) ≠ 1 ∧ (3 : Nat) ≠ 0 ∧ (3 : Nat) ≠ 1 ∧ (2 : Nat) ≠ 3 ∧
    1 ≤ (store_of_list [[6, 7, 2], [2, 1]] 1).length ∧
    (store_of_list [[6, 7, 2], [2, 1]] 1).length ≤ (store_of_list [[6, 7, 2], [2, 1]] 0).length ∧
    ∃ out σ',
      _fmpz_poly_divrem_divconquer (basecase_divider fdiv_digit)
          (store_of_list [[6, 7, 2], [2, 1]] 0).length.toNat
          (wrapper_stage (store_of_list [[6, 7, 2], [2, 1]]) 2 3 0 1).Q_coeffs
          (wrapper_stage (store_of_list [[6, 7, 2], [2, 1]]) 2 3 0 1).R_coeffs
          (store_of_list [[6, 7, 2], [2, 1]] 0).coeffs (store_of_list [[6, 7, 2], [2, 1]] 0).length
          (store_of_list [[6, 7, 2], [2, 1]] 1).coeffs (store_of_list [[6, 7, 2], [2, 1]] 1).length
        = some out ∧
      fmpz_poly_divrem_divconquer (basecase_divider fdiv_digit)
          (store_of_list [[6, 7, 2], [2, 1]]) 2 3 0 1 = WrapperResult.done σ' out.log ∧
      IsTrimOf (σ' 2) out.Q
        ((store_of_list [[6, 7, 2], [2, 1]] 0).length
          - (store_of_list [[6, 7, 2], [2, 1]] 1).length + 1) ∧
      IsTrimOf (σ' 3) out.R (store_of_list [[6, 7, 2], [2, 1]] 0).length :=
  ⟨by decide, by decide, by decide, by decide, by decide, by decide, by decide,
   wrapper_trims_driver_windows (basecase_divider fdiv_digit)
     (store_of_list [[6, 7, 2], [2, 1]]) 2 3 0 1
     (by decide) (by decide) (by decide) (by decide) (by decide) (by decide) (by decide)⟩

/-- The spec's two examples through the wrapper, with fresh outputs. -/
theorem example_wrapper :
    (fmpz_poly_divrem_divconquer (basecase_divider fdiv_digit)
        (store_of_list [[6, 7, 2], [2, 1]]) 2 3 0 1).values 2 3 = some ([3, 2], []) ∧
    (fmpz_poly_divrem_divconquer (basecase_divider fdiv_digit)
        (store_of_list [[1, 0, 1], [1, 1]]) 2 3 0 1).values 2 3 = some ([-1, 1], [2]) := by
  decide

/-! ## Recursion structure -/

theorem branch_choices_deficient (base : BaseDivider) (Q R A : Buf) (lenA : Int) (B : Buf)
    (lenB : Int) :
    branch_choices (deficient_branch base Q R A lenA B lenB).log
      = [Event.deficient (lenA - lenB + 1) (lenB - (lenA - lenB + 1))] := by
  simp only [deficient_branch, branch_choices]
  split_ifs <;> rfl

theorem branch_choices_balanced (base : BaseDivider) (Q R A : Buf) (lenA : Int) (B : Buf)
    (lenB : Int) :
    branch_choices (balanced_branch base Q R A lenA B lenB).log = [Event.balanced] := rfl

theorem branch_choices_excessive (base : BaseDivider) (Q R A : Buf) (lenA : Int) (B : Buf)
    (lenB : Int) (tail : List Event) :
    branch_choices ((excessive_prepare base Q R A lenA B lenB).log ++ tail)
      = Event.excessive (lenA - 2 * lenB + 1) :: branch_choices tail := by
  simp only [branch_choices, List.filter_append]
  rfl

theorem ediv_eq_one_of_lt (a b : Int) (hb : 1 ≤ b) (h1 : b ≤ a) (h2 : a < 2 * b) : a / b = 1 := by
  have h3 : 1 ≤ a / b := (Int.le_ediv_iff_mul_le (by omega)).mpr (by omega)
  have h4 : a / b < 2 := (Int.ediv_lt_iff_lt_mul (by omega)).mpr (by omega)
  omega

theorem sub_ediv_self (a b : Int) (hb : 1 ≤ b) : (a - b) / b = a / b - 1 := by
  have h := Int.add_mul_ediv_right a (-1) (show b ≠ 0 by omega)
  have e : a + -1 * b = a - b := by ring
  rw [e] at h
  omega

theorem one_le_ediv (a b : Int) (hb : 1 ≤ b) (h1 : b ≤ a) : 1 ≤ a / b :=
  (Int.le_ediv_iff_mul_le (by omega)).mpr (by omega)

/-- With `lenA >= lenB >= 1`, a recursion bound of `floor(lenA / lenB)` is
enough for the driver to return. -/
theorem driver_returns_tight (base : BaseDivider) (B : Buf) (lenB : Int) (hB : 1 ≤ lenB) :
    ∀ (fuel : Nat) (Q R A : Buf) (lenA : Int), lenB ≤ lenA → lenA / lenB ≤ fuel →
      ∃ out, _fmpz_poly_divrem_divconquer base fuel Q R A lenA B lenB = some out := by
  intro fuel
  induction fuel with
  | zero =>
    intro Q R A lenA hA hf
    have := one_le_ediv lenA lenB hB hA
    simp at hf
    omega
  | succ fuel ih =>
    intro Q R A lenA hA hf
    rcases lt_trichotomy lenA (2 * lenB - 1) with hd | hb | he
    · exact ⟨_, driver_deficient base fuel Q R A lenA B lenB hd⟩
    · exact ⟨_, driver_balanced base fuel Q R A lenA B lenB hb⟩
    · obtain ⟨out, hout⟩ := ih (excessive_prepare base Q R A lenA B lenB).Q
        (excessive_prepare base Q R A lenA B lenB).R
        (excessive_prepare base Q R A lenA B lenB).dq1 (lenA - lenB) (by omega)
        (by rw [sub_ediv_self lenA lenB hB]; push_cast at hf; omega)
      rw [driver_excessive base fuel Q R A lenA B lenB he, hout]
      exact ⟨_, rfl⟩

/-- The driver entries of a run: dividend lengths `lenA, lenA - lenB,
lenA - 2 lenB, ...`, `floor(lenA / lenB)` of them. -/
theorem driver_calls_closed_form (base : BaseDivider) (B : Buf) (lenB : Int) (hB : 1 ≤ lenB) :
    ∀ (fuel : Nat) (Q R A : Buf) (lenA : Int) (out : DivremOut), lenB ≤ lenA →
      _fmpz_poly_divrem_divconquer base fuel Q R A lenA B lenB = some out →
      driver_calls out.log
        = (List.range (lenA / lenB).toNat).map (fun (j : Nat) => (lenA - j * lenB, lenB)) := by
  intro fuel
  induction fuel with
  | zero => intro Q R A lenA out _ h; simp [_fmpz_poly_divrem_divconquer] at h
  | succ fuel ih =>
    intro Q R A lenA out hA h
    rcases lt_trichotomy lenA (2 * lenB - 1) with hd | hb | he
    · rw [driver_deficient base fuel Q R A lenA B lenB hd] at h
      cases h
      rw [driver_calls_deficient, ediv_eq_one_of_lt lenA lenB hB hA (by omega)]
      simp [List.range_succ]
    · rw [driver_balanced base fuel Q R A lenA B lenB hb] at h
      cases h
      rw [driver_calls_balanced, ediv_eq_one_of_lt lenA lenB hB hA (by omega)]
      simp [List.range_succ]
    · rw [driver_excessive base fuel Q R A lenA B lenB he] at h
      obtain ⟨out', hout', rfl⟩ := Option.map_eq_some'.mp h
      show driver_calls ((excessive_prepare base Q R A lenA B lenB).log ++ out'.log) = _
      rw [driver_calls_excessive, ih _ _ _ _ out' (by omega) hout', sub_ediv_self lenA lenB hB]
      have h1 := one_le_ediv lenA lenB hB hA
      have e : (lenA / lenB).toNat = (lenA / lenB - 1).toNat + 1 := by omega
      rw [e, List.range_succ_eq_map, List.map_cons, List.map_map]
      congr 1
      · simp
      · rw [List.map_inj_left]
        intro j _
        simp only [Function.comp, Nat.succ_eq_add_one]
        congr 1
        push_cast
        ring

/-- C10: for every `lenA >= lenB >= 1` the driver terminates (a recursion
bound of `floor(lenA / lenB)` is enough).  Its entries have the dividend
lengths `lenA, lenA - lenB, lenA - 2 lenB, ...`: the deficient and balanced
branches (`lenA <= 2 lenB - 1`) make no driver call, the excessive branch
makes one, on a dividend of length `lenA - lenB`, which is strictly smaller
than `lenA` and still `>= lenB`; so `lenB >= 1` and `lenA >= lenB` hold again
at every entry. -/
theorem divconquer_terminates (base : BaseDivider) (Q R A B : Buf) (lenA lenB : Int)
    (hB : 1 ≤ lenB) (hA : lenB ≤ lenA) (fuel : Nat) (hfuel : lenA / lenB ≤ fuel) :
    ∃ out, _fmpz_poly_divrem_divconquer base fuel Q R A lenA B lenB = some out ∧
      driver_calls out.log
        = (List.range (lenA / lenB).toNat).map (fun (j : Nat) => (lenA - j * lenB, lenB)) ∧
      (lenA ≤ 2 * lenB - 1 → driver_calls out.log = [(lenA, lenB)]) ∧
      (lenA > 2 * lenB - 1 →
        lenB ≤ lenA - lenB ∧ lenA - lenB < lenA ∧
        ∃ out', _fmpz_poly_divrem_divconquer base (fuel - 1)
            (excessive_prepare base Q R A lenA B lenB).Q
            (excessive_prepare base Q R A lenA B lenB).R
            (excessive_prepare base Q R A lenA B lenB).dq1 (lenA - lenB) B lenB = some out' ∧
          driver_calls out.log = (lenA, lenB) :: driver_calls out'.log) ∧
      (∀ c ∈ driver_calls out.log, c.2 = lenB ∧ lenB ≤ c.1 ∧ c.1 ≤ lenA) := by
  obtain ⟨out, hout⟩ := driver_returns_tight base B lenB hB fuel Q R A lenA hA hfuel
  refine ⟨out, hout, driver_calls_closed_form base B lenB hB fuel Q R A lenA out hA hout, ?_, ?_,
    driver_calls_pre base B lenB hB fuel Q R A lenA out hA hout⟩
  · intro hle
    rw [driver_calls_closed_form base B lenB hB fuel Q R A lenA out hA hout,
      ediv_eq_one_of_lt lenA lenB hB hA (by omega)]
    simp [List.range_succ]
  · intro he
    refine ⟨by omega, by omega, ?_⟩
    cases fuel with
    | zero => simp [_fmpz_poly_divrem_divconquer] at hout
    | succ fuel =>
      rw [driver_excessive base fuel Q R A lenA B lenB he] at hout
      obtain ⟨out', hout', rfl⟩ := Option.map_eq_some'.mp hout
      exact ⟨out', hout', driver_calls_excessive base Q R A lenA B lenB out'.log⟩

/-- Witness for C10: `lenA = 7`, `lenB = 3`, recursion bound `floor(7/3) = 2`. -/
theorem divconquer_terminates_witness :
    (1 : Int) ≤ 3 ∧ (3 : Int) ≤ 7 ∧ (7 : Int) / 3 ≤ ((2 : Nat) : Int) ∧
    ∃ out, _fmpz_poly_divrem_divconquer (basecase_divider fdiv_digit) 2
        (_fmpz_vec_init 5) (_fmpz_vec_init 7) (ofList [6, 7, 2, 5, -3, 8, 1]) 7
        (ofList [2, -4, -1]) 3 = some out ∧
      driver_calls out.log
        = (List.range ((7 : Int) / 3).toNat).map (fun (j : Nat) => ((7 : Int) - j * 3, (3 : Int))) ∧
      ((7 : Int) ≤ 2 * 3 - 1 → driver_calls out.log = [(7, 3)]) ∧
      ((7 : Int) > 2 * 3 - 1 →
        (3 : Int) ≤ 7 - 3 ∧ (7 : Int) - 3 < 7 ∧
        ∃ out', _fmpz_poly_divrem_divconquer (basecase_divider fdiv_digit) (2 - 1)
            (excessive_prepare (basecase_divider fdiv_digit) (_fmpz_vec_init 5) (_fmpz_vec_init 7)
              (ofList [6, 7, 2, 5, -3, 8, 1]) 7 (ofList [2, -4, -1]) 3).Q
            (excessive_prepare (basecase_divider fdiv_digit) (_fmpz_vec_init 5) (_fmpz_vec_init 7)
              (ofList [6, 7, 2, 5, -3, 8, 1]) 7 (ofList [2, -4, -1]) 3).R
            (excessive_prepare (basecase_divider fdiv_digit) (_fmpz_vec_init 5) (_fmpz_vec_init 7)
              (ofList [6, 7, 2, 5, -3, 8, 1]) 7 (ofList [2, -4, -1]) 3).dq1 (7 - 3)
            (ofList [2, -4, -1]) 3 = some out' ∧
          driver_calls out.log = (7, 3) :: driver_calls out'.log) ∧
      (∀ c ∈ driver_calls out.log, c.2 = 3 ∧ 3 ≤ c.1 ∧ c.1 ≤ 7) :=
  ⟨by decide, by decide, by decide,
   divconquer_terminates (basecase_divider fdiv_digit) (_fmpz_vec_init 5) (_fmpz_vec_init 7)
     (ofList [6, 7, 2, 5, -3, 8, 1]) (ofList [2, -4, -1]) 7 3 (by decide) (by decide) 2
     (by decide)⟩

/-- The driver entries of three runs: excessive then balanced (`8 = 3 + 5`),
balanced (`5 = 2 * 3 - 1`), and deficient (`4 < 5`). -/
theorem example_driver_calls :
    (_fmpz_poly_divrem_divconquer (basecase_divider fdiv_digit) 2
        (_fmpz_vec_init 6) (_fmpz_vec_init 8) (ofList [6, 7, 2, 5, -3, 8, 1, 4]) 8
        (ofList [2, -4, -1]) 3).map (fun out => driver_calls out.log)
      = some [(8, 3), (5, 3)] ∧
    (_fmpz_poly_divrem_divconquer (basecase_divider fdiv_digit) 1
        (_fmpz_vec_init 3) (_fmpz_vec_init 5) (ofList [6, 7, 2, 5, -3]) 5
        (ofList [2, -4, -1]) 3).map (fun out => driver_calls out.log)
      = some [(5, 3)] ∧
    (_fmpz_poly_divrem_divconquer (basecase_divider fdiv_digit) 1
        (_fmpz_vec_init 2) (_fmpz_vec_init 4) (ofList [6, 7, 2, 5]) 4
        (ofList [2, -4, -1]) 3).map (fun out => driver_calls out.log)
      = some [(4, 3)] := by
  decide

theorem poly_mul_coeff_one (X Y : Buf) (n i : Int) :
    poly_mul_coeff X 1 Y n i = if 0 ≤ i ∧ i < n then X 0 * Y i else 0 := by
  unfold poly_mul_coeff
  have e : (1 : Int).toNat = 1 := rfl
  rw [e, Finset.sum_range_one]
  simp

/-- C9: for every `A`, `B` with `lenA = lenB >= 1` (balanced branch when
`lenB = 1`, deficient branch with `n1 = 1` and `n2 = lenB - 1` when
`lenB >= 2`), with the base-case divider returning the product of its divisor
window and its quotient, the driver returns without calling itself, writes a
quotient window of length exactly 1 (only `Q[0]` is written) and a remainder
with `R[i] = A[i] - Q[0]*B[i]` for every `i < lenA`. -/
theorem divconquer_equal_lengths (base : BaseDivider) (hbase : BaseProduct base)
    (Q R A B : Buf) (len : Int) (hB : 1 ≤ len) (fuel : Nat) (hfuel : 1 ≤ fuel) :
    ∃ out, _fmpz_poly_divrem_divconquer base fuel Q R A len B len = some out ∧
      (∀ i, i ≠ 0 → out.Q i = Q i) ∧
      (∀ i, 0 ≤ i → i < len → out.R i = A i - out.Q 0 * B i) ∧
      (len = 1 → branch_choices out.log = [Event.balanced]) ∧
      (2 ≤ len → branch_choices out.log = [Event.deficient 1 (len - 1)]) ∧
      driver_calls out.log = [(len, len)] := by
  obtain ⟨out, hout⟩ := driver_returns_tight base B len hB fuel Q R A len (le_refl _)
    (by rw [Int.ediv_self (by omega)]; omega)
  have hframe := driver_frame base B len hB fuel Q R A len out (le_refl _) hout
  have hrec := driver_reconstruct base hbase B len hB fuel Q R A len out (le_refl _) hout
  have hcalls := driver_calls_closed_form base B len hB fuel Q R A len out (le_refl _) hout
  have e1 : len - len + 1 = 1 := by ring
  refine ⟨out, hout, ?_, ?_, ?_, ?_, ?_⟩
  · intro i hi
    exact hframe.1 i (by omega)
  · intro i h0 h1
    have := hrec i h0 h1
    rw [e1, poly_mul_coeff_one, if_pos ⟨h0, h1⟩] at this
    linarith
  · intro h1
    cases fuel with
    | zero => simp [_fmpz_poly_divrem_divconquer] at hout
    | succ fuel =>
      rw [driver_balanced base fuel Q R A len B len (by omega)] at hout
      cases hout
      exact branch_choices_balanced base Q R A len B len
  · intro h2
    cases fuel with
    | zero => simp [_fmpz_poly_divrem_divconquer] at hout
    | succ fuel =>
      rw [driver_deficient base fuel Q R A len B len (by omega)] at hout
      cases hout
      rw [branch_choices_deficient, e1]
  · rw [hcalls, Int.ediv_self (by omega)]
    simp [List.range_succ]

/-- Witness for C9: `lenA = lenB = 3` (deficient with `n1 = 1`, `n2 = 2`). -/
theorem divconquer_equal_lengths_witness :
    BaseProduct (basecase_divider fdiv_digit) ∧ (1 : Int) ≤ 3 ∧ 1 ≤ (1 : Nat) ∧
    ∃ out, _fmpz_poly_divrem_divconquer (basecase_divider fdiv_digit) 1
        (_fmpz_vec_init 1) (_fmpz_vec_init 3) (ofList [7, -5, 9]) 3 (ofList [3, 1, 2]) 3
        = some out ∧
      (∀ i, i ≠ 0 → out.Q i = _fmpz_vec_init 1 i) ∧
      (∀ i, 0 ≤ i → i < 3 → out.R i = ofList [7, -5, 9] i - out.Q 0 * ofList [3, 1, 2] i) ∧
      ((3 : Int) = 1 → branch_choices out.log = [Event.balanced]) ∧
      ((2 : Int) ≤ 3 → branch_choices out.log = [Event.deficient 1 (3 - 1)]) ∧
      driver_calls out.log = [(3, 3)] :=
  ⟨basecase_divider_product fdiv_digit, by decide, by decide,
   divconquer_equal_lengths (basecase_divider fdiv_digit) (basecase_divider_product fdiv_digit)
     (_fmpz_vec_init 1) (_fmpz_vec_init 3) (ofList [7, -5, 9]) (ofList [3, 1, 2]) 3
     (by decide) 1 (by decide)⟩

theorem example_equal_lengths :
    (_fmpz_poly_divrem_divconquer (basecase_divider fdiv_digit) 1
        (_fmpz_vec_init 1) (_fmpz_vec_init 3) (ofList [7, -5, 9]) 3 (ofList [3, 1, 2]) 3).map
      (fun out => (toList out.Q 1, toList out.R 3)) = some ([4], [-5, -9, 1]) := by
  decide

/-- Schoolbook division with exact digits is exact on 1-by-1 inputs with a
unit divisor. -/
theorem basecase_divider_exact_unit (dig : Int → Int → Int) (hdig : DigitExact dig) :
    BaseExactUnit (basecase_divider dig) := by
  intro P D hu
  have hq : (basecase_divider dig P D 1).1 0 = dig (P 0) (D 0) := by
    rw [basecase_divider_fst]
    have e : (1 : Int).toNat = 0 + 1 := rfl
    rw [e, loop_succ]
    show (divrem_basecase_step dig D 1 (0 + ((0 : Nat) : Int)) _).1 0 = _
    rw [step_fst, if_pos (by simp)]
    simp [_fmpz_vec_copy]
  have hd := hdig (P 0) (D 0) hu
  have hsq : D 0 * D 0 = 1 := by rcases hu with h | h <;> rw [h] <;> rfl
  constructor
  · rw [hq]
    calc dig (P 0) (D 0) = dig (P 0) (D 0) * (D 0 * D 0) := by rw [hsq, mul_one]
      _ = dig (P 0) (D 0) * D 0 * D 0 := by ring
      _ = P 0 * D 0 := by rw [hd]
  · rw [basecase_divider_snd, poly_mul_coeff_one, if_pos (by omega), hq]
    linarith

/-- The run of the driver on a unit divisor of length 1. -/
theorem driver_unit_divisor (base : BaseDivider) (hbase : BaseExactUnit base) (B : Buf)
    (hu : B 0 = 1 ∨ B 0 = -1) :
    ∀ (fuel : Nat) (Q R A : Buf) (lenA : Int) (out : DivremOut), 1 ≤ lenA →
      _fmpz_poly_divrem_divconquer base fuel Q R A lenA B 1 = some out →
      (∀ i, 0 ≤ i → i < lenA → out.R i = 0) ∧
      (∀ i, 0 ≤ i → i < lenA → out.Q i = A i * B 0) ∧
      branch_choices out.log
        = (List.range (lenA - 1).toNat).map (fun (j : Nat) => Event.excessive (lenA - 1 - j))
          ++ [Event.balanced] := by
  intro fuel
  induction fuel with
  | zero => intro Q R A lenA out _ h; simp [_fmpz_poly_divrem_divconquer] at h
  | succ fuel ih =>
    intro Q R A lenA out hA h
    by_cases h1 : lenA = 1
    · subst h1
      rw [driver_balanced base fuel Q R A 1 B 1 (by norm_num)] at h
      cases h
      obtain ⟨hq, hp⟩ := hbase A B hu
      refine ⟨?_, ?_, ?_⟩
      · intro i h0 h1
        have hi : i = 0 := by omega
        subst hi
        rw [balanced_branch_R base Q R A 1 B 1 0 (by norm_num), if_pos (by omega), hp]
        ring
      · intro i h0 h1
        have hi : i = 0 := by omega
        subst hi
        rw [balanced_branch_Q, if_pos (by omega), hq]
      · rw [branch_choices_balanced]
        rfl
    · have he : lenA > 2 * 1 - 1 := by omega
      have es : lenA - 2 * 1 + 1 = lenA - 1 := by ring
      rw [driver_excessive base fuel Q R A lenA B 1 he] at h
      obtain ⟨out', hout', rfl⟩ := Option.map_eq_some'.mp h
      obtain ⟨hR', hQ', hbr⟩ := ih _ _ _ _ out' (by omega) hout'
      obtain ⟨hfQ, hfR⟩ := driver_frame base B 1 (le_refl _) fuel _ _ _ _ out' (by omega) hout'
      obtain ⟨hq, hp⟩ := hbase (ptr A (lenA - 1)) B hu
      have hA0 : ptr A (lenA - 1) 0 = A (lenA - 1) := by
        unfold ptr
        rw [add_zero]
      refine ⟨?_, ?_, ?_⟩
      · intro i h0 h1
        show out'.R i = 0
        by_cases hi : i < lenA - 1
        · exact hR' i h0 hi
        · have hi' : i = lenA - 1 := by omega
          subst hi'
          rw [hfR _ (by omega), excessive_prepare_R, if_pos (by omega), es, sub_self, hp, hA0]
          ring
      · intro i h0 h1
        show out'.Q i = A i * B 0
        by_cases hi : i < lenA - 1
        · rw [hQ' i h0 hi, excessive_prepare_dq1 base Q R A lenA B 1 i (le_refl _) h0 hi,
            if_neg (by omega)]
          ring
        · have hi' : i = lenA - 1 := by omega
          subst hi'
          rw [hfQ _ (by omega), excessive_prepare_Q, if_pos (by omega), es, sub_self, hq, hA0]
      · show branch_choices ((excessive_prepare base Q R A lenA B 1).log ++ out'.log) = _
        rw [branch_choices_excessive, hbr, es]
        have e : (lenA - 1).toNat = (lenA - 1 - 1).toNat + 1 := by omega
        rw [e, List.range_succ_eq_map, List.map_cons, List.map_map, List.cons_append]
        congr 1
        · simp
        · congr 1
          rw [List.map_inj_left]
          intro j _
          simp only [Function.comp, Nat.succ_eq_add_one]
          congr 1
          push_cast
          ring

/-- C8: for every `A` of length `lenA >= 1` and every `B` of length 1 with
`B[0] = +1` or `-1`, with the base-case divider exact on 1-by-1 inputs, the
driver returns `R` with all `lenA` coefficients zero and `Q` of length `lenA`
with `Q[i] = A[i] / B[0] = A[i]*B[0]` for every `i < lenA`.  It gets there
through `lenA - 1` nested excessive-branch recursions and a final balanced
call: the entry with dividend length `lenA - j` takes the excessive branch
with `shift = lenA - j - 1`, for `j = 0 .. lenA - 2`. -/
theorem divconquer_unit_divisor (base : BaseDivider) (hbase : BaseExactUnit base)
    (Q R A B : Buf) (lenA : Int) (hA : 1 ≤ lenA) (hu : B 0 = 1 ∨ B 0 = -1)
    (fuel : Nat) (hfuel : lenA ≤ fuel) :
    ∃ out, _fmpz_poly_divrem_divconquer base fuel Q R A lenA B 1 = some out ∧
      (∀ i, 0 ≤ i → i < lenA → out.R i = 0) ∧
      (∀ i, 0 ≤ i → i < lenA → out.Q i = A i * B 0) ∧
      driver_calls out.log
        = (List.range lenA.toNat).map (fun (j : Nat) => (lenA - j, (1 : Int))) ∧
      branch_choices out.log
        = (List.range (lenA - 1).toNat).map (fun (j : Nat) => Event.excessive (lenA - j - 1))
          ++ [Event.balanced] := by
  obtain ⟨out, hout⟩ := driver_returns base B 1 (le_refl _) fuel Q R A lenA hA hfuel
  obtain ⟨hR, hQ, hbr⟩ := driver_unit_divisor base hbase B hu fuel Q R A lenA out hA hout
  have hcalls := driver_calls_closed_form base B 1 (le_refl _) fuel Q R A lenA out hA hout
  refine ⟨out, hout, hR, hQ, ?_, ?_⟩
  · rw [hcalls, Int.ediv_one]
    rw [List.map_inj_left]
    intro j _
    rw [mul_one]
  · rw [hbr]
    congr 1
    rw [List.map_inj_left]
    intro j _
    congr 1
    ring

/-- Witness for C8: `A` of length 4 and `B = -1`. -/
theorem divconquer_unit_divisor_witness :
    BaseExactUnit (basecase_divider fdiv_digit) ∧ (1 : Int) ≤ 4 ∧
    (ofList [-1] 0 = 1 ∨ ofList [-1] 0 = -1) ∧ (4 : Int) ≤ ((4 : Nat) : Int) ∧
    ∃ out, _fmpz_poly_divrem_divconquer (basecase_divider fdiv_digit) 4
        (_fmpz_vec_init 4) (_fmpz_vec_init 4) (ofList [7, -5, 0, 9]) 4 (ofList [-1]) 1
        = some out ∧
      (∀ i, 0 ≤ i → i < 4 → out.R i = 0) ∧
      (∀ i, 0 ≤ i → i < 4 → out.Q i = ofList [7, -5, 0, 9] i * ofList [-1] 0) ∧
      driver_calls out.log
        = (List.range (4 : Int).toNat).map (fun (j : Nat) => ((4 : Int) - j, (1 : Int))) ∧
      branch_choices out.log
        = (List.range ((4 : Int) - 1).toNat).map
            (fun (j : Nat) => Event.excessive ((4 : Int) - j - 1))
          ++ [Event.balanced] :=
  ⟨basecase_divider_exact_unit fdiv_digit fdiv_digit_exact, by decide, by decide, by decide,
   divconquer_unit_divisor (basecase_divider fdiv_digit)
     (basecase_divider_exact_unit fdiv_digit fdiv_digit_exact)
     (_fmpz_vec_init 4) (_fmpz_vec_init 4) (ofList [7, -5, 0, 9]) (ofList [-1]) 4
     (by decide) (by decide) 4 (by decide)⟩

theorem example_unit_divisor :
    (_fmpz_poly_divrem_divconquer (basecase_divider fdiv_digit) 4
        (_fmpz_vec_init 4) (_fmpz_vec_init 4) (ofList [7, -5, 0, 9]) 4 (ofList [-1]) 1).map
      (fun out => (toList out.Q 4, toList out.R 4, driver_calls out.log, branch_choices out.log))
      = some ([-7, 5, 0, -9], [0, 0, 0, 0], [(4, 1), (3, 1), (2, 1), (1, 1)],
          [Event.excessive 3, Event.excessive 2, Event.excessive 1, Event.balanced]) := by
  decide

/-! ## Independence of the prior contents of the outputs -/

/-- What the driver leaves in its `Q` and `R` windows, and its log, do not
depend on what the two arrays held before. -/
theorem driver_init_irrelevant (base : BaseDivider) (B : Buf) (lenB : Int) (hB : 1 ≤ lenB) :
    ∀ (fuel : Nat) (Q1 R1 Q2 R2 A : Buf) (lenA : Int) (out1 out2 : DivremOut), lenB ≤ lenA →
      _fmpz_poly_divrem_divconquer base fuel Q1 R1 A lenA B lenB = some out1 →
      _fmpz_poly_divrem_divconquer base fuel Q2 R2 A lenA B lenB = some out2 →
      (∀ i, 0 ≤ i → i < lenA - lenB + 1 → out1.Q i = out2.Q i) ∧
      (∀ i, 0 ≤ i → i < lenA → out1.R i = out2.R i) ∧
      out1.log = out2.log := by
  intro fuel
  induction fuel with
  | zero => intro Q1 R1 Q2 R2 A lenA out1 out2 _ h; simp [_fmpz_poly_divrem_divconquer] at h
  | succ fuel ih =>
    intro Q1 R1 Q2 R2 A lenA out1 out2 hA h1 h2
    rcases lt_trichotomy lenA (2 * lenB - 1) with hd | hb | he
    · rw [driver_deficient base fuel _ _ A lenA B lenB hd] at h1 h2
      cases h1
      cases h2
      refine ⟨?_, ?_, rfl⟩
      · intro i h0 hi
        have hc : 0 ≤ i ∧ i < lenA - lenB + 1 := ⟨h0, hi⟩
        rw [deficient_branch_Q, deficient_branch_Q, if_pos hc, if_pos hc]
      · intro i h0 hi
        have hc : 0 ≤ i ∧ i < lenA := ⟨h0, hi⟩
        rw [deficient_branch_R base Q1 R1 A lenA B lenB i hA hd,
          deficient_branch_R base Q2 R2 A lenA B lenB i hA hd, if_pos hc, if_pos hc]
    · rw [driver_balanced base fuel _ _ A lenA B lenB hb] at h1 h2
      cases h1
      cases h2
      refine ⟨?_, ?_, rfl⟩
      · intro i h0 hi
        have hc : 0 ≤ i ∧ i < lenB := ⟨h0, by omega⟩
        rw [balanced_branch_Q, balanced_branch_Q, if_pos hc, if_pos hc]
      · intro i h0 hi
        have hc : 0 ≤ i ∧ i < lenA := ⟨h0, hi⟩
        rw [balanced_branch_R base Q1 R1 A lenA B lenB i hb,
          balanced_branch_R base Q2 R2 A lenA B lenB i hb, if_pos hc, if_pos hc]
    · rw [driver_excessive base fuel _ _ A lenA B lenB he] at h1 h2
      obtain ⟨o1, ho1, rfl⟩ := Option.map_eq_some'.mp h1
      obtain ⟨o2, ho2, rfl⟩ := Option.map_eq_some'.mp h2
      obtain ⟨hQ, hR, hlog⟩ := ih _ _ _ _ _ _ o1 o2 (by omega) ho1 ho2
      obtain ⟨hfQ1, hfR1⟩ := driver_frame base B lenB hB fuel _ _ _ _ o1 (by omega) ho1
      obtain ⟨hfQ2, hfR2⟩ := driver_frame base B lenB hB fuel _ _ _ _ o2 (by omega) ho2
      refine ⟨?_, ?_, ?_⟩
      · intro i h0 hi
        show o1.Q i = o2.Q i
        by_cases hs : i < lenA - lenB - lenB + 1
        · exact hQ i h0 hs
        · have hc : lenA - 2 * lenB + 1 ≤ i ∧ i < lenA - 2 * lenB + 1 + lenB := by omega
          rw [hfQ1 i (by omega), hfQ2 i (by omega), excessive_prepare_Q, excessive_prepare_Q,
            if_pos hc, if_pos hc]
      · intro i h0 hi
        show o1.R i = o2.R i
        by_cases hs : i < lenA - lenB
        · exact hR i h0 hs
        · have hc : lenA - lenB ≤ i ∧ i < lenA := by omega
          rw [hfR1 i (by omega), hfR2 i (by omega), excessive_prepare_R, excessive_prepare_R,
            if_pos hc, if_pos hc]
      · show (excessive_prepare base Q1 R1 A lenA B lenB).log ++ o1.log
          = (excessive_prepare base Q2 R2 A lenA B lenB).log ++ o2.log
        rw [hlog]
        rfl

theorem normalise_value_alloc (c : Buf) (al al' n : Int) :
    (_fmpz_poly_normalise { coeffs := c, alloc := al, length := n }).value
      = (_fmpz_poly_normalise { coeffs := c, alloc := al', length := n }).value := by
  unfold _fmpz_poly_normalise
  split_ifs <;> rfl

theorem wrapper_finish_outputs (σ : Store) (outQ outR : Buf) (Q R A B : Nat)
    (hQA : Q ≠ A) (hQR : Q ≠ R) :
    ((wrapper_finish (wrapper_stage σ Q R A B) outQ outR Q R A B) Q).value
      = (_fmpz_poly_normalise
          { coeffs := outQ, alloc := 0, length := (σ A).length - (σ B).length + 1 }).value ∧
    ((wrapper_finish (wrapper_stage σ Q R A B) outQ outR Q R A B) R).value
      = (_fmpz_poly_normalise { coeffs := outR, alloc := 0, length := (σ A).length }).value := by
  have hRQ : R ≠ Q := Ne.symm hQR
  have hAQ : A ≠ Q := Ne.symm hQA
  by_cases hQB : Q = B
  · subst hQB
    by_cases hRA : R = A
    · subst hRA
      constructor
      · simp [wrapper_finish, wrapper_stage, Store.set, hQA, hQR, hRQ, hAQ,
          _fmpz_poly_set_length]
        apply normalise_value_alloc
      · simp [wrapper_finish, wrapper_stage, Store.set, hQA, hQR, hRQ, hAQ,
          _fmpz_poly_set_length]
        apply normalise_value_alloc
    · have hAR : A ≠ R := Ne.symm hRA
      constructor
      · simp [wrapper_finish, wrapper_stage, Store.set, hQA, hQR, hRQ, hAQ, hRA, hAR,
          _fmpz_poly_set_length]
        apply normalise_value_alloc
      · simp [wrapper_finish, wrapper_stage, Store.set, hQA, hQR, hRQ, hAQ, hRA, hAR,
          _fmpz_poly_set_length]
        apply normalise_value_alloc
  · have hBQ : B ≠ Q := Ne.symm hQB
    by_cases hRA : R = A
    · subst hRA
      constructor
      · simp [wrapper_finish, wrapper_stage, Store.set, hQA, hQR, hRQ, hAQ, hQB, hBQ,
          _fmpz_poly_set_length]
        apply normalise_value_alloc
      · simp [wrapper_finish, wrapper_stage, Store.set, hQA, hQR, hRQ, hAQ, hQB, hBQ,
          _fmpz_poly_set_length]
        apply normalise_value_alloc
    · have hAR : A ≠ R := Ne.symm hRA
      by_cases hRB : R = B
      · subst hRB
        constructor
        · simp [wrapper_finish, wrapper_stage, Store.set, hQA, hQR, hRQ, hAQ, hQB, hBQ, hRA, hAR,
            _fmpz_poly_set_length]
          apply normalise_value_alloc
        · simp [wrapper_finish, wrapper_stage, Store.set, hQA, hQR, hRQ, hAQ, hQB, hBQ, hRA, hAR,
            _fmpz_poly_set_length]
          apply normalise_value_alloc
      · have hBR : B ≠ R := Ne.symm hRB
        constructor
        · simp [wrapper_finish, wrapper_stage, Store.set, hQA, hQR, hRQ, hAQ, hQB, hBQ, hRA, hAR,
            hRB, hBR, _fmpz_poly_set_length]
          apply normalise_value_alloc
        · simp [wrapper_finish, wrapper_stage, Store.set, hQA, hQR, hRQ, hAQ, hQB, hBQ, hRA, hAR,
            hRB, hBR, _fmpz_poly_set_length]
          apply normalise_value_alloc

theorem normalise_length_congr (c1 c2 : Buf) :
    ∀ n : Nat, (∀ i : Int, 0 ≤ i → i < n → c1 i = c2 i) →
      normalise_length c1 n = normalise_length c2 n := by
  intro n
  induction n with
  | zero => intro _; rfl
  | succ n ih =>
    intro h
    unfold normalise_length
    rw [h n (by omega) (by push_cast; omega), ih (fun i h0 h1 => h i h0 (by push_cast; omega))]

theorem normalise_value_congr (c1 c2 : Buf) (al n : Int)
    (h : ∀ i, 0 ≤ i → i < n → c1 i = c2 i) :
    (_fmpz_poly_normalise { coeffs := c1, alloc := al, length := n }).value
      = (_fmpz_poly_normalise { coeffs := c2, alloc := al, length := n }).value := by
  unfold _fmpz_poly_normalise
  by_cases hn : n ≤ 0
  · rw [if_pos hn, if_pos hn]
    exact toList_congr c1 c2 n h
  · rw [if_neg hn, if_neg hn]
    have hc := normalise_length_congr c1 c2 n.toNat (fun i h0 h1 => h i h0 (by omega))
    have hb := normalise_length_bounds c2 n.toNat
    show toList c1 (normalise_length c1 n.toNat) = toList c2 (normalise_length c2 n.toNat)
    rw [hc]
    exact toList_congr c1 c2 _ (fun i h0 h1 => h i h0 (by omega))

/-- Whenever `Q` is not the same object as `A` (and `Q`, `R` are two
objects), the values the wrapper leaves in `Q` and `R` do not depend on which
objects `Q` and `R` are: `R` may be `A` or `B`, `Q` may be `B`, or both may be
fresh. -/
theorem alias_independent_when_Q_not_A (base : BaseDivider) (σ : Store)
    (Q R Q2 R2 A B : Nat) (hQA : Q ≠ A) (hQR : Q ≠ R) (hQ2A : Q2 ≠ A) (hQ2R2 : Q2 ≠ R2)
    (hB : 1 ≤ (σ B).length) :
    (fmpz_poly_divrem_divconquer base σ Q R A B).values Q R
      = (fmpz_poly_divrem_divconquer base σ Q2 R2 A B).values Q2 R2 := by
  by_cases h1 : (σ A).length < (σ B).length
  · obtain ⟨σ1, e1, hq1, hr1⟩ := short_circuit_no_alias base σ Q R A B hQA hQR (by omega) h1
    obtain ⟨σ2, e2, hq2, hr2⟩ := short_circuit_no_alias base σ Q2 R2 A B hQ2A hQ2R2 (by omega) h1
    rw [e1, e2]
    show some ((σ1 Q).value, (σ1 R).value) = some ((σ2 Q2).value, (σ2 R2).value)
    have v1 : (σ1 Q).value = (σ2 Q2).value := by
      unfold fmpz_poly_struct.value
      rw [hq1, hq2]
      rfl
    rw [v1, hr1, hr2]
  · obtain ⟨o1, ho1⟩ := driver_returns base (σ B).coeffs (σ B).length hB (σ A).length.toNat
      (wrapper_stage σ Q R A B).Q_coeffs (wrapper_stage σ Q R A B).R_coeffs (σ A).coeffs
      (σ A).length (by omega) (by omega)
    obtain ⟨o2, ho2⟩ := driver_returns base (σ B).coeffs (σ B).length hB (σ A).length.toNat
      (wrapper_stage σ Q2 R2 A B).Q_coeffs (wrapper_stage σ Q2 R2 A B).R_coeffs (σ A).coeffs
      (σ A).length (by omega) (by omega)
    obtain ⟨hQ, hR, _⟩ := driver_init_irrelevant base (σ B).coeffs (σ B).length hB _ _ _ _ _ _ _
      o1 o2 (by omega) ho1 ho2
    rw [wrapper_main base σ Q R A B (by omega) h1, wrapper_main base σ Q2 R2 A B (by omega) h1,
      ho1, ho2]
    show some (_, _) = some (_, _)
    rw [(wrapper_finish_outputs σ o1.Q o1.R Q R A B hQA hQR).1,
      (wrapper_finish_outputs σ o1.Q o1.R Q R A B hQA hQR).2,
      (wrapper_finish_outputs σ o2.Q o2.R Q2 R2 A B hQ2A hQ2R2).1,
      (wrapper_finish_outputs σ o2.Q o2.R Q2 R2 A B hQ2A hQ2R2).2,
      normalise_value_congr o1.Q o2.Q 0 _ hQ, normalise_value_congr o1.R o2.R 0 _ hR]

/-! ## Bounds of the windows -/

theorem window_ok_iff (off len size : Int) :
    window_ok off len size = true ↔ 0 ≤ off ∧ 0 ≤ len ∧ off + len ≤ size := by
  simp [window_ok, and_assoc]

theorem windows_in_bounds_deficient (base : BaseDivider) (Q R A : Buf) (lenA : Int) (B : Buf)
    (lenB : Int) (hA : lenB ≤ lenA) (hd : lenA < 2 * lenB - 1) (a b : Int) :
    windows_in_bounds a b (deficient_branch base Q R A lenA B lenB).log = true := by
  simp only [deficient_branch]
  split_ifs <;>
    simp only [windows_in_bounds, Mem.size, Bool.and_eq_true, window_ok_iff, and_true] <;>
    omega

theorem windows_in_bounds_balanced (base : BaseDivider) (Q R A : Buf) (lenA : Int) (B : Buf)
    (lenB : Int) (hB : 1 ≤ lenB) (hb : lenA = 2 * lenB - 1) (a b : Int) :
    windows_in_bounds a b (balanced_branch base Q R A lenA B lenB).log = true := by
  simp only [balanced_branch, windows_in_bounds, Mem.size, Bool.and_eq_true, window_ok_iff,
    and_true]
  omega

theorem windows_in_bounds_excessive (base : BaseDivider) (Q R A : Buf) (lenA : Int) (B : Buf)
    (lenB : Int) (hB : 1 ≤ lenB) (he : lenA > 2 * lenB - 1) (a b : Int) (tail : List Event) :
    windows_in_bounds a b ((excessive_prepare base Q R A lenA B lenB).log ++ tail)
      = windows_in_bounds lenA lenB tail := by
  simp only [excessive_prepare, List.cons_append, List.nil_append, windows_in_bounds, Mem.size]
  have w1 : window_ok (lenA - 2 * lenB + 1) (2 * lenB - 1) lenA = true :=
    (window_ok_iff _ _ _).mpr (by omega)
  have w2 : window_ok 0 lenB lenB = true := (window_ok_iff _ _ _).mpr (by omega)
  have w3 : window_ok (lenA - 2 * lenB + 1) lenB (lenA - lenB + 1) = true :=
    (window_ok_iff _ _ _).mpr (by omega)
  have w4 : window_ok 0 (lenA - 2 * lenB + 1) lenA = true :=
    (window_ok_iff _ _ _).mpr (by omega)
  have w5 : window_ok (lenA - 2 * lenB + 1) (lenB - 1) lenA = true :=
    (window_ok_iff _ _ _).mpr (by omega)
  have w6 : window_ok (lenA - lenB) lenB lenA = true := (window_ok_iff _ _ _).mpr (by omega)
  rw [w1, w2, w3, w4, w5, w6]
  simp only [Bool.true_and]
  rfl

/-- Every window in the log of a run that starts with `lenA >= lenB >= 1`
passes the bounds check, at every recursion level. -/
theorem driver_windows_in_bounds (base : BaseDivider) (B : Buf) (lenB : Int) (hB : 1 ≤ lenB) :
    ∀ (fuel : Nat) (Q R A : Buf) (lenA : Int) (out : DivremOut) (a b : Int), lenB ≤ lenA →
      _fmpz_poly_divrem_divconquer base fuel Q R A lenA B lenB = some out →
      windows_in_bounds a b out.log = true := by
  intro fuel
  induction fuel with
  | zero => intro Q R A lenA out _ _ _ h; simp [_fmpz_poly_divrem_divconquer] at h
  | succ fuel ih =>
    intro Q R A lenA out a b hA h
    rcases lt_trichotomy lenA (2 * lenB - 1) with hd | hb | he
    · rw [driver_deficient base fuel Q R A lenA B lenB hd] at h
      cases h
      exact windows_in_bounds_deficient base Q R A lenA B lenB hA hd a b
    · rw [driver_balanced base fuel Q R A lenA B lenB hb] at h
      cases h
      exact windows_in_bounds_balanced base Q R A lenA B lenB hB hb a b
    · rw [driver_excessive base fuel Q R A lenA B lenB he] at h
      obtain ⟨out', hout', rfl⟩ := Option.map_eq_some'.mp h
      show windows_in_bounds a b ((excessive_prepare base Q R A lenA B lenB).log ++ out'.log) = true
      rw [windows_in_bounds_excessive base Q R A lenA B lenB hB he]
      exact ih _ _ _ _ out' _ _ (by omega) hout'

theorem written_arrays_deficient (base : BaseDivider) (Q R A : Buf) (lenA : Int) (B : Buf)
    (lenB : Int) :
    written_arrays (deficient_branch base Q R A lenA B lenB).log
      = [Mem.Q, Mem.R, Mem.d2q1, Mem.R, Mem.R, Mem.R] := by
  simp only [deficient_branch, written_arrays]
  split_ifs <;> rfl

theorem written_arrays_balanced (base : BaseDivider) (Q R A : Buf) (lenA : Int) (B : Buf)
    (lenB : Int) :
    written_arrays (balanced_branch base Q R A lenA B lenB).log = [Mem.Q, Mem.R, Mem.R] := rfl

theorem written_arrays_excessive (base : BaseDivider) (Q R A : Buf) (lenA : Int) (B : Buf)
    (lenB : Int) (tail : List Event) :
    written_arrays ((excessive_prepare base Q R A lenA B lenB).log ++ tail)
      = [Mem.Q, Mem.dq1, Mem.dq1, Mem.dq1, Mem.R] ++ written_arrays tail := by
  simp only [written_arrays, List.filterMap_append]
  rfl

/-- No run of the driver writes to its `A` or its `B`, at any recursion
level. -/
theorem driver_never_writes_inputs (base : BaseDivider) (B : Buf) (lenB : Int) :
    ∀ (fuel : Nat) (Q R A : Buf) (lenA : Int) (out : DivremOut),
      _fmpz_poly_divrem_divconquer base fuel Q R A lenA B lenB = some out →
      ∀ m ∈ written_arrays out.log, m ≠ Mem.A ∧ m ≠ Mem.B := by
  intro fuel
  induction fuel with
  | zero => intro Q R A lenA out h; simp [_fmpz_poly_divrem_divconquer] at h
  | succ fuel ih =>
    intro Q R A lenA out h m hm
    rcases lt_trichotomy lenA (2 * lenB - 1) with hd | hb | he
    · rw [driver_deficient base fuel Q R A lenA B lenB hd] at h
      cases h
      rw [written_arrays_deficient] at hm
      revert m
      decide
    · rw [driver_balanced base fuel Q R A lenA B lenB hb] at h
      cases h
      rw [written_arrays_balanced] at hm
      revert m
      decide
    · rw [driver_excessive base fuel Q R A lenA B lenB he] at h
      obtain ⟨out', hout', rfl⟩ := Option.map_eq_some'.mp h
      change m ∈ written_arrays ((excessive_prepare base Q R A lenA B lenB).log ++ out'.log) at hm
      rw [written_arrays_excessive, List.mem_append] at hm
      rcases hm with hm | hm
      · revert m
        decide
      · exact ih _ _ _ _ out' hout' m hm

/-- C11: for every `lenA >= lenB >= 1` the driver returns, and every window
it reads or writes, at every recursion level, lies inside the declared length
of its array (offset and length non-negative, end at most `lenA` for `A`, `R`
and the scratch `dq1`, `lenB` for `B`, `lenA-lenB+1` for `Q`, `lenB-1` for the
scratch `d2q1`); no window of `A` or `B` is ever written, and outside the
windows `Q[0 .. lenA-lenB+1)` and `R[0 .. lenA)` the output arrays are left as
they were. -/
theorem divconquer_windows_in_bounds (base : BaseDivider) (Q R A B : Buf) (lenA lenB : Int)
    (hB : 1 ≤ lenB) (hA : lenB ≤ lenA) (fuel : Nat) (hfuel : lenA / lenB ≤ fuel) :
    ∃ out, _fmpz_poly_divrem_divconquer base fuel Q R A lenA B lenB = some out ∧
      windows_in_bounds lenA lenB out.log = true ∧
      (∀ m ∈ written_arrays out.log, m ≠ Mem.A ∧ m ≠ Mem.B) ∧
      (∀ i, i < 0 ∨ lenA - lenB + 1 ≤ i → out.Q i = Q i) ∧
      (∀ i, i < 0 ∨ lenA ≤ i → out.R i = R i) := by
  obtain ⟨out, hout⟩ := driver_returns_tight base B lenB hB fuel Q R A lenA hA hfuel
  obtain ⟨hQ, hR⟩ := driver_frame base B lenB hB fuel Q R A lenA out hA hout
  exact ⟨out, hout, driver_windows_in_bounds base B lenB hB fuel Q R A lenA out lenA lenB hA hout,
    driver_never_writes_inputs base B lenB fuel Q R A lenA out hout, hQ, hR⟩

/-- Witness for C11: `lenA = 8`, `lenB = 3` (excessive, then balanced). -/
theorem divconquer_windows_in_bounds_witness :
    (1 : Int) ≤ 3 ∧ (3 : Int) ≤ 8 ∧ (8 : Int) / 3 ≤ ((2 : Nat) : Int) ∧
    ∃ out, _fmpz_poly_divrem_divconquer (basecase_divider fdiv_digit) 2
        (_fmpz_vec_init 6) (_fmpz_vec_init 8) (ofList [6, 7, 2, 5, -3, 8, 1, 4]) 8
        (ofList [2, -4, -1]) 3 = some out ∧
      windows_in_bounds 8 3 out.log = true ∧
      (∀ m ∈ written_arrays out.log, m ≠ Mem.A ∧ m ≠ Mem.B) ∧
      (∀ i, i < 0 ∨ (8 : Int) - 3 + 1 ≤ i → out.Q i = _fmpz_vec_init 6 i) ∧
      (∀ i, i < 0 ∨ (8 : Int) ≤ i → out.R i = _fmpz_vec_init 8 i) :=
  ⟨by decide, by decide, by decide,
   divconquer_windows_in_bounds (basecase_divider fdiv_digit) (_fmpz_vec_init 6)
     (_fmpz_vec_init 8) (ofList [6, 7, 2, 5, -3, 8, 1, 4]) (ofList [2, -4, -1]) 8 3
     (by decide) (by decide) 2 (by decide)⟩

/-- The whole log of a deficient run (`lenA = 4`, `lenB = 3`, so `n1 = 2`,
`n2 = 1`), and a window that fails the bounds check. -/
theorem example_log :
    (_fmpz_poly_divrem_divconquer (basecase_divider fdiv_digit) 1
        (_fmpz_vec_init 2) (_fmpz_vec_init 4) (ofList [6, 7, 2, 5]) 4
        (ofList [2, -4, -1]) 3).map (fun out => out.log)
      = some [Event.driver 4 3, Event.deficient 2 1, Event.base 1 1 2,
          Event.read Mem.A 1 3, Event.read Mem.B 1 2, Event.write Mem.Q 0 2, Event.write Mem.R 1 3,
          Event.mul 2 1, Event.read Mem.Q 0 2, Event.read Mem.B 0 1, Event.write Mem.d2q1 0 2,
          Event.read Mem.d2q1 0 1, Event.write Mem.R 0 1,
          Event.read Mem.R 1 1, Event.read Mem.d2q1 1 1, Event.write Mem.R 1 1,
          Event.read Mem.A 0 4, Event.read Mem.R 0 4, Event.write Mem.R 0 4] ∧
    windows_in_bounds 4 3 [Event.read Mem.d2q1 1 2] = false ∧
    windows_in_bounds 4 3 [Event.driver 4 3, Event.write Mem.Q 1 2] = false := by
  decide

/-! ## The cut-off selector -/

/-- C12: for every right-hand side `B` with `r` rows and `c` columns,
`mat_solve_triu` calls the classical solver exactly when `r < ROWS_CUTOFF` or
`c < COLS_CUTOFF`, and the recursive solver exactly when `r >= ROWS_CUTOFF`
and `c >= COLS_CUTOFF`; the call gets `X`, `U`, `B`, `unit` and `ctx` as they
were passed in; it is one call, to one of the two solvers, and which one
depends on the row and column count of `B` only. -/
theorem mat_solve_triu_dispatch {K Ctx : Type} (ROWS_CUTOFF COLS_CUTOFF : Int)
    (X U B : mat_struct K) (unit : Int) (ctx : Ctx) :
    ((B.r < ROWS_CUTOFF ∨ B.c < COLS_CUTOFF) ↔
      mat_solve_triu ROWS_CUTOFF COLS_CUTOFF X U B unit ctx
        = SolverCall.classical X U B unit ctx) ∧
    ((ROWS_CUTOFF ≤ B.r ∧ COLS_CUTOFF ≤ B.c) ↔
      mat_solve_triu ROWS_CUTOFF COLS_CUTOFF X U B unit ctx
        = SolverCall.recursive X U B unit ctx) ∧
    (mat_solve_triu ROWS_CUTOFF COLS_CUTOFF X U B unit ctx = SolverCall.classical X U B unit ctx ∨
      mat_solve_triu ROWS_CUTOFF COLS_CUTOFF X U B unit ctx
        = SolverCall.recursive X U B unit ctx) ∧
    (∀ (X2 U2 B2 : mat_struct K) (unit2 : Int) (ctx2 : Ctx), B2.r = B.r → B2.c = B.c →
      (mat_solve_triu ROWS_CUTOFF COLS_CUTOFF X2 U2 B2 unit2 ctx2).isClassical
        = (mat_solve_triu ROWS_CUTOFF COLS_CUTOFF X U B unit ctx).isClassical) := by
  refine ⟨?_, ?_, ?_, ?_⟩
  · constructor
    · intro h
      unfold mat_solve_triu
      rw [if_pos h]
    · intro h
      by_contra hc
      unfold mat_solve_triu at h
      rw [if_neg hc] at h
      cases h
  · constructor
    · intro h
      unfold mat_solve_triu
      rw [if_neg (by omega)]
    · intro h
      by_contra hc
      unfold mat_solve_triu at h
      rw [if_pos (by omega)] at h
      cases h
  · unfold mat_solve_triu
    by_cases h : B.r < ROWS_CUTOFF ∨ B.c < COLS_CUTOFF
    · rw [if_pos h]
      exact Or.inl rfl
    · rw [if_neg h]
      exact Or.inr rfl
  · intro X2 U2 B2 unit2 ctx2 hr hc
    unfold mat_solve_triu
    rw [hr, hc]
    by_cases h : B.r < ROWS_CUTOFF ∨ B.c < COLS_CUTOFF
    · rw [if_pos h, if_pos h]
      rfl
    · rw [if_neg h, if_neg h]
      rfl

/-- The selector on the four corners of the cut-offs 8 and 5: a short or a
narrow `B` goes to the classical solver, only a `B` with at least 8 rows and
at least 5 columns goes to the recursive one. -/
theorem example_mat_solve_triu :
    (mat_solve_triu 8 5 (mat_struct.mk (fun _ _ => (0 : Int)) 7 7)
      (mat_struct.mk (fun _ _ => 1) 7 7) (mat_struct.mk (fun _ _ => 2) 7 9) 0 ()).isClassical
      = true ∧
    (mat_solve_triu 8 5 (mat_struct.mk (fun _ _ => (0 : Int)) 9 9)
      (mat_struct.mk (fun _ _ => 1) 9 9) (mat_struct.mk (fun _ _ => 2) 9 4) 0 ()).isClassical
      = true ∧
    (mat_solve_triu 8 5 (mat_struct.mk (fun _ _ => (0 : Int)) 7 7)
      (mat_struct.mk (fun _ _ => 1) 7 7) (mat_struct.mk (fun _ _ => 2) 7 4) 1 ()).isClassical
      = true ∧
    (mat_solve_triu 8 5 (mat_struct.mk (fun _ _ => (0 : Int)) 8 8)
      (mat_struct.mk (fun _ _ => 1) 8 8) (mat_struct.mk (fun _ _ => 2) 8 5) 1 ()).isClassical
      = false := by
  decide

/-! ## Base-case calls -/

theorem base_calls_at_deficient (base : BaseDivider) (Q R A : Buf) (lenA : Int) (B : Buf)
    (lenB : Int) (a b : Int) :
    base_calls_at a b (deficient_branch base Q R A lenA B lenB).log
      = [{ lenA := lenA, lenB := lenB, aoff := lenB - (lenA - lenB + 1),
           boff := lenB - (lenA - lenB + 1), k := lenA - lenB + 1 }] := by
  simp only [deficient_branch]
  split_ifs <;> rfl

theorem base_calls_at_balanced (base : BaseDivider) (Q R A : Buf) (lenA : Int) (B : Buf)
    (lenB : Int) (a b : Int) :
    base_calls_at a b (balanced_branch base Q R A lenA B lenB).log
      = [{ lenA := lenA, lenB := lenB, aoff := 0, boff := 0, k := lenB }] := rfl

theorem base_calls_at_excessive (base : BaseDivider) (Q R A : Buf) (lenA : Int) (B : Buf)
    (lenB : Int) (a b : Int) (tail : List Event) :
    base_calls_at a b ((excessive_prepare base Q R A lenA B lenB).log ++ tail)
      = { lenA := lenA, lenB := lenB, aoff := lenA - 2 * lenB + 1, boff := 0, k := lenB }
        :: base_calls_at lenA lenB tail := rfl

/-- Every base-case call of a run is on the top `2k-1` coefficients of the
dividend of its driver entry and on the top `k` coefficients of `B`, with
`k = lenA' - lenB + 1` when that entry is deficient and `k = lenB` otherwise. -/
theorem driver_base_calls (base : BaseDivider) (B : Buf) (lenB : Int) (hB : 1 ≤ lenB) :
    ∀ (fuel : Nat) (Q R A : Buf) (lenA : Int) (out : DivremOut) (a b : Int), lenB ≤ lenA →
      _fmpz_poly_divrem_divconquer base fuel Q R A lenA B lenB = some out →
      ∀ c ∈ base_calls_at a b out.log,
        c.lenB = lenB ∧ lenB ≤ c.lenA ∧ c.lenA ≤ lenA ∧
        1 ≤ c.k ∧ c.k ≤ lenB ∧
        0 ≤ c.aoff ∧ c.aoff + (2 * c.k - 1) = c.lenA ∧
        0 ≤ c.boff ∧ c.boff + c.k = lenB ∧
        (c.lenA < 2 * lenB - 1 → c.k = c.lenA - lenB + 1) ∧
        (2 * lenB - 1 ≤ c.lenA → c.k = lenB) := by
  intro fuel
  induction fuel with
  | zero => intro Q R A lenA out _ _ _ h; simp [_fmpz_poly_divrem_divconquer] at h
  | succ fuel ih =>
    intro Q R A lenA out a b hA h c hc
    rcases lt_trichotomy lenA (2 * lenB - 1) with hd | hb | he
    · rw [driver_deficient base fuel Q R A lenA B lenB hd] at h
      cases h
      rw [base_calls_at_deficient, List.mem_singleton] at hc
      subst hc
      refine ⟨?_, ?_, ?_, ?_, ?_, ?_, ?_, ?_, ?_, ?_, ?_⟩ <;> simp only <;>
        first | omega | (intro hh; omega) | (intro _; trivial)
    · rw [driver_balanced base fuel Q R A lenA B lenB hb] at h
      cases h
      rw [base_calls_at_balanced, List.mem_singleton] at hc
      subst hc
      refine ⟨?_, ?_, ?_, ?_, ?_, ?_, ?_, ?_, ?_, ?_, ?_⟩ <;> simp only <;>
        first | omega | (intro hh; omega) | (intro _; trivial)
    · rw [driver_excessive base fuel Q R A lenA B lenB he] at h
      obtain ⟨out', hout', rfl⟩ := Option.map_eq_some'.mp h
      change c ∈ base_calls_at a b ((excessive_prepare base Q R A lenA B lenB).log ++ out'.log)
        at hc
      rw [base_calls_at_excessive, List.mem_cons] at hc
      rcases hc with rfl | hc
      · refine ⟨?_, ?_, ?_, ?_, ?_, ?_, ?_, ?_, ?_, ?_, ?_⟩ <;> simp only <;>
        first | omega | (intro hh; omega) | (intro _; trivial)
      · obtain ⟨h1, h2, h3, h4, h5, h6, h7, h8, h9, h10, h11⟩ :=
          ih _ _ _ _ out' lenA lenB (by omega) hout' c hc
        exact ⟨h1, h2, by omega, h4, h5, h6, h7, h8, h9, h10, h11⟩

/-- A run makes `floor(lenA / lenB)` base-case calls. -/
theorem driver_base_calls_length (base : BaseDivider) (B : Buf) (lenB : Int) (hB : 1 ≤ lenB) :
    ∀ (fuel : Nat) (Q R A : Buf) (lenA : Int) (out : DivremOut) (a b : Int), lenB ≤ lenA →
      _fmpz_poly_divrem_divconquer base fuel Q R A lenA B lenB = some out →
      (base_calls_at a b out.log).length = (lenA / lenB).toNat := by
  intro fuel
  induction fuel with
  | zero => intro Q R A lenA out _ _ _ h; simp [_fmpz_poly_divrem_divconquer] at h
  | succ fuel ih =>
    intro Q R A lenA out a b hA h
    rcases lt_trichotomy lenA (2 * lenB - 1) with hd | hb | he
    · rw [driver_deficient base fuel Q R A lenA B lenB hd] at h
      cases h
      rw [base_calls_at_deficient, ediv_eq_one_of_lt lenA lenB hB hA (by omega)]
      rfl
    · rw [driver_balanced base fuel Q R A lenA B lenB hb] at h
      cases h
      rw [base_calls_at_balanced, ediv_eq_one_of_lt lenA lenB hB hA (by omega)]
      rfl
    · rw [driver_excessive base fuel Q R A lenA B lenB he] at h
      obtain ⟨out', hout', rfl⟩ := Option.map_eq_some'.mp h
      show (base_calls_at a b ((excessive_prepare base Q R A lenA B lenB).log ++ out'.log)).length
        = _
      rw [base_calls_at_excessive, List.length_cons, ih _ _ _ _ out' lenA lenB (by omega) hout',
        sub_ediv_self lenA lenB hB]
      have := one_le_ediv lenA lenB hB hA
      omega

/-- C13: for every `lenA >= lenB >= 1`, one top-level call of the driver makes
exactly `floor(lenA/lenB)` base-case calls and, after its own entry, exactly
`floor(lenA/lenB) - 1` recursive driver calls.  In particular `lenA = 2 lenB - 1`
takes the balanced branch, with one base-case call and no driver recursion,
and `lenA = 2 lenB` takes the excessive branch with `shift = 1` and makes
exactly one further driver call, on a dividend of length `lenB`. -/
theorem divconquer_call_counts (base : BaseDivider) (Q R A B : Buf) (lenA lenB : Int)
    (hB : 1 ≤ lenB) (hA : lenB ≤ lenA) (fuel : Nat) (hfuel : lenA / lenB ≤ fuel) :
    ∃ out, _fmpz_poly_divrem_divconquer base fuel Q R A lenA B lenB = some out ∧
      (base_calls_at lenA lenB out.log).length = (lenA / lenB).toNat ∧
      (∃ rest, driver_calls out.log = (lenA, lenB) :: rest ∧
        (rest.length : Int) = lenA / lenB - 1) ∧
      (lenA = 2 * lenB - 1 →
        (base_calls_at lenA lenB out.log).length = 1 ∧
        driver_calls out.log = [(lenA, lenB)] ∧
        branch_choices out.log = [Event.balanced]) ∧
      (lenA = 2 * lenB →
        (base_calls_at lenA lenB out.log).length = 2 ∧
        driver_calls out.log = [(2 * lenB, lenB), (lenB, lenB)] ∧
        ∃ last, branch_choices out.log = [Event.excessive 1, last]) := by
  obtain ⟨out, hout⟩ := driver_returns_tight base B lenB hB fuel Q R A lenA hA hfuel
  have hlen := driver_base_calls_length base B lenB hB fuel Q R A lenA out lenA lenB hA hout
  have hcalls := driver_calls_closed_form base B lenB hB fuel Q R A lenA out hA hout
  have h1 := one_le_ediv lenA lenB hB hA
  refine ⟨out, hout, hlen, ?_, ?_, ?_⟩
  · have e : (lenA / lenB).toNat = (lenA / lenB - 1).toNat + 1 := by omega
    rw [e, List.range_succ_eq_map, List.map_cons, List.map_map] at hcalls
    refine ⟨List.map ((fun (j : Nat) => (lenA - j * lenB, lenB)) ∘ Nat.succ)
      (List.range (lenA / lenB - 1).toNat), ?_, ?_⟩
    · rw [hcalls]
      congr 1
      simp
    · rw [List.length_map, List.length_range]
      omega
  · intro hb
    have e1 : lenA / lenB = 1 := ediv_eq_one_of_lt lenA lenB hB hA (by omega)
    refine ⟨by rw [hlen, e1]; rfl, ?_, ?_⟩
    · rw [hcalls, e1]
      simp [List.range_succ]
    · cases fuel with
      | zero => simp [_fmpz_poly_divrem_divconquer] at hout
      | succ fuel =>
        rw [driver_balanced base fuel Q R A lenA B lenB hb] at hout
        cases hout
        exact branch_choices_balanced base Q R A lenA B lenB
  · intro h2
    have e2 : lenA / lenB = 2 := by
      rw [h2]
      exact Int.mul_ediv_cancel 2 (by omega)
    refine ⟨by rw [hlen, e2]; rfl, ?_, ?_⟩
    · rw [hcalls, e2, h2]
      have e : ((2 : Int)).toNat = 2 := rfl
      rw [e]
      simp [List.range_succ]
      ring
    · cases fuel with
      | zero => simp [_fmpz_poly_divrem_divconquer] at hout
      | succ fuel =>
        rw [driver_excessive base fuel Q R A lenA B lenB (by omega)] at hout
        obtain ⟨out', hout', rfl⟩ := Option.map_eq_some'.mp hout
        have es : lenA - 2 * lenB + 1 = 1 := by omega
        have el : lenA - lenB = lenB := by omega
        rw [el] at hout'
        show ∃ last, branch_choices ((excessive_prepare base Q R A lenA B lenB).log ++ out'.log)
          = [Event.excessive 1, last]
        rw [branch_choices_excessive, es]
        cases fuel with
        | zero => simp [_fmpz_poly_divrem_divconquer] at hout'
        | succ fuel =>
          by_cases hl : lenB = 1
          · rw [driver_balanced base fuel _ _ _ lenB B lenB (by omega)] at hout'
            cases hout'
            exact ⟨_, by rw [branch_choices_balanced]⟩
          · rw [driver_deficient base fuel _ _ _ lenB B lenB (by omega)] at hout'
            cases hout'
            exact ⟨_, by rw [branch_choices_deficient]⟩

/-- Witness for C13: `lenA = 6 = 2 * 3`, two base-case calls, one recursive
driver call on a dividend of length 3. -/
theorem divconquer_call_counts_witness :
    (1 : Int) ≤ 3 ∧ (3 : Int) ≤ 6 ∧ (6 : Int) / 3 ≤ ((2 : Nat) : Int) ∧
    ∃ out, _fmpz_poly_divrem_divconquer (basecase_divider fdiv_digit) 2
        (_fmpz_vec_init 4) (_fmpz_vec_init 6) (ofList [6, 7, 2, 5, -3, 8]) 6
        (ofList [2, -4, 3]) 3 = some out ∧
      (base_calls_at 6 3 out.log).length = ((6 : Int) / 3).toNat ∧
      (∃ rest, driver_calls out.log = (6, 3) :: rest ∧
        (rest.length : Int) = (6 : Int) / 3 - 1) ∧
      ((6 : Int) = 2 * 3 - 1 →
        (base_calls_at 6 3 out.log).length = 1 ∧
        driver_calls out.log = [(6, 3)] ∧
        branch_choices out.log = [Event.balanced]) ∧
      ((6 : Int) = 2 * 3 →
        (base_calls_at 6 3 out.log).length = 2 ∧
        driver_calls out.log = [(2 * 3, 3), (3, 3)] ∧
        ∃ last, branch_choices out.log = [Event.excessive 1, last]) :=
  ⟨by decide, by decide, by decide,
   divconquer_call_counts (basecase_divider fdiv_digit) (_fmpz_vec_init 4) (_fmpz_vec_init 6)
     (ofList [6, 7, 2, 5, -3, 8]) (ofList [2, -4, 3]) 6 3 (by decide) (by decide) 2 (by decide)⟩

/-- The calls of three runs: `lenA = 2 lenB - 1`, `lenA = 2 lenB`, and
`lenA = 11 = 3 * 3 + 2`. -/
theorem example_call_counts :
    (_fmpz_poly_divrem_divconquer (basecase_divider fdiv_digit) 1
        (_fmpz_vec_init 3) (_fmpz_vec_init 5) (ofList [6, 7, 2, 5, -3]) 5
        (ofList [2, -4, 3]) 3).map
      (fun out => (base_calls_at 5 3 out.log, branch_choices out.log))
      = some ([BaseCall.mk 5 3 0 0 3], [Event.balanced]) ∧
    (_fmpz_poly_divrem_divconquer (basecase_divider fdiv_digit) 2
        (_fmpz_vec_init 4) (_fmpz_vec_init 6) (ofList [6, 7, 2, 5, -3, 8]) 6
        (ofList [2, -4, 3]) 3).map
      (fun out => (base_calls_at 6 3 out.log, branch_choices out.log))
      = some ([BaseCall.mk 6 3 1 0 3, BaseCall.mk 3 3 2 2 1],
          [Event.excessive 1, Event.deficient 1 2]) ∧
    (_fmpz_poly_divrem_divconquer (basecase_divider fdiv_digit) 3
        (_fmpz_vec_init 9) (_fmpz_vec_init 11) (ofList [6, 7, 2, 5, -3, 8, 1, 0, 2, -1, 4]) 11
        (ofList [2, -4, 3]) 3).map
      (fun out => (base_calls_at 11 3 out.log, branch_choices out.log))
      = some ([BaseCall.mk 11 3 6 0 3, BaseCall.mk 8 3 3 0 3, BaseCall.mk 5 3 0 0 3],
          [Event.excessive 6, Event.excessive 3, Event.balanced]) := by
  decide

/-- C14: for every `lenA >= lenB >= 1`, every base-case call the driver makes,
at any recursion level, is balanced: with `a` the dividend length of the
driver entry that makes it, its dividend window of length `2k-1` starts at
offset `a - (2k-1)`, so it is the top `2k-1` coefficients of that dividend, and
its divisor window of length `k` starts at offset `lenB - k`, so it is the top
`k` coefficients of `B` and its top coefficient is `B[lenB-1]`; here
`1 <= k <= lenB`, `k = a - lenB + 1` in the deficient branch and `k = lenB`
otherwise.  There is at least one such call. -/
theorem divconquer_base_calls_balanced (base : BaseDivider) (Q R A B : Buf) (lenA lenB : Int)
    (hB : 1 ≤ lenB) (hA : lenB ≤ lenA) (fuel : Nat) (hfuel : lenA / lenB ≤ fuel) :
    ∃ out, _fmpz_poly_divrem_divconquer base fuel Q R A lenA B lenB = some out ∧
      base_calls_at lenA lenB out.log ≠ [] ∧
      ∀ c ∈ base_calls_at lenA lenB out.log,
        c.lenB = lenB ∧ lenB ≤ c.lenA ∧ c.lenA ≤ lenA ∧
        1 ≤ c.k ∧ c.k ≤ lenB ∧
        0 ≤ c.aoff ∧ c.aoff + (2 * c.k - 1) = c.lenA ∧
        0 ≤ c.boff ∧ c.boff + c.k = lenB ∧
        (c.lenA < 2 * lenB - 1 → c.k = c.lenA - lenB + 1) ∧
        (2 * lenB - 1 ≤ c.lenA → c.k = lenB) ∧
        ptr B c.boff (c.k - 1) = B (lenB - 1) := by
  obtain ⟨out, hout⟩ := driver_returns_tight base B lenB hB fuel Q R A lenA hA hfuel
  have hlen := driver_base_calls_length base B lenB hB fuel Q R A lenA out lenA lenB hA hout
  have h1 := one_le_ediv lenA lenB hB hA
  refine ⟨out, hout, ?_, ?_⟩
  · intro hnil
    rw [hnil] at hlen
    simp at hlen
    omega
  · intro c hc
    obtain ⟨h1, h2, h3, h4, h5, h6, h7, h8, h9, h10, h11⟩ :=
      driver_base_calls base B lenB hB fuel Q R A lenA out lenA lenB hA hout c hc
    refine ⟨h1, h2, h3, h4, h5, h6, h7, h8, h9, h10, h11, ?_⟩
    unfold ptr
    congr 1
    omega

/-- Witness for C14: `lenA = 7`, `lenB = 3` (excessive, then deficient). -/
theorem divconquer_base_calls_balanced_witness :
    (1 : Int) ≤ 3 ∧ (3 : Int) ≤ 7 ∧ (7 : Int) / 3 ≤ ((2 : Nat) : Int) ∧
    ∃ out, _fmpz_poly_divrem_divconquer (basecase_divider fdiv_digit) 2
        (_fmpz_vec_init 5) (_fmpz_vec_init 7) (ofList [6, 7, 2, 5, -3, 8, 1]) 7
        (ofList [2, -4, -1]) 3 = some out ∧
      base_calls_at 7 3 out.log ≠ [] ∧
      ∀ c ∈ base_calls_at 7 3 out.log,
        c.lenB = 3 ∧ 3 ≤ c.lenA ∧ c.lenA ≤ 7 ∧
        1 ≤ c.k ∧ c.k ≤ 3 ∧
        0 ≤ c.aoff ∧ c.aoff + (2 * c.k - 1) = c.lenA ∧
        0 ≤ c.boff ∧ c.boff + c.k = 3 ∧
        (c.lenA < 2 * 3 - 1 → c.k = c.lenA - 3 + 1) ∧
        (2 * 3 - 1 ≤ c.lenA → c.k = 3) ∧
        ptr (ofList [2, -4, -1]) c.boff (c.k - 1) = ofList [2, -4, -1] (3 - 1) :=
  ⟨by decide, by decide, by decide,
   divconquer_base_calls_balanced (basecase_divider fdiv_digit) (_fmpz_vec_init 5)
     (_fmpz_vec_init 7) (ofList [6, 7, 2, 5, -3, 8, 1]) (ofList [2, -4, -1]) 7 3
     (by decide) (by decide) 2 (by decide)⟩

/-! ## The deficient branch -/

/-- C15 as stated fails: with `A = 7 - 5x + 9x^2`, `B = 3 + x + 2x^2`
(`lenA = lenB = 3`, so `n1 = 1`, `n2 = 2`) the driver writes `R[1] = -9`,
while `A - ((d1*Q) * x^n1 + d2*Q)` has the coefficient `-17` there;
`A - ((d1*Q) * x^n2 + d2*Q)` has `-9`. -/
theorem deficient_shift_n1_counterexample :
    ∃ out, _fmpz_poly_divrem_divconquer (basecase_divider fdiv_digit) 1
        (_fmpz_vec_init 1) (_fmpz_vec_init 3) (ofList [7, -5, 9]) 3 (ofList [3, 1, 2]) 3
        = some out ∧
      out.R 1 = -9 ∧
      ofList [7, -5, 9] 1 - claimed_deficient_BQ out.Q 3 (ofList [3, 1, 2]) 3 1 = -17 ∧
      ofList [7, -5, 9] 1 - deficient_BQ out.Q 3 (ofList [3, 1, 2]) 3 1 = -9 ∧
      ¬ (∀ i, 0 ≤ i → i < 3 →
        out.R i = ofList [7, -5, 9] i - claimed_deficient_BQ out.Q 3 (ofList [3, 1, 2]) 3 i) := by
  refine ⟨_, rfl, by decide, by decide, by decide, ?_⟩
  intro h
  have h1 := h 1 (by decide) (by decide)
  revert h1
  decide

/-- C15, amended: in the deficient branch (`lenB <= lenA < 2 lenB - 1`,
`n1 = lenA-lenB+1`, `n2 = lenB-n1`, `d1` the top `n1` and `d2` the low `n2`
coefficients of `B`), with the base-case divider returning the product of its
divisor window and its quotient, the remainder written is `R = A - BQ` with
`BQ = (d1*Q) * x^n2 + d2*Q`: the partial product `d1*Q` is placed shifted up
by `n2` positions (it is stored from `R + n2` on) before `d2*Q` is added and
the sum is subtracted from `A`. -/
theorem deficient_remainder_shift_n2 (base : BaseDivider) (hbase : BaseProduct base)
    (Q R A B : Buf) (lenA lenB : Int) (hA : lenB ≤ lenA) (hd : lenA < 2 * lenB - 1)
    (fuel : Nat) (hfuel : 1 ≤ fuel) :
    ∃ out, _fmpz_poly_divrem_divconquer base fuel Q R A lenA B lenB = some out ∧
      branch_choices out.log = [Event.deficient (lenA - lenB + 1) (lenB - (lenA - lenB + 1))] ∧
      ∀ i, 0 ≤ i → i < lenA → out.R i = A i - deficient_BQ out.Q lenA B lenB i := by
  cases fuel with
  | zero => omega
  | succ fuel =>
    refine ⟨deficient_branch base Q R A lenA B lenB,
      driver_deficient base fuel Q R A lenA B lenB hd, branch_choices_deficient _ _ _ _ _ _ _, ?_⟩
    intro i h0 h1
    have hQ : ∀ j, 0 ≤ j → j < lenA - lenB + 1 →
        (deficient_branch base Q R A lenA B lenB).Q j
          = (base (ptr A (lenB - (lenA - lenB + 1))) (ptr B (lenB - (lenA - lenB + 1)))
              (lenA - lenB + 1)).1 j := by
      intro j hj0 hj1
      rw [deficient_branch_Q, if_pos ⟨hj0, hj1⟩]
    have hc : 0 ≤ i ∧ i < lenA := ⟨h0, h1⟩
    unfold deficient_BQ shifted_sum
    rw [deficient_branch_R base Q R A lenA B lenB i hA hd, if_pos hc,
      poly_mul_coeff_congr (fun _ _ _ => rfl) hQ, poly_mul_coeff_congr (fun _ _ _ => rfl) hQ,
      poly_mul_coeff_comm B]
    by_cases hi : lenB - (lenA - lenB + 1) ≤ i
    · rw [if_pos hi, if_pos hi, hbase _ _ _ (by omega) _ (by omega) (by omega)]
      ring
    · rw [if_neg hi, if_neg hi]
      ring

/-- Witness for C15, amended: the input of the counterexample. -/
theorem deficient_remainder_shift_n2_witness :
    BaseProduct (basecase_divider fdiv_digit) ∧ (3 : Int) ≤ 3 ∧ (3 : Int) < 2 * 3 - 1 ∧
    1 ≤ (1 : Nat) ∧
    ∃ out, _fmpz_poly_divrem_divconquer (basecase_divider fdiv_digit) 1
        (_fmpz_vec_init 1) (_fmpz_vec_init 3) (ofList [7, -5, 9]) 3 (ofList [3, 1, 2]) 3
        = some out ∧
      branch_choices out.log = [Event.deficient (3 - 3 + 1) (3 - (3 - 3 + 1))] ∧
      ∀ i, 0 ≤ i → i < 3 →
        out.R i = ofList [7, -5, 9] i - deficient_BQ out.Q 3 (ofList [3, 1, 2]) 3 i :=
  ⟨basecase_divider_product fdiv_digit, by decide, by decide, by decide,
   deficient_remainder_shift_n2 (basecase_divider fdiv_digit)
     (basecase_divider_product fdiv_digit) (_fmpz_vec_init 1) (_fmpz_vec_init 3)
     (ofList [7, -5, 9]) (ofList [3, 1, 2]) 3 3 (by decide) (by decide) 1 (by decide)⟩

/-! ## The excessive branch -/

/-- C16: in the excessive branch (`lenA >= 2 lenB`, `shift = lenA-2 lenB+1`,
`q1` the base-case quotient of the top `2 lenB - 1` coefficients of `A` by
`B`), with the base-case divider returning the product of its divisor window
and its quotient, the driver recurses on the scratch `dq1` with the length
`lenA - lenB`; the coefficients `0 .. shift-1` of that dividend are those of
`A`, its coefficients `shift .. lenA-lenB-1` are `A[i] - (B*q1)[i-shift]`, and
the slots `R[lenA-lenB .. lenA-1]` hold `A[i] - (B*q1)[i-shift]`, the top
`lenB` coefficients of `A - x^shift * (B*q1)`. -/
theorem excessive_recursive_dividend (base : BaseDivider) (hbase : BaseProduct base)
    (Q R A B : Buf) (lenA lenB : Int) (hB : 1 ≤ lenB) (he : lenA ≥ 2 * lenB) (fuel : Nat) :
    _fmpz_poly_divrem_divconquer base (fuel + 1) Q R A lenA B lenB
      = (_fmpz_poly_divrem_divconquer base fuel
            (excessive_prepare base Q R A lenA B lenB).Q
            (excessive_prepare base Q R A lenA B lenB).R
            (excessive_prepare base Q R A lenA B lenB).dq1 (lenA - lenB) B lenB).map
          (fun out => { Q := out.Q, R := out.R,
                        log := (excessive_prepare base Q R A lenA B lenB).log ++ out.log }) ∧
    (∀ i, 0 ≤ i → i < lenA - 2 * lenB + 1 →
      (excessive_prepare base Q R A lenA B lenB).dq1 i = A i) ∧
    (∀ i, lenA - 2 * lenB + 1 ≤ i → i < lenA - lenB →
      (excessive_prepare base Q R A lenA B lenB).dq1 i
        = A i - poly_mul_coeff B lenB (base (ptr A (lenA - 2 * lenB + 1)) B lenB).1 lenB
            (i - (lenA - 2 * lenB + 1))) ∧
    (∀ i, lenA - lenB ≤ i → i < lenA →
      (excessive_prepare base Q R A lenA B lenB).R i
        = A i - poly_mul_coeff B lenB (base (ptr A (lenA - 2 * lenB + 1)) B lenB).1 lenB
            (i - (lenA - 2 * lenB + 1))) := by
  refine ⟨driver_excessive base fuel Q R A lenA B lenB (by omega), ?_, ?_, ?_⟩
  · intro i h0 h1
    have hc : ¬ (lenA - 2 * lenB + 1 ≤ i) := by omega
    rw [excessive_prepare_dq1 base Q R A lenA B lenB i hB h0 (by omega), if_neg hc, sub_zero]
  · intro i h0 h1
    rw [excessive_prepare_dq1 base Q R A lenA B lenB i hB (by omega) h1, if_pos h0,
      hbase _ _ _ hB _ (by omega) (by omega)]
  · intro i h0 h1
    have hc : lenA - lenB ≤ i ∧ i < lenA := ⟨h0, h1⟩
    rw [excessive_prepare_R, if_pos hc, hbase _ _ _ hB _ (by omega) (by omega)]

/-- Witness for C16: `A = [1, 2, 3, 4, 5]`, `B = [1, 1]` (`shift = 2`). -/
theorem excessive_recursive_dividend_witness :
    BaseProduct (basecase_divider fdiv_digit) ∧ (1 : Int) ≤ 2 ∧ (5 : Int) ≥ 2 * 2 ∧
    (_fmpz_poly_divrem_divconquer (basecase_divider fdiv_digit) (1 + 1)
        (_fmpz_vec_init 4) (_fmpz_vec_init 5) (ofList [1, 2, 3, 4, 5]) 5 (ofList [1, 1]) 2
      = (_fmpz_poly_divrem_divconquer (basecase_divider fdiv_digit) 1
            (excessive_prepare (basecase_divider fdiv_digit) (_fmpz_vec_init 4)
              (_fmpz_vec_init 5) (ofList [1, 2, 3, 4, 5]) 5 (ofList [1, 1]) 2).Q
            (excessive_prepare (basecase_divider fdiv_digit) (_fmpz_vec_init 4)
              (_fmpz_vec_init 5) (ofList [1, 2, 3, 4, 5]) 5 (ofList [1, 1]) 2).R
            (excessive_prepare (basecase_divider fdiv_digit) (_fmpz_vec_init 4)
              (_fmpz_vec_init 5) (ofList [1, 2, 3, 4, 5]) 5 (ofList [1, 1]) 2).dq1
            (5 - 2) (ofList [1, 1]) 2).map
          (fun out => { Q := out.Q, R := out.R,
                        log := (excessive_prepare (basecase_divider fdiv_digit)
                          (_fmpz_vec_init 4) (_fmpz_vec_init 5) (ofList [1, 2, 3, 4, 5]) 5
                          (ofList [1, 1]) 2).log ++ out.log }) ∧
    (∀ i, 0 ≤ i → i < 5 - 2 * 2 + 1 →
      (excessive_prepare (basecase_divider fdiv_digit) (_fmpz_vec_init 4) (_fmpz_vec_init 5)
        (ofList [1, 2, 3, 4, 5]) 5 (ofList [1, 1]) 2).dq1 i = ofList [1, 2, 3, 4, 5] i) ∧
    (∀ i, 5 - 2 * 2 + 1 ≤ i → i < 5 - 2 →
      (excessive_prepare (basecase_divider fdiv_digit) (_fmpz_vec_init 4) (_fmpz_vec_init 5)
        (ofList [1, 2, 3, 4, 5]) 5 (ofList [1, 1]) 2).dq1 i
        = ofList [1, 2, 3, 4, 5] i - poly_mul_coeff (ofList [1, 1]) 2
            (basecase_divider fdiv_digit (ptr (ofList [1, 2, 3, 4, 5]) (5 - 2 * 2 + 1))
              (ofList [1, 1]) 2).1 2 (i - (5 - 2 * 2 + 1))) ∧
    (∀ i, 5 - 2 ≤ i → i < 5 →
      (excessive_prepare (basecase_divider fdiv_digit) (_fmpz_vec_init 4) (_fmpz_vec_init 5)
        (ofList [1, 2, 3, 4, 5]) 5 (ofList [1, 1]) 2).R i
        = ofList [1, 2, 3, 4, 5] i - poly_mul_coeff (ofList [1, 1]) 2
            (basecase_divider fdiv_digit (ptr (ofList [1, 2, 3, 4, 5]) (5 - 2 * 2 + 1))
              (ofList [1, 1]) 2).1 2 (i - (5 - 2 * 2 + 1)))) :=
  ⟨basecase_divider_product fdiv_digit, by decide, by decide,
   excessive_recursive_dividend (basecase_divider fdiv_digit)
     (basecase_divider_product fdiv_digit) (_fmpz_vec_init 4) (_fmpz_vec_init 5)
     (ofList [1, 2, 3, 4, 5]) (ofList [1, 1]) 5 2 (by decide) (by decide) 1⟩

/-- The prepared state on the input of the witness of C16: the scratch handed
to the recursion is `[1, 2, 4]` (`A = [1, 2, 3, 4, 5]`, `q1 = [-1, 5]`,
`B*q1 = [-1, 4, 5]`), and the top of `R` is `[0, 0]`. -/
theorem example_excessive_prepare :
    toList (excessive_prepare (basecase_divider fdiv_digit) (_fmpz_vec_init 4)
      (_fmpz_vec_init 5) (ofList [1, 2, 3, 4, 5]) 5 (ofList [1, 1]) 2).dq1 3 = [1, 2, 4] ∧
    toList (ptr (excessive_prepare (basecase_divider fdiv_digit) (_fmpz_vec_init 4)
      (_fmpz_vec_init 5) (ofList [1, 2, 3, 4, 5]) 5 (ofList [1, 1]) 2).R 3) 2 = [0, 0] ∧
    toList (ptr (excessive_prepare (basecase_divider fdiv_digit) (_fmpz_vec_init 4)
      (_fmpz_vec_init 5) (ofList [1, 2, 3, 4, 5]) 5 (ofList [1, 1]) 2).Q 2) 2 = [-1, 5] := by
  decide

/-! ## Slots written -/

theorem slot_written_of_mem (m : Mem) (log : List Event) (i off len : Int)
    (hmem : Event.write m off len ∈ log) (h0 : off ≤ i) (h1 : i < off + len) :
    slot_written m log i = true := by
  unfold slot_written
  rw [List.any_eq_true]
  exact ⟨_, hmem, by simp [h0, h1]⟩

theorem slot_written_append (m : Mem) (l1 l2 : List Event) (i : Int) :
    slot_written m (l1 ++ l2) i = (slot_written m l1 i || slot_written m l2 i) := by
  unfold slot_written
  rw [List.any_append]

/-- Every slot of `Q[0 .. lenA-lenB+1)` and of `R[0 .. lenA)` lies in a window
the driver writes. -/
theorem driver_writes_cover (base : BaseDivider) (B : Buf) (lenB : Int) :
    ∀ (fuel : Nat) (Q R A : Buf) (lenA : Int) (out : DivremOut), lenB ≤ lenA →
      _fmpz_poly_divrem_divconquer base fuel Q R A lenA B lenB = some out →
      (∀ i, 0 ≤ i → i < lenA - lenB + 1 → slot_written Mem.Q out.log i = true) ∧
      (∀ i, 0 ≤ i → i < lenA → slot_written Mem.R out.log i = true) := by
  intro fuel
  induction fuel with
  | zero => intro Q R A lenA out _ h; simp [_fmpz_poly_divrem_divconquer] at h
  | succ fuel ih =>
    intro Q R A lenA out hA h
    rcases lt_trichotomy lenA (2 * lenB - 1) with hd | hb | he
    · rw [driver_deficient base fuel Q R A lenA B lenB hd] at h
      cases h
      constructor
      · intro i h0 h1
        exact slot_written_of_mem Mem.Q _ i 0 (lenA - lenB + 1)
          (by simp [deficient_branch]) h0 (by omega)
      · intro i h0 h1
        exact slot_written_of_mem Mem.R _ i 0 lenA (by simp [deficient_branch]) h0 (by omega)
    · rw [driver_balanced base fuel Q R A lenA B lenB hb] at h
      cases h
      constructor
      · intro i h0 h1
        exact slot_written_of_mem Mem.Q _ i 0 lenB (by simp [balanced_branch]) h0 (by omega)
      · intro i h0 h1
        exact slot_written_of_mem Mem.R _ i 0 lenA (by simp [balanced_branch]) h0 (by omega)
    · rw [driver_excessive base fuel Q R A lenA B lenB he] at h
      obtain ⟨out', hout', rfl⟩ := Option.map_eq_some'.mp h
      obtain ⟨hQ, hR⟩ := ih _ _ _ _ out' (by omega) hout'
      constructor
      · intro i h0 h1
        show slot_written Mem.Q ((excessive_prepare base Q R A lenA B lenB).log ++ out'.log) i
          = true
        rw [slot_written_append, Bool.or_eq_true]
        by_cases hi : i < lenA - 2 * lenB + 1
        · exact Or.inr (hQ i h0 (by omega))
        · exact Or.inl (slot_written_of_mem Mem.Q _ i (lenA - 2 * lenB + 1) lenB
            (by simp [excessive_prepare]) (by omega) (by omega))
      · intro i h0 h1
        show slot_written Mem.R ((excessive_prepare base Q R A lenA B lenB).log ++ out'.log) i
          = true
        rw [slot_written_append, Bool.or_eq_true]
        by_cases hi : i < lenA - lenB
        · exact Or.inr (hR i h0 hi)
        · exact Or.inl (slot_written_of_mem Mem.R _ i (lenA - lenB) lenB
            (by simp [excessive_prepare]) (by omega) (by omega))

/-- C17: in the excessive branch (`lenA >= 2 lenB`, `shift = lenA-2 lenB+1`)
the recursive driver call, on the dividend `dq1` of length `lenA - lenB`,
returns and leaves `Q` unchanged outside `Q[0 .. shift-1]` and `R` unchanged
outside `R[0 .. lenA-lenB-1]`, all its windows lying inside the lengths of that
call; so on return `Q[shift .. shift+lenB-1]` is the base-case quotient `q1`,
`Q[0 .. shift-1]` is the quotient `q2` of the driver on `dq1` (whatever output
arrays that run is given), `R[lenA-lenB .. lenA-1]` is the block stored before
the recursion, every slot of `Q[0 .. lenA-lenB]` and `R[0 .. lenA-1]` lies in
a window that was written, and the final `Q` and `R` windows do not depend on
what the `Q` and `R` arrays held before. -/
theorem excessive_recursion_frame (base : BaseDivider) (Q R A B : Buf) (lenA lenB : Int)
    (hB : 1 ≤ lenB) (he : lenA ≥ 2 * lenB) (fuel : Nat)
    (hfuel : (lenA - lenB) / lenB ≤ fuel) :
    ∃ sub out,
      _fmpz_poly_divrem_divconquer base fuel
        (excessive_prepare base Q R A lenA B lenB).Q
        (excessive_prepare base Q R A lenA B lenB).R
        (excessive_prepare base Q R A lenA B lenB).dq1 (lenA - lenB) B lenB = some sub ∧
      _fmpz_poly_divrem_divconquer base (fuel + 1) Q R A lenA B lenB = some out ∧
      (∀ i, i < 0 ∨ lenA - 2 * lenB + 1 ≤ i →
        sub.Q i = (excessive_prepare base Q R A lenA B lenB).Q i) ∧
      (∀ i, i < 0 ∨ lenA - lenB ≤ i →
        sub.R i = (excessive_prepare base Q R A lenA B lenB).R i) ∧
      windows_in_bounds (lenA - lenB) lenB sub.log = true ∧
      out.Q = sub.Q ∧ out.R = sub.R ∧
      (∀ i, lenA - 2 * lenB + 1 ≤ i → i < lenA - 2 * lenB + 1 + lenB →
        out.Q i = (base (ptr A (lenA - 2 * lenB + 1)) B lenB).1 (i - (lenA - 2 * lenB + 1))) ∧
      (∀ (Q0 R0 : Buf) (q2 : DivremOut),
        _fmpz_poly_divrem_divconquer base fuel Q0 R0
          (excessive_prepare base Q R A lenA B lenB).dq1 (lenA - lenB) B lenB = some q2 →
        ∀ i, 0 ≤ i → i < lenA - 2 * lenB + 1 → out.Q i = q2.Q i) ∧
      (∀ i, lenA - lenB ≤ i → i < lenA →
        out.R i = (excessive_prepare base Q R A lenA B lenB).R i) ∧
      (∀ i, 0 ≤ i → i < lenA - lenB + 1 → slot_written Mem.Q out.log i = true) ∧
      (∀ i, 0 ≤ i → i < lenA → slot_written Mem.R out.log i = true) ∧
      (∀ (Q0 R0 : Buf) (other : DivremOut),
        _fmpz_poly_divrem_divconquer base (fuel + 1) Q0 R0 A lenA B lenB = some other →
        (∀ i, 0 ≤ i → i < lenA - lenB + 1 → other.Q i = out.Q i) ∧
        (∀ i, 0 ≤ i → i < lenA → other.R i = out.R i)) := by
  obtain ⟨sub, hsub⟩ := driver_returns_tight base B lenB hB fuel
    (excessive_prepare base Q R A lenA B lenB).Q (excessive_prepare base Q R A lenA B lenB).R
    (excessive_prepare base Q R A lenA B lenB).dq1 (lenA - lenB) (by omega) hfuel
  have hout : _fmpz_poly_divrem_divconquer base (fuel + 1) Q R A lenA B lenB
      = some { Q := sub.Q, R := sub.R,
               log := (excessive_prepare base Q R A lenA B lenB).log ++ sub.log } := by
    rw [driver_excessive base fuel Q R A lenA B lenB (by omega), hsub]
    rfl
  obtain ⟨hfQ, hfR⟩ := driver_frame base B lenB hB fuel _ _ _ _ sub (by omega) hsub
  obtain ⟨hcQ, hcR⟩ := driver_writes_cover base B lenB (fuel + 1) Q R A lenA _ (by omega) hout
  refine ⟨sub, _, hsub, hout, fun i hi => hfQ i (by omega), hfR,
    driver_windows_in_bounds base B lenB hB fuel _ _ _ _ sub _ _ (by omega) hsub,
    rfl, rfl, ?_, ?_, ?_, hcQ, hcR, ?_⟩
  · intro i h0 h1
    have hc : lenA - 2 * lenB + 1 ≤ i ∧ i < lenA - 2 * lenB + 1 + lenB := ⟨h0, h1⟩
    show sub.Q i = _
    rw [hfQ i (by omega), excessive_prepare_Q, if_pos hc]
  · intro Q0 R0 q2 hq2 i h0 h1
    exact (driver_init_irrelevant base B lenB hB fuel _ _ Q0 R0 _ _ sub q2 (by omega) hsub
      hq2).1 i h0 (by omega)
  · intro i h0 h1
    exact hfR i (Or.inr h0)
  · intro Q0 R0 other hother
    obtain ⟨h1, h2, _⟩ := driver_init_irrelevant base B lenB hB (fuel + 1) Q0 R0 Q R A lenA
      other _ (by omega) hother hout
    exact ⟨h1, h2⟩

/-- Witness for C17: `lenA = 8`, `lenB = 3` (`shift = 3`; the recursion is on
a dividend of length 5, the balanced case). -/
theorem excessive_recursion_frame_witness :
    (1 : Int) ≤ 3 ∧ (8 : Int) ≥ 2 * 3 ∧ ((8 : Int) - 3) / 3 ≤ ((1 : Nat) : Int) ∧
    ∃ sub out,
      _fmpz_poly_divrem_divconquer (basecase_divider fdiv_digit) 1
        (excessive_prepare (basecase_divider fdiv_digit) (_fmpz_vec_init 6) (_fmpz_vec_init 8)
          (ofList [6, 7, 2, 5, -3, 8, 1, 4]) 8 (ofList [2, -4, -1]) 3).Q
        (excessive_prepare (basecase_divider fdiv_digit) (_fmpz_vec_init 6) (_fmpz_vec_init 8)
          (ofList [6, 7, 2, 5, -3, 8, 1, 4]) 8 (ofList [2, -4, -1]) 3).R
        (excessive_prepare (basecase_divider fdiv_digit) (_fmpz_vec_init 6) (_fmpz_vec_init 8)
          (ofList [6, 7, 2, 5, -3, 8, 1, 4]) 8 (ofList [2, -4, -1]) 3).dq1
        (8 - 3) (ofList [2, -4, -1]) 3 = some sub ∧
      _fmpz_poly_divrem_divconquer (basecase_divider fdiv_digit) (1 + 1)
        (_fmpz_vec_init 6) (_fmpz_vec_init 8) (ofList [6, 7, 2, 5, -3, 8, 1, 4]) 8
        (ofList [2, -4, -1]) 3 = some out ∧
      (∀ i, i < 0 ∨ (8 : Int) - 2 * 3 + 1 ≤ i →
        sub.Q i = (excessive_prepare (basecase_divider fdiv_digit) (_fmpz_vec_init 6)
          (_fmpz_vec_init 8) (ofList [6, 7, 2, 5, -3, 8, 1, 4]) 8 (ofList [2, -4, -1]) 3).Q i) ∧
      (∀ i, i < 0 ∨ (8 : Int) - 3 ≤ i →
        sub.R i = (excessive_prepare (basecase_divider fdiv_digit) (_fmpz_vec_init 6)
          (_fmpz_vec_init 8) (ofList [6, 7, 2, 5, -3, 8, 1, 4]) 8 (ofList [2, -4, -1]) 3).R i) ∧
      windows_in_bounds (8 - 3) 3 sub.log = true ∧
      out.Q = sub.Q ∧ out.R = sub.R ∧
      (∀ i, (8 : Int) - 2 * 3 + 1 ≤ i → i < 8 - 2 * 3 + 1 + 3 →
        out.Q i = (basecase_divider fdiv_digit (ptr (ofList [6, 7, 2, 5, -3, 8, 1, 4])
          (8 - 2 * 3 + 1)) (ofList [2, -4, -1]) 3).1 (i - (8 - 2 * 3 + 1))) ∧
      (∀ (Q0 R0 : Buf) (q2 : DivremOut),
        _fmpz_poly_divrem_divconquer (basecase_divider fdiv_digit) 1 Q0 R0
          (excessive_prepare (basecase_divider fdiv_digit) (_fmpz_vec_init 6) (_fmpz_vec_init 8)
            (ofList [6, 7, 2, 5, -3, 8, 1, 4]) 8 (ofList [2, -4, -1]) 3).dq1
          (8 - 3) (ofList [2, -4, -1]) 3 = some q2 →
        ∀ i, 0 ≤ i → i < (8 : Int) - 2 * 3 + 1 → out.Q i = q2.Q i) ∧
      (∀ i, (8 : Int) - 3 ≤ i → i < 8 →
        out.R i = (excessive_prepare (basecase_divider fdiv_digit) (_fmpz_vec_init 6)
          (_fmpz_vec_init 8) (ofList [6, 7, 2, 5, -3, 8, 1, 4]) 8 (ofList [2, -4, -1]) 3).R i) ∧
      (∀ i, 0 ≤ i → i < (8 : Int) - 3 + 1 → slot_written Mem.Q out.log i = true) ∧
      (∀ i, 0 ≤ i → i < (8 : Int) → slot_written Mem.R out.log i = true) ∧
      (∀ (Q0 R0 : Buf) (other : DivremOut),
        _fmpz_poly_divrem_divconquer (basecase_divider fdiv_digit) (1 + 1) Q0 R0
          (ofList [6, 7, 2, 5, -3, 8, 1, 4]) 8 (ofList [2, -4, -1]) 3 = some other →
        (∀ i, 0 ≤ i → i < (8 : Int) - 3 + 1 → other.Q i = out.Q i) ∧
        (∀ i, 0 ≤ i → i < (8 : Int) → other.R i = out.R i)) :=
  ⟨by decide, by decide, by decide,
   excessive_recursion_frame (basecase_divider fdiv_digit) (_fmpz_vec_init 6)
     (_fmpz_vec_init 8) (ofList [6, 7, 2, 5, -3, 8, 1, 4]) (ofList [2, -4, -1]) 8 3
     (by decide) (by decide) 1 (by decide)⟩

/-- The run of the witness of C17 from output arrays filled with `99`: the
windows `Q[0 .. 6)` and `R[0 .. 8)` come out as from zeroed arrays, slot 6 of
`Q` is not written. -/
theorem example_excessive_overwrites :
    (_fmpz_poly_divrem_divconquer (basecase_divider fdiv_digit) 2
        (fun _ => 99) (fun _ => 99) (ofList [6, 7, 2, 5, -3, 8, 1, 4]) 8
        (ofList [2, -4, -1]) 3).map (fun out => (toList out.Q 7, toList out.R 9))
      = (_fmpz_poly_divrem_divconquer (basecase_divider fdiv_digit) 2
        (_fmpz_vec_init 6) (_fmpz_vec_init 8) (ofList [6, 7, 2, 5, -3, 8, 1, 4]) 8
        (ofList [2, -4, -1]) 3).map
          (fun out => (toList out.Q 6 ++ [99], toList out.R 8 ++ [99])) ∧
    (_fmpz_poly_divrem_divconquer (basecase_divider fdiv_digit) 2
        (_fmpz_vec_init 6) (_fmpz_vec_init 8) (ofList [6, 7, 2, 5, -3, 8, 1, 4]) 8
        (ofList [2, -4, -1]) 3).map (fun out => slot_written Mem.Q out.log 6) = some false := by
  decide

/-! ## The multiplier call of the deficient branch -/

theorem mul_calls_deficient (base : BaseDivider) (Q R A : Buf) (lenA : Int) (B : Buf)
    (lenB : Int) :
    mul_calls (deficient_branch base Q R A lenA B lenB).log
      = [if lenA - lenB + 1 ≥ lenB - (lenA - lenB + 1)
         then (lenA - lenB + 1, lenB - (lenA - lenB + 1))
         else (lenB - (lenA - lenB + 1), lenA - lenB + 1)] := by
  simp only [deficient_branch, mul_calls]
  split_ifs <;> rfl

/-- C18: in the deficient branch (`lenB <= lenA < 2 lenB - 1`,
`n1 = lenA-lenB+1`, `n2 = lenB-n1`) both operands of the multiplier are
non-empty (`n1 >= 1`, `n2 >= 1`); the one multiplier call has its first
operand at least as long as its second (`Q, n1` first when `n1 >= n2`,
otherwise `d2, n2` first); the product has `n1+n2-1 = lenB-1` coefficients,
the size of the scratch `d2q1`, which it fills from slot 0 on; and the `d2q1`
computed is the product `d2 * Q`, which both orders of the operands give. -/
theorem deficient_multiplier_call (base : BaseDivider) (Q R A B : Buf) (lenA lenB : Int)
    (hA : lenB ≤ lenA) (hd : lenA < 2 * lenB - 1) (fuel : Nat) (hfuel : 1 ≤ fuel) :
    ∃ out, _fmpz_poly_divrem_divconquer base fuel Q R A lenA B lenB = some out ∧
      1 ≤ lenA - lenB + 1 ∧ 1 ≤ lenB - (lenA - lenB + 1) ∧
      mul_calls out.log
        = [if lenA - lenB + 1 ≥ lenB - (lenA - lenB + 1)
           then (lenA - lenB + 1, lenB - (lenA - lenB + 1))
           else (lenB - (lenA - lenB + 1), lenA - lenB + 1)] ∧
      (∀ c ∈ mul_calls out.log, c.2 ≤ c.1 ∧ 1 ≤ c.2) ∧
      (lenA - lenB + 1) + (lenB - (lenA - lenB + 1)) - 1 = Mem.size Mem.d2q1 lenA lenB ∧
      Event.write Mem.d2q1 0 (lenB - 1) ∈ out.log ∧
      (∀ i, deficient_d2q1 base Q R A lenA B lenB i
        = poly_mul_coeff B (lenB - (lenA - lenB + 1)) out.Q (lenA - lenB + 1) i) ∧
      (∀ i, 0 ≤ i → i < lenB - 1 →
        _fmpz_poly_mul (_fmpz_vec_init (lenB - 1)) out.Q (lenA - lenB + 1)
            B (lenB - (lenA - lenB + 1)) i
          = deficient_d2q1 base Q R A lenA B lenB i ∧
        _fmpz_poly_mul (_fmpz_vec_init (lenB - 1)) B (lenB - (lenA - lenB + 1))
            out.Q (lenA - lenB + 1) i
          = deficient_d2q1 base Q R A lenA B lenB i) := by
  cases fuel with
  | zero => omega
  | succ fuel =>
    have hQ : ∀ j, 0 ≤ j → j < lenA - lenB + 1 →
        (deficient_branch base Q R A lenA B lenB).Q j
          = (base (ptr A (lenB - (lenA - lenB + 1))) (ptr B (lenB - (lenA - lenB + 1)))
              (lenA - lenB + 1)).1 j := by
      intro j hj0 hj1
      rw [deficient_branch_Q, if_pos ⟨hj0, hj1⟩]
    have hprod : ∀ i, deficient_d2q1 base Q R A lenA B lenB i
        = poly_mul_coeff B (lenB - (lenA - lenB + 1))
            (deficient_branch base Q R A lenA B lenB).Q (lenA - lenB + 1) i := by
      intro i
      rw [deficient_d2q1_eq, poly_mul_coeff_comm B, poly_mul_coeff_congr hQ (fun _ _ _ => rfl)]
    refine ⟨deficient_branch base Q R A lenA B lenB,
      driver_deficient base fuel Q R A lenA B lenB hd, by omega, by omega,
      mul_calls_deficient base Q R A lenA B lenB, ?_, ?_, ?_, hprod, ?_⟩
    · intro c hc
      rw [mul_calls_deficient, List.mem_singleton] at hc
      subst hc
      split_ifs <;> constructor <;> simp only <;> omega
    · simp only [Mem.size]
      omega
    · have h : lenA - lenB + 1 + (lenB - (lenA - lenB + 1)) - 1 = lenB - 1 := by omega
      simp [deficient_branch, h]
    · intro i h0 h1
      have hc1 : 0 ≤ i ∧ i < lenA - lenB + 1 + (lenB - (lenA - lenB + 1)) - 1 :=
        ⟨h0, by omega⟩
      have hc2 : 0 ≤ i ∧ i < lenB - (lenA - lenB + 1) + (lenA - lenB + 1) - 1 :=
        ⟨h0, by omega⟩
      constructor
      · rw [hprod]
        unfold _fmpz_poly_mul
        rw [if_pos hc1, poly_mul_coeff_comm]
      · rw [hprod]
        unfold _fmpz_poly_mul
        rw [if_pos hc2]

/-- Witness for C18: `lenA = 4`, `lenB = 3` (`n1 = 2`, `n2 = 1`). -/
theorem deficient_multiplier_call_witness :
    (3 : Int) ≤ 4 ∧ (4 : Int) < 2 * 3 - 1 ∧ 1 ≤ (1 : Nat) ∧
    ∃ out, _fmpz_poly_divrem_divconquer (basecase_divider fdiv_digit) 1
        (_fmpz_vec_init 2) (_fmpz_vec_init 4) (ofList [6, 7, 2, 5]) 4
        (ofList [2, -4, -1]) 3 = some out ∧
      1 ≤ (4 : Int) - 3 + 1 ∧ 1 ≤ (3 : Int) - (4 - 3 + 1) ∧
      mul_calls out.log
        = [if (4 : Int) - 3 + 1 ≥ 3 - (4 - 3 + 1)
           then ((4 : Int) - 3 + 1, (3 : Int) - (4 - 3 + 1))
           else ((3 : Int) - (4 - 3 + 1), (4 : Int) - 3 + 1)] ∧
      (∀ c ∈ mul_calls out.log, c.2 ≤ c.1 ∧ 1 ≤ c.2) ∧
      ((4 : Int) - 3 + 1) + (3 - (4 - 3 + 1)) - 1 = Mem.size Mem.d2q1 4 3 ∧
      Event.write Mem.d2q1 0 (3 - 1) ∈ out.log ∧
      (∀ i, deficient_d2q1 (basecase_divider fdiv_digit) (_fmpz_vec_init 2) (_fmpz_vec_init 4)
          (ofList [6, 7, 2, 5]) 4 (ofList [2, -4, -1]) 3 i
        = poly_mul_coeff (ofList [2, -4, -1]) (3 - (4 - 3 + 1)) out.Q (4 - 3 + 1) i) ∧
      (∀ i, 0 ≤ i → i < (3 : Int) - 1 →
        _fmpz_poly_mul (_fmpz_vec_init (3 - 1)) out.Q (4 - 3 + 1)
            (ofList [2, -4, -1]) (3 - (4 - 3 + 1)) i
          = deficient_d2q1 (basecase_divider fdiv_digit) (_fmpz_vec_init 2) (_fmpz_vec_init 4)
              (ofList [6, 7, 2, 5]) 4 (ofList [2, -4, -1]) 3 i ∧
        _fmpz_poly_mul (_fmpz_vec_init (3 - 1)) (ofList [2, -4, -1]) (3 - (4 - 3 + 1))
            out.Q (4 - 3 + 1) i
          = deficient_d2q1 (basecase_divider fdiv_digit) (_fmpz_vec_init 2) (_fmpz_vec_init 4)
              (ofList [6, 7, 2, 5]) 4 (ofList [2, -4, -1]) 3 i) :=
  ⟨by decide, by decide, by decide,
   deficient_multiplier_call (basecase_divider fdiv_digit) (_fmpz_vec_init 2)
     (_fmpz_vec_init 4) (ofList [6, 7, 2, 5]) (ofList [2, -4, -1]) 4 3
     (by decide) (by decide) 1 (by decide)⟩

/-- The multiplier calls of two deficient runs: `lenA = 4`, `lenB = 3`
(`n1 = 2 >= n2 = 1`, `Q` first) and `lenA = 4`, `lenB = 4` (`n1 = 1 < n2 = 3`,
`d2` first). -/
theorem example_mul_calls :
    (_fmpz_poly_divrem_divconquer (basecase_divider fdiv_digit) 1
        (_fmpz_vec_init 2) (_fmpz_vec_init 4) (ofList [6, 7, 2, 5]) 4
        (ofList [2, -4, -1]) 3).map (fun out => mul_calls out.log) = some [(2, 1)] ∧
    (_fmpz_poly_divrem_divconquer (basecase_divider fdiv_digit) 1
        (_fmpz_vec_init 1) (_fmpz_vec_init 4) (ofList [6, 7, 2, 5]) 4
        (ofList [2, -4, -1, 1]) 4).map (fun out => mul_calls out.log) = some [(3, 1)] := by
  decide

/-- The product the deficient branch builds, `(d1*Q) * x^n2 + d2*Q`, is the
product `B * Q` of the whole divisor and the quotient window: `B` is
`d1 * x^n2 + d2`. -/
theorem deficient_BQ_eq_product (Qw B : Buf) (lenA lenB : Int) (hA : lenB ≤ lenA)
    (hd : lenA < 2 * lenB - 1) (i : Int) :
    deficient_BQ Qw lenA B lenB i = poly_mul_coeff B lenB Qw (lenA - lenB + 1) i := by
  have h := poly_mul_coeff_split_left B (lenB - (lenA - lenB + 1)) (lenA - lenB + 1) Qw
    (lenA - lenB + 1) i (by omega) (by omega)
  have e : lenB - (lenA - lenB + 1) + (lenA - lenB + 1) = lenB := by ring
  rw [e] at h
  unfold deficient_BQ shifted_sum
  rw [h]
  by_cases hi : lenB - (lenA - lenB + 1) ≤ i
  · rw [if_pos hi]
    ring
  · rw [if_neg hi, poly_mul_coeff_eq_zero (ptr B (lenB - (lenA - lenB + 1))) (lenA - lenB + 1)
      Qw (lenA - lenB + 1) (i - (lenB - (lenA - lenB + 1))) (Or.inl (by omega))]
    ring

/-- On the input of the counterexample of C15 the product `B * Q` is
`[12, 4, 8]`: the code's `(d1*Q) * x^n2 + d2*Q`, not `(d1*Q) * x^n1 + d2*Q`,
which is `[12, 12, 0]`. -/
theorem example_deficient_BQ :
    toList (poly_mul_coeff (ofList [3, 1, 2]) 3 (ofList [4]) 1) 3 = [12, 4, 8] ∧
    toList (deficient_BQ (ofList [4]) 3 (ofList [3, 1, 2]) 3) 3 = [12, 4, 8] ∧
    toList (claimed_deficient_BQ (ofList [4]) 3 (ofList [3, 1, 2]) 3) 3 = [12, 12, 0] := by
  decide

end FmpzPoly
